import Mathlib

/-!
# internetDB: address expansion, port filtering and the scan coordinator

A shallow embedding of `main.go`.  The functions of the repository
(`isValidCIDR`, `validateAndGetIPs`, `inc`, `processResponse`, `parseInt`,
`contains`, `main`) are translated from the source.  The functions of the Go
standard library they call (`net.ParseCIDR`, `net.ParseIP`, `IP.Mask`,
`IP.To4`, `IPNet.Contains`, `net.CIDRMask`, `strings.Split`,
`strings.TrimSpace`, `strconv.Atoi`, `fmt.Sprintf`) are modelled after the
library's source.  The text parser `netip.ParseAddr` and the renderer
`IP.String` are taken as parameters (`TextLayer`).

Conventions: a Go `string` is the list of its characters; a byte slice is a
list of naturals below 256, the nil slice being `[]`; Go `int` is 64 bits wide
and is read as an `Int`.
-/

namespace InternetDB

/-! ## Data model -/

/-- Go `string`, read as the sequence of its characters. -/
abbrev GoString := List Char

/-- Go `net.IP`: a byte slice (each element below 256); nil is `[]`. -/
abbrev IP := List Nat

/-- Go `net.IPMask`: a byte slice. -/
abbrev IPMask := List Nat

/-- Go `net.IPv4len`. -/
def IPv4len : Nat := 4

/-- Go `net.IPv6len`. -/
def IPv6len : Nat := 16

/-- Go `net.v4InV6Prefix`: the twelve leading bytes of an IPv4-mapped address. -/
def v4InV6Head : IP := [0, 0, 0, 0, 0, 0, 0, 0, 0, 0, 255, 255]

/-- Go `net.IPNet`: a network number and its mask. -/
structure IPNet where
  IP : IP
  Mask : IPMask
deriving DecidableEq, Repr

/-- Go `netip.Addr`: a 128-bit value tagged as IPv4 or as IPv6 with a zone.
An IPv4 address holds its 32-bit value; `As16` places it in the mapped range. -/
inductive NetipAddr where
  | v4 (w : Nat)
  | v6 (w : Nat) (zone : GoString)
deriving DecidableEq, Repr

/-- The two text functions of the Go library that the program relies on and
that are not modelled here: `netip.ParseAddr` and `IP.String`. -/
structure TextLayer where
  parseAddr : GoString → Option NetipAddr
  ipString : IP → GoString

/-! ## Byte sequences as numbers -/

/-- Big-endian value of a byte sequence. -/
def beValue (bs : List Nat) : Nat :=
  bs.foldl (fun acc b => acc * 256 + b) 0

/-- The `n` low bytes of `w`, most significant first. -/
def beBytes : Nat → Nat → List Nat
  | 0, _ => []
  | n + 1, w => beBytes n (w / 256) ++ [w % 256]

/-! ## `inc` (main.go, lines 56-63) -/

/-- The loop of `inc`, with `j + 1` as the counter: the byte at index `j` is
incremented modulo 256, and the loop goes on to index `j - 1` only when the
byte wrapped to 0. -/
def incLoop (ip : IP) : Nat → IP
  | 0 => ip
  | j + 1 =>
    let ip1 := ip.set j ((ip.getD j 0 + 1) % 256)
    if ip1.getD j 0 > 0 then ip1 else incLoop ip1 j

/-- Go `inc`: `for j := len(ip) - 1; j >= 0; j--`. -/
def inc (ip : IP) : IP :=
  incLoop ip ip.length

/-! ## The `net` package: masks and containment -/

/-- Go `net.isZeros`. -/
def isZeros (p : IP) : Bool :=
  p.all (fun b => b == 0)

/-- Go `net.allFF`. -/
def allFF (b : List Nat) : Bool :=
  b.all (fun c => c == 255)

/-- Go `IP.To4`: the 4-byte form of an IPv4 address, nil (`[]`) otherwise. -/
def To4 (ip : IP) : IP :=
  if ip.length = IPv4len then ip
  else if ip.length = IPv6len ∧ isZeros (ip.take 10) = true ∧ ip.getD 10 0 = 255
      ∧ ip.getD 11 0 = 255 then ip.drop 12
  else []

/-- The loop of Go `net.CIDRMask` over the remaining `l` bytes with `n` one bits left. -/
def cidrMaskBytes : Nat → Nat → IPMask
  | 0, _ => []
  | l + 1, n =>
    if n ≥ 8 then 255 :: cidrMaskBytes l (n - 8)
    else (255 - (255 >>> n)) :: cidrMaskBytes l 0

/-- Go `net.CIDRMask(ones, bits)`; nil (`[]`) when the arguments are out of range. -/
def CIDRMask (ones bits : Nat) : IPMask :=
  if bits ≠ 8 * IPv4len ∧ bits ≠ 8 * IPv6len then []
  else if ones > bits then []
  else cidrMaskBytes (bits / 8) ones

/-- Go `IP.Mask`: nil (`[]`) when the lengths do not fit. -/
def Mask (ip : IP) (mask : IPMask) : IP :=
  let mask1 := if mask.length = IPv6len ∧ ip.length = IPv4len ∧ allFF (mask.take 12) = true
    then mask.drop 12 else mask
  let ip1 := if mask1.length = IPv4len ∧ ip.length = IPv6len ∧ ip.take 12 = v4InV6Head
    then ip.drop 12 else ip
  if ip1.length ≠ mask1.length then [] else List.zipWith (fun a b => a &&& b) ip1 mask1

/-- Go `net.networkNumberAndMask`; `([], [])` stands for `(nil, nil)`. -/
def networkNumberAndMask (n : IPNet) : IP × IPMask :=
  let ip4 := To4 n.IP
  let ip := if ip4 ≠ [] then ip4 else n.IP
  if ip4 = [] ∧ ip.length ≠ IPv6len then ([], [])
  else if n.Mask.length = IPv4len then
    if ip.length ≠ IPv4len then ([], []) else (ip, n.Mask)
  else if n.Mask.length = IPv6len then
    if ip.length = IPv4len then (ip, n.Mask.drop 12) else (ip, n.Mask)
  else ([], [])

/-- The comparison loop of `IPNet.Contains`: `nn[i]&m[i] == ip[i]&m[i]` for every index. -/
def sameMasked : IP → IP → IPMask → Bool
  | a :: as, b :: bs, m :: ms => (a &&& m == b &&& m) && sameMasked as bs ms
  | _, _, _ => true

/-- Go `IPNet.Contains`. -/
def Contains (n : IPNet) (ip : IP) : Bool :=
  let nm := networkNumberAndMask n
  let x := To4 ip
  let ip1 := if x ≠ [] then x else ip
  if ip1.length ≠ nm.1.length then false else sameMasked nm.1 ip1 nm.2

/-! ## The `net` package: parsing -/

/-- Go `Addr.BitLen`. -/
def NetipAddr.BitLen : NetipAddr → Nat
  | .v4 _ => 32
  | .v6 _ _ => 128

/-- Go `Addr.Zone`. -/
def NetipAddr.Zone : NetipAddr → GoString
  | .v4 _ => []
  | .v6 _ z => z

/-- Go `Addr.As16`: the 16-byte form; an IPv4 address is IPv4-mapped. -/
def NetipAddr.As16 : NetipAddr → IP
  | .v4 w => v4InV6Head ++ beBytes 4 w
  | .v6 w _ => beBytes 16 w

/-- Go `bytealg.IndexByteString`: index of the first occurrence of `c`. -/
def indexByte : GoString → Char → Option Nat
  | [], _ => none
  | x :: xs, c => if x = c then some 0 else (indexByte xs c).map (fun i => i + 1)

/-- Go `net.big`, the bound used by `dtoi`. -/
def dtoiBig : Nat := 0xFFFFFF

/-- The loop of Go `net.dtoi`: `(n, i, ok)` from the accumulated value `n` and
the number `i` of digits consumed so far. -/
def dtoiLoop : GoString → Nat → Nat → Nat × Nat × Bool
  | [], n, i => if i = 0 then (0, 0, false) else (n, i, true)
  | c :: cs, n, i =>
    if '0' ≤ c ∧ c ≤ '9' then
      let n1 := n * 10 + (c.toNat - '0'.toNat)
      if n1 ≥ dtoiBig then (dtoiBig, i, false) else dtoiLoop cs n1 (i + 1)
    else if i = 0 then (0, 0, false) else (n, i, true)

/-- Go `net.dtoi`: decimal to integer, with the number of characters consumed. -/
def dtoi (s : GoString) : Nat × Nat × Bool :=
  dtoiLoop s 0 0

/-- The first half of Go `net.ParseCIDR`: the text is cut at the first `/`, the
left part is parsed as an address without zone and the right part as a prefix
length no larger than the address width.  `none` stands for the parse error. -/
def parseCIDRParts (T : TextLayer) (s : GoString) : Option (NetipAddr × Nat) :=
  match indexByte s '/' with
  | none => none
  | some i =>
    let addr := s.take i
    let mask := s.drop (i + 1)
    match T.parseAddr addr with
    | none => none
    | some ipAddr =>
      if ipAddr.Zone ≠ [] then none
      else
        let r := dtoi mask
        if r.2.2 = false ∨ r.2.1 ≠ mask.length ∨ r.1 > ipAddr.BitLen then none
        else some (ipAddr, r.1)

/-- The network `IPNet{IP: ip.Mask(m), Mask: m}` with `m = CIDRMask(n, bitLen)`
that Go `net.ParseCIDR` builds from the parsed address and prefix length. -/
def parsedNet (ipAddr : NetipAddr) (n : Nat) : IPNet :=
  let m := CIDRMask n ipAddr.BitLen
  { IP := Mask ipAddr.As16 m, Mask := m }

/-- Go `net.ParseCIDR`: the 16-byte address and the network, or `none` on error. -/
def ParseCIDR (T : TextLayer) (s : GoString) : Option (IP × IPNet) :=
  match parseCIDRParts T s with
  | none => none
  | some (ipAddr, n) => some (ipAddr.As16, parsedNet ipAddr n)

/-- Go `net.ParseIP`: the 16-byte address, nil (`[]`) on error. -/
def ParseIP (T : TextLayer) (s : GoString) : IP :=
  match T.parseAddr s with
  | none => []
  | some ipAddr => if ipAddr.Zone ≠ [] then [] else ipAddr.As16

/-! ## `isValidCIDR` and `validateAndGetIPs` (main.go, lines 33-54) -/

/-- Go `isValidCIDR`: `err == nil` for `net.ParseCIDR(input)`. -/
def isValidCIDR (T : TextLayer) (input : GoString) : Bool :=
  (ParseCIDR T input).isSome

/-- The loop `for ip := ip.Mask(ipNet.Mask); ipNet.Contains(ip); inc(ip)` with
body `ips = append(ips, ip.String())`.  `none` when the fuel runs out before the
condition fails. -/
def expandLoop (T : TextLayer) (ipNet : IPNet) : Nat → IP → List GoString → Option (List GoString)
  | 0, _, _ => none
  | fuel + 1, ip, ips =>
    if Contains ipNet ip = true then expandLoop T ipNet fuel (inc ip) (ips ++ [T.ipString ip])
    else some ips

/-- The slice expression `ips[1 : len(ips)-1]`. -/
def dropEnds (ips : List GoString) : List GoString :=
  (ips.take (ips.length - 1)).drop 1

/-- Go `validateAndGetIPs`.  The outer `none` is "no return within the fuel";
`some none` is the nil slice, `some (some l)` a non-nil slice. -/
def validateAndGetIPs (T : TextLayer) (fuel : Nat) (input : GoString) :
    Option (Option (List GoString)) :=
  if isValidCIDR T input = true then
    match ParseCIDR T input with
    | none => none
    | some (ip, ipNet) =>
      match expandLoop T ipNet fuel (Mask ip ipNet.Mask) [] with
      | none => none
      | some ips =>
        if ips.length > 2 then some (some (dropEnds ips)) else some (some ips)
  else if ParseIP T input ≠ [] then some (some [input])
  else some none

/-! ## Decimal rendering and a concrete text layer for IPv4 -/

/-- The digit character of a value below 10. -/
def digitChar (d : Nat) : Char :=
  Char.ofNat ('0'.toNat + d)

/-- Decimal digits of `n`, pushed in front of `acc`; the first argument bounds the recursion. -/
def natDigits : Nat → Nat → List Char → List Char
  | 0, _, acc => acc
  | f + 1, n, acc =>
    let acc1 := digitChar (n % 10) :: acc
    if n / 10 = 0 then acc1 else natDigits f (n / 10) acc1

/-- Decimal rendering of a natural number. -/
def fmtNat (n : Nat) : GoString :=
  natDigits (n + 1) n []

/-- Decimal rendering of an integer, the `%d` verb of `fmt.Sprintf`. -/
def fmtInt : Int → GoString
  | .ofNat n => fmtNat n
  | .negSucc n => '-' :: fmtNat (n + 1)

/-- The loop of Go `netip.parseIPv4Fields`: `first` says the index is 0,
`prevDot` that the previous character was a dot. -/
def v4FieldsLoop : GoString → Bool → Bool → Nat → Nat → List Nat → Option (List Nat)
  | [], _, _, val, _, fields => if fields.length < 3 then none else some (fields ++ [val])
  | c :: cs, first, prevDot, val, digLen, fields =>
    if '0' ≤ c ∧ c ≤ '9' then
      if digLen = 1 ∧ val = 0 then none
      else
        let v := val * 10 + (c.toNat - '0'.toNat)
        if v > 255 then none else v4FieldsLoop cs false false v (digLen + 1) fields
    else if c = '.' then
      if first = true ∨ cs = [] ∨ prevDot = true then none
      else if fields.length = 3 then none
      else v4FieldsLoop cs false true 0 0 (fields ++ [val])
    else none

/-- Go `netip.parseIPv4`. -/
def parseIPv4 (s : GoString) : Option NetipAddr :=
  (v4FieldsLoop s true false 0 0 []).map (fun f => NetipAddr.v4 (beValue f))

/-- Go `netip.ParseAddr` on text without a colon: the first of `.`, `:`, `%`
decides; text that would go to the IPv6 parser is rejected here. -/
def parseAddrDotted : GoString → GoString → Option NetipAddr
  | [], _ => none
  | c :: cs, s =>
    if c = '.' then parseIPv4 s
    else if c = ':' then none
    else if c = '%' then none
    else parseAddrDotted cs s

/-- Dotted-decimal rendering of a byte sequence. -/
def dotted : List Nat → GoString
  | [] => []
  | [b] => fmtNat b
  | b :: bs => fmtNat b ++ '.' :: dotted bs

/-- Go `IP.String` for addresses with a 4-byte form; other addresses are
rendered byte by byte behind a question mark (the IPv6 text form is not modelled). -/
def ipStringDotted (ip : IP) : GoString :=
  if ip = [] then "<nil>".toList
  else if (To4 ip).length = IPv4len then dotted (To4 ip)
  else '?' :: dotted ip

/-- A concrete text layer for dotted-decimal IPv4 text, on which the
definitions can be evaluated. -/
def dottedQuad : TextLayer where
  parseAddr := fun s => parseAddrDotted s s
  ipString := ipStringDotted

/-- Every element is a byte. -/
def IsBytes (l : List Nat) : Prop := ∀ b ∈ l, b < 256

/-! ## Vocabulary for stating the properties of the expansion -/

/-- Number of bytes of the address the expansion loop runs on: 4 for an IPv4
CIDR, 16 for an IPv6 CIDR. -/
def NetipAddr.byteLen : NetipAddr → Nat
  | .v4 _ => 4
  | .v6 _ _ => 16

/-- The numeric value of the address: 32 bits for IPv4, 128 bits for IPv6. -/
def NetipAddr.value : NetipAddr → Nat
  | .v4 w => w % 2 ^ 32
  | .v6 w _ => w % 2 ^ 128

/-- Number of host bits of a block with prefix length `p`. -/
def hostBits (a : NetipAddr) (p : Nat) : Nat :=
  a.BitLen - p

/-- The network address of the block (all host bits zero), as a number. -/
def networkValue (a : NetipAddr) (p : Nat) : Nat :=
  a.value / 2 ^ hostBits a p * 2 ^ hostBits a p

/-- The first IPv4-mapped IPv6 address, `::ffff:0.0.0.0`, as a number. -/
def mappedBase : Nat := 0xffff * 2 ^ 32

/-- An IPv6 block that is wider than the IPv4-mapped range `::ffff:0:0/96` and
contains it. -/
def straddlesMapped (a : NetipAddr) (p : Nat) : Prop :=
  match a with
  | .v4 _ => False
  | .v6 _ _ => p < 96 ∧ mappedBase / 2 ^ hostBits a p = networkValue a p / 2 ^ hostBits a p

/-- The addresses `first, first + 1, ...` (`count` of them) as `n`-byte
sequences, rendered by the text layer. -/
def renderRange (T : TextLayer) (n first count : Nat) : List GoString :=
  (List.range' first count).map (fun v => T.ipString (beBytes n v))

/-! ## The `strings`, `strconv` and `fmt` packages -/

/-- The loop of Go `strings.Split` for a one-character separator: `cur` is the
piece read so far. -/
def splitLoop (sep : Char) : GoString → GoString → List GoString
  | [], cur => [cur]
  | c :: cs, cur => if c = sep then cur :: splitLoop sep cs [] else splitLoop sep cs (cur ++ [c])

/-- Go `strings.Split(s, sep)` for a one-character separator: the pieces
between the separators, one more than there are separators. -/
def Split (s : GoString) (sep : Char) : List GoString :=
  splitLoop sep s []

/-- Go `unicode.IsSpace`. -/
def isSpace (c : Char) : Bool :=
  let n := c.toNat
  n == 9 || n == 10 || n == 11 || n == 12 || n == 13 || n == 32 || n == 0x85 || n == 0xA0
    || n == 0x1680 || (0x2000 ≤ n && n ≤ 0x200a) || n == 0x2028 || n == 0x2029
    || n == 0x202f || n == 0x205f || n == 0x3000

/-- Go `strings.TrimSpace`: leading and trailing white space removed. -/
def TrimSpace (s : GoString) : GoString :=
  ((s.dropWhile isSpace).reverse.dropWhile isSpace).reverse

/-- The two errors of `strconv`: `ErrSyntax` and `ErrRange`. -/
inductive NumError where
  | ErrSyntax
  | ErrRange
deriving DecidableEq, Repr

/-- A decimal digit, as `strconv` tests it on a byte. -/
def isDigit (c : Char) : Bool :=
  decide ('0' ≤ c) && decide (c ≤ '9')

/-- The value of a digit character. -/
def digitVal (c : Char) : Nat :=
  c.toNat - '0'.toNat

/-- Go `strconv.IntSize` on a 64-bit platform. -/
def intSize : Nat := 64

/-- Go `maxUint64`. -/
def maxUint64 : Nat := 2 ^ 64 - 1

/-- The digit loop of Go `strconv.ParseUint(s, 10, 64)` from the accumulated
value `n`: a non-digit is a syntax error with value 0; an overflow of 64 bits
is a range error with value `maxUint64`, reported as soon as it happens. -/
def parseUintLoop : GoString → Nat → Nat × Option NumError
  | [], n => (n, none)
  | c :: cs, n =>
    if isDigit c = false then (0, some .ErrSyntax)
    else if n ≥ maxUint64 / 10 + 1 then (maxUint64, some .ErrRange)
    else
      let n1 := n * 10 + digitVal c
      if n1 > maxUint64 then (maxUint64, some .ErrRange) else parseUintLoop cs n1

/-- Go `strconv.ParseUint(s, 10, 64)`. -/
def ParseUint (s : GoString) : Nat × Option NumError :=
  if s = [] then (0, some .ErrSyntax) else parseUintLoop s 0

/-- Go `strconv.ParseInt(s, 10, 0)`. -/
def ParseInt (s : GoString) : Int × Option NumError :=
  if s = [] then (0, some .ErrSyntax)
  else
    let neg := s.head? = some '-'
    let s1 := if s.head? = some '+' ∨ s.head? = some '-' then s.drop 1 else s
    let r := ParseUint s1
    if r.2 = some .ErrSyntax then (0, some .ErrSyntax)
    else
      let cutoff : Nat := 2 ^ (intSize - 1)
      if ¬ neg ∧ r.1 ≥ cutoff then (Int.ofNat (cutoff - 1), some .ErrRange)
      else if neg ∧ r.1 > cutoff then (-Int.ofNat cutoff, some .ErrRange)
      else if neg then (-Int.ofNat r.1, none) else (Int.ofNat r.1, none)

/-- The digit loop of the fast path of Go `strconv.Atoi`. -/
def atoiFastLoop : GoString → Nat → Option Nat
  | [], n => some n
  | ch :: cs, n => if isDigit ch = false then none else atoiFastLoop cs (n * 10 + digitVal ch)

/-- Go `strconv.Atoi`: the value and the error.  Text shorter than 19 is read
by the fast path, the rest by `ParseInt`. -/
def Atoi (s : GoString) : Int × Option NumError :=
  if 0 < s.length ∧ s.length < 19 then
    let s1 := if s.head? = some '-' ∨ s.head? = some '+' then s.drop 1 else s
    if s1.length < 1 then (0, some .ErrSyntax)
    else
      match atoiFastLoop s1 0 with
      | none => (0, some .ErrSyntax)
      | some n => if s.head? = some '-' then (-Int.ofNat n, none) else (Int.ofNat n, none)
  else ParseInt s

/-- Go `fmt.Sprintf("%s:%s", a, b)`. -/
def sprintfSS (a b : GoString) : GoString :=
  a ++ ':' :: b

/-- Go `fmt.Sprintf("%s:%d", a, n)`. -/
def sprintfSD (a : GoString) (n : Int) : GoString :=
  a ++ ':' :: fmtInt n

/-! ## `processResponse`, `parseInt`, `contains` (main.go, lines 86-125) -/

/-- Go `ShodanResponse`. -/
structure ShodanResponse where
  Hostnames : List GoString
  IP : GoString
  Ports : List Int
deriving DecidableEq, Repr

/-- Go `parseInt`: the value of `strconv.Atoi`, the error dropped. -/
def parseInt (portStr : GoString) : Int :=
  (Atoi portStr).1

/-- Go `contains`: linear search. -/
def contains : List Int → Int → Bool
  | [], _ => false
  | item :: rest, val => if item = val then true else contains rest val

/-- Go `processResponse`: `result` grows by `append` in both loops. -/
def processResponse (response : ShodanResponse) (searchPorts : GoString) : List GoString :=
  if searchPorts ≠ [] then
    (Split searchPorts ',').foldl
      (fun result portStr =>
        let port := TrimSpace portStr
        let portInt := parseInt port
        if contains response.Ports portInt = true then
          result ++ [sprintfSS response.IP port]
        else result)
      []
  else
    response.Ports.foldl (fun result port => result ++ [sprintfSD response.IP port]) []

/-! ## Vocabulary for stating the properties of `parseInt` -/

/-- The decimal value of a sequence of digit characters. -/
def decValue (ds : GoString) : Nat :=
  ds.foldl (fun n c => n * 10 + digitVal c) 0

/-- The text behind one optional leading sign. -/
def unsignedPart (s : GoString) : GoString :=
  if s.head? = some '+' ∨ s.head? = some '-' then s.drop 1 else s

/-- The run of digits at the start of the unsigned part. -/
def digitRun (tok : GoString) : GoString :=
  (unsignedPart tok).takeWhile isDigit

/-- Text that `Atoi` rejects with the syntax error: nothing behind the
optional sign, or a non-digit character met before the digits read so far
overflow 64 bits. -/
def SyntaxBad (tok : GoString) : Prop :=
  unsignedPart tok = [] ∨ (digitRun tok ≠ unsignedPart tok ∧ decValue (digitRun tok) < 2 ^ 64)

/-- Text that `Atoi` rejects with the range error: digits only, with a value
outside the 64-bit signed range, or a run of digits that overflows 64 bits
before a non-digit character is met. -/
def TooLarge (tok : GoString) : Prop :=
  unsignedPart tok ≠ [] ∧
    if digitRun tok = unsignedPart tok then
      (if tok.head? = some '-' then 2 ^ 63 < decValue (digitRun tok)
        else 2 ^ 63 ≤ decValue (digitRun tok))
    else 2 ^ 64 ≤ decValue (digitRun tok)

/-- The bound of the 64-bit signed range on the side of the sign of the text. -/
def saturated (tok : GoString) : Int :=
  if tok.head? = some '-' then -(2 ^ 63) else 2 ^ 63 - 1

/-! ## `main` (main.go, lines 127-183): the scan coordinator

The sequential part of `main` is a function of the flags; the concurrent part
is a transition system whose steps are the statements of `main` and of the
goroutines, interleaved by a scheduler.  Standard output is the list of the
texts written by the calls of `fmt.Println`; the banner and the usage text go
to standard error and are left out. -/

/-- The flags of the program: `-h`, `-r`, `-p`, `-t`. -/
structure Config where
  help : Bool
  ipRange : GoString
  searchPorts : GoString
  threads : Int
deriving DecidableEq, Repr

/-- The result of `fetchDataFromShodan`: a decoded response or an error. -/
inductive Lookup where
  | ok (response : ShodanResponse)
  | error (msg : GoString)
deriving DecidableEq, Repr

/-- Where `main` stands: at `wg.Add(1)` (or at the end of the loop), at the
send on the semaphore, at the `go` statement, at `wg.Wait()`, after its
return, or stopped by the panic of `make` on a negative size. -/
inductive MainPc where
  | add
  | acquire
  | spawn
  | wait
  | exited
  | panicked
deriving DecidableEq, Repr

/-- Where a goroutine stands: before `fetchDataFromShodan` returns, before the
report of its result, before `wg.Done()`, before the receive on the semaphore,
or finished. -/
inductive UnitPc where
  | started
  | fetched (outcome : Lookup)
  | reported
  | doneCalled
  | finished
deriving DecidableEq, Repr

/-- A goroutine: its address and its position. -/
structure UnitState where
  ip : GoString
  pc : UnitPc
deriving DecidableEq, Repr

/-- The state of a run: the position of `main`, the addresses still to be
dispatched, the goroutines in the order of their start, the number of elements
in the semaphore channel and its capacity, the counter of the wait group, the
texts written to standard output and the number of lookups made. -/
structure RunState where
  pc : MainPc
  pending : List GoString
  units : List UnitState
  sem : Nat
  cap : Nat
  wg : Int
  stdout : List GoString
  lookups : Nat
deriving DecidableEq, Repr

/-- The line feed. -/
def newline : Char := Char.ofNat 10

/-- Go `fmt.Println` of one text: the text and a line feed. -/
def println (s : GoString) : GoString :=
  s ++ [newline]

/-- Go `strings.Join`. -/
def Join : List GoString → GoString → GoString
  | [], _ => []
  | [a], _ => a
  | a :: b :: rest, sep => a ++ sep ++ Join (b :: rest) sep

/-- A state in which `main` has stopped before the loop, with the given output. -/
def stopped (pc : MainPc) (out : List GoString) : RunState :=
  { pc := pc, pending := [], units := [], sem := 0, cap := 0, wg := 0, stdout := out,
    lookups := 0 }

/-- The sequential part of `main`, up to the creation of the semaphore:
`none` when `validateAndGetIPs` does not return within the fuel. -/
def mainInit (T : TextLayer) (fuel : Nat) (cfg : Config) : Option RunState :=
  if cfg.help = true then some (stopped .exited [])
  else if cfg.ipRange ≠ [] then
    match validateAndGetIPs T fuel cfg.ipRange with
    | none => none
    | some none => some (stopped .exited [println "Invalid input".toList])
    | some (some result) =>
      if cfg.threads < 0 then some (stopped .panicked [])
      else
        some { pc := .add, pending := result, units := [], sem := 0,
               cap := cfg.threads.toNat, wg := 0, stdout := [], lookups := 0 }
  else some (stopped .exited [])

/-- The steps the scheduler can choose: the next statement of `main`, the next
statement of goroutine `i` (with the outcome of the lookup, used when the
statement is the lookup), or the hand-over between the send of `main` and the
receive of goroutine `i` on a channel without buffer. -/
inductive Action where
  | main
  | unit (i : Nat) (outcome : Lookup)
  | rendezvous (i : Nat)
deriving DecidableEq, Repr

/-- One statement of `main`; `none` when `main` is blocked or has stopped. -/
def stepMain (s : RunState) : Option RunState :=
  match s.pc with
  | .add =>
    match s.pending with
    | [] => some { s with pc := .wait }
    | _ :: _ => some { s with pc := .acquire, wg := s.wg + 1 }
  | .acquire => if s.sem < s.cap then some { s with pc := .spawn, sem := s.sem + 1 } else none
  | .spawn =>
    match s.pending with
    | [] => none
    | ip :: rest =>
      some { s with pc := .add, pending := rest,
                    units := s.units ++ [{ ip := ip, pc := .started }] }
  | .wait => if s.wg = 0 then some { s with pc := .exited } else none
  | .exited => none
  | .panicked => none

/-- The text written by a goroutine for the outcome of its lookup. -/
def report (searchPorts : GoString) (out : List GoString) : Lookup → List GoString
  | .error msg => out ++ [println ("Error: ".toList ++ msg)]
  | .ok response =>
    let result := processResponse response searchPorts
    if result.length > 0 then out ++ [println (Join result [newline])] else out

/-- One statement of goroutine `i`; `none` when there is no such goroutine,
when it is blocked or finished, or when `main` has returned (the program is
over). -/
def stepUnit (searchPorts : GoString) (s : RunState) (i : Nat) (outcome : Lookup) :
    Option RunState :=
  if s.pc = .exited ∨ s.pc = .panicked then none
  else
    match s.units[i]? with
    | none => none
    | some u =>
      match u.pc with
      | .started =>
        some { s with units := s.units.set i { u with pc := .fetched outcome },
                      lookups := s.lookups + 1 }
      | .fetched r =>
        some { s with units := s.units.set i { u with pc := .reported },
                      stdout := report searchPorts s.stdout r }
      | .reported =>
        some { s with units := s.units.set i { u with pc := .doneCalled }, wg := s.wg - 1 }
      | .doneCalled =>
        if s.sem > 0 then
          some { s with units := s.units.set i { u with pc := .finished }, sem := s.sem - 1 }
        else none
      | .finished => none

/-- The hand-over on a channel without buffer: `main` is at its send and
goroutine `i` at its receive; both go on. -/
def stepRendezvous (s : RunState) (i : Nat) : Option RunState :=
  if s.cap = 0 ∧ s.pc = .acquire then
    match s.units[i]? with
    | none => none
    | some u =>
      if u.pc = .doneCalled then
        some { s with pc := .spawn, units := s.units.set i { u with pc := .finished } }
      else none
  else none

/-- One step of the run. -/
def step (searchPorts : GoString) (s : RunState) : Action → Option RunState
  | .main => stepMain s
  | .unit i outcome => stepUnit searchPorts s i outcome
  | .rendezvous i => stepRendezvous s i

/-- A schedule, step by step; `none` when a chosen step is not enabled. -/
def runActions (searchPorts : GoString) : RunState → List Action → Option RunState
  | s, [] => some s
  | s, a :: rest =>
    match step searchPorts s a with
    | none => none
    | some s1 => runActions searchPorts s1 rest

/-- The states a run can reach from `s0`. -/
def Reachable (searchPorts : GoString) (s0 s : RunState) : Prop :=
  ∃ acts : List Action, runActions searchPorts s0 acts = some s

/-- A goroutine that holds a slot of the semaphore: it has not yet received
from the channel. -/
def holdsSlot (u : UnitState) : Bool :=
  decide (u.pc ≠ .finished)

/-- The number of units that have acquired a slot of the semaphore and not yet
released it: the goroutines that have not finished, and the unit for which
`main` has sent on the channel and not yet started the goroutine. -/
def inFlight (s : RunState) : Nat :=
  (s.units.filter holdsSlot).length + (if s.pc = .spawn then 1 else 0)

/-- The filter made of a response's own ports: the decimal renderings of the
ports, in order, separated by commas; empty for an empty port list. -/
def ownFilter (ports : List Int) : GoString :=
  Join (ports.map fmtInt) [',']

/-- The number of line feeds of a text: the number of its lines when the text
ends with a line feed. -/
def lineFeeds (text : GoString) : Nat :=
  text.count newline

/-! ## Vocabulary for stating the properties of a run -/

/-- What the report of a goroutine writes: the match lines of unit `unit`, or
the error of its lookup. -/
inductive Event where
  | matches (unit : Nat) (lines : List GoString)
  | failure (unit : Nat) (msg : GoString)
deriving DecidableEq, Repr

/-- The event of the report of unit `i` for the outcome of its lookup: nothing
when the lookup succeeded without a match. -/
def eventOf (searchPorts : GoString) (i : Nat) : Lookup → Option Event
  | .error msg => some (.failure i msg)
  | .ok response =>
    let result := processResponse response searchPorts
    if result.length > 0 then some (.matches i result) else none

/-- The text that an event puts on standard output. -/
def renderEvent : Event → GoString
  | .matches _ lines => println (Join lines [newline])
  | .failure _ msg => println ("Error: ".toList ++ msg)

/-- The event of one step: the report of goroutine `i`, when the step is that report. -/
def stepEvent (searchPorts : GoString) (s : RunState) : Action → Option Event
  | .unit i _ =>
    match s.units[i]? with
    | none => none
    | some u =>
      match u.pc with
      | .fetched r => eventOf searchPorts i r
      | _ => none
  | _ => none

/-- The events of a schedule, in the order of the steps. -/
def runEvents (searchPorts : GoString) : RunState → List Action → List Event
  | _, [] => []
  | s, a :: rest =>
    match step searchPorts s a with
    | none => []
    | some s1 => (stepEvent searchPorts s a).toList ++ runEvents searchPorts s1 rest

/-- The match lines that an event carries for unit `j`. -/
def eventLines (j : Nat) : Event → List GoString
  | .matches k lines => if k = j then lines else []
  | .failure _ _ => []

/-- The match lines emitted for unit `j` in a sequence of events. -/
def unitLines (evs : List Event) (j : Nat) : List GoString :=
  (evs.map (eventLines j)).flatten

/-- The match lines of an outcome: those of `processResponse` for a response,
none for an error. -/
def matchLines (searchPorts : GoString) : Lookup → List GoString
  | .ok response => processResponse response searchPorts
  | .error _ => []

/-- A goroutine that has made its report. -/
def pastReport : UnitPc → Bool
  | .reported => true
  | .doneCalled => true
  | .finished => true
  | _ => false

/-- The step with the outcome that the assignment `o` gives to its unit. -/
def withOutcome (o : Nat → Lookup) : Action → Action
  | .unit j _ => .unit j (o j)
  | a => a

/-- A schedule under an assignment of lookup outcomes to units. -/
def schedule (o : Nat → Lookup) (sched : List Action) : List Action :=
  sched.map (withOutcome o)

/-- The position of a goroutine, without the outcome it may hold. -/
def erasePc : UnitPc → UnitPc
  | .fetched _ => .fetched (.error [])
  | pc => pc

/-- A goroutine without the outcome it may hold. -/
def eraseUnit (u : UnitState) : UnitState :=
  { u with pc := erasePc u.pc }

/-- The control state of a run: everything but the outcomes held by the
goroutines and the texts written. -/
def control (s : RunState) : RunState :=
  { s with units := s.units.map eraseUnit, stdout := [] }

/-- Two states of two runs that differ at most in the outcome held by unit `i`
and in the texts written: the control states are equal and every other
goroutine is the same. -/
def SameButUnit (i : Nat) (s1 s2 : RunState) : Prop :=
  control s1 = control s2 ∧ ∀ j, j ≠ i → s1.units[j]? = s2.units[j]?

/-- The events `evs` of a run that has reached `s` under the assignment `o`
give every goroutine the match lines of its own outcome once it has made its
report, and none before; a goroutine that holds an outcome holds the one that
`o` assigns to it. -/
def OwnLines (searchPorts : GoString) (o : Nat → Lookup) (s : RunState) (evs : List Event) :
    Prop :=
  ∀ j, (∀ u, s.units[j]? = some u →
      (∀ r, u.pc = .fetched r → r = o j) ∧
      unitLines evs j = if pastReport u.pc = true then matchLines searchPorts (o j) else []) ∧
    (s.units[j]? = none → unitLines evs j = [])

/-- A goroutine that has not yet called `wg.Done()`. -/
def beforeDone (u : UnitState) : Bool :=
  match u.pc with
  | .started => true
  | .fetched _ => true
  | .reported => true
  | _ => false

/-- A goroutine whose call of `fetchDataFromShodan` has returned. -/
def lookedUp (u : UnitState) : Bool :=
  decide (u.pc ≠ .started)

/-- The state of the join barrier in a run over the addresses `addrs`: the
addresses dispatched and those pending make up `addrs`; the counter of the
wait group is the number of goroutines that have not yet called `wg.Done()`,
plus one while `main` is between `wg.Add(1)` and the `go` statement; the
number of lookups made is the number of goroutines whose lookup has returned;
`main` is at `wg.Wait()` or past it only when no address is pending, and past
it only when the counter is 0. -/
def Barrier (addrs : List GoString) (s : RunState) : Prop :=
  s.units.map UnitState.ip ++ s.pending = addrs ∧
  s.wg = ((s.units.filter beforeDone).length : Int) +
    (if s.pc = .acquire ∨ s.pc = .spawn then 1 else 0) ∧
  s.lookups = (s.units.filter lookedUp).length ∧
  ((s.pc = .wait ∨ s.pc = .exited) → s.pending = []) ∧
  (s.pc = .exited → s.wg = 0)

/-! # Properties -/

/-! ## Byte sequences as numbers: lemmas -/

theorem foldl_be (l : List Nat) (a : Nat) :
    List.foldl (fun acc b => acc * 256 + b) a l = a * 256 ^ l.length + beValue l := by
  induction l generalizing a with
  | nil => simp [beValue]
  | cons x xs ih =>
    simp only [List.foldl_cons, List.length_cons, beValue]
    rw [ih (a * 256 + x), ih (0 * 256 + x)]
    ring

theorem beValue_nil : beValue [] = 0 := rfl

theorem beValue_cons (x : Nat) (xs : List Nat) :
    beValue (x :: xs) = x * 256 ^ xs.length + beValue xs := by
  simp only [beValue, List.foldl_cons]
  rw [foldl_be]
  simp [beValue]

theorem beValue_snoc (l : List Nat) (b : Nat) :
    beValue (l ++ [b]) = beValue l * 256 + b := by
  simp [beValue, List.foldl_append]

theorem beValue_append (l r : List Nat) :
    beValue (l ++ r) = beValue l * 256 ^ r.length + beValue r := by
  simp only [beValue, List.foldl_append]
  rw [foldl_be]
  simp [beValue]

theorem isBytes_nil : IsBytes [] := by
  intro b hb
  cases hb

theorem isBytes_cons {x : Nat} {xs : List Nat} :
    IsBytes (x :: xs) ↔ x < 256 ∧ IsBytes xs := by
  simp [IsBytes]

theorem isBytes_append {l r : List Nat} :
    IsBytes (l ++ r) ↔ IsBytes l ∧ IsBytes r := by
  simp only [IsBytes, List.mem_append]
  constructor
  · intro h
    exact ⟨fun b hb => h b (Or.inl hb), fun b hb => h b (Or.inr hb)⟩
  · rintro ⟨h1, h2⟩ b (hb | hb)
    · exact h1 b hb
    · exact h2 b hb

theorem beValue_lt (l : List Nat) (h : IsBytes l) : beValue l < 256 ^ l.length := by
  induction l with
  | nil => simp [beValue]
  | cons x xs ih =>
    rw [isBytes_cons] at h
    rw [beValue_cons, List.length_cons, pow_succ]
    have h1 := ih h.2
    have h2 : x * 256 ^ xs.length ≤ 255 * 256 ^ xs.length :=
      Nat.mul_le_mul_right _ (by omega)
    omega

theorem beBytes_length (n w : Nat) : (beBytes n w).length = n := by
  induction n generalizing w with
  | zero => rfl
  | succ n ih => simp [beBytes, ih]

theorem beBytes_isBytes (n w : Nat) : IsBytes (beBytes n w) := by
  induction n generalizing w with
  | zero => exact isBytes_nil
  | succ n ih =>
    simp only [beBytes]
    rw [isBytes_append]
    refine ⟨ih _, ?_⟩
    intro b hb
    simp only [List.mem_singleton] at hb
    omega

theorem beValue_beBytes (n w : Nat) : beValue (beBytes n w) = w % 256 ^ n := by
  induction n generalizing w with
  | zero => simp [beBytes, beValue, Nat.mod_one]
  | succ n ih =>
    simp only [beBytes]
    rw [beValue_snoc, ih, pow_succ, Nat.mul_comm (256 ^ n) 256, Nat.mod_mul]
    ring

/-! ## `inc`: lemmas -/

theorem incLoop_length (ip : IP) (j : Nat) : (incLoop ip j).length = ip.length := by
  induction j generalizing ip with
  | zero => rfl
  | succ j ih =>
    simp only [incLoop]
    split
    · simp
    · rw [ih]; simp

theorem incLoop_append (pre suf : IP) (j : Nat) (hj : j ≤ pre.length) :
    incLoop (pre ++ suf) j = incLoop pre j ++ suf := by
  induction j generalizing pre with
  | zero => rfl
  | succ j ih =>
    have hlt : j < pre.length := hj
    have hget : (pre ++ suf).getD j 0 = pre.getD j 0 := List.getD_append _ _ _ _ hlt
    have hset : ∀ v, (pre ++ suf).set j v = pre.set j v ++ suf := fun v =>
      List.set_append_left j v hlt
    have hget2 : ∀ v, (pre.set j v ++ suf).getD j 0 = (pre.set j v).getD j 0 := fun v =>
      List.getD_append _ _ _ _ (by simpa using hlt)
    simp only [incLoop, hget, hset, hget2]
    split
    · rfl
    · exact ih _ (by simp; omega)

theorem inc_nil : inc [] = [] := rfl

theorem inc_snoc (pre : IP) (b : Nat) :
    inc (pre ++ [b]) =
      if (b + 1) % 256 > 0 then pre ++ [(b + 1) % 256] else inc pre ++ [0] := by
  have h1 : (pre ++ [b]).getD pre.length 0 = b := by
    rw [List.getD_append_right _ _ _ _ (le_refl _)]; simp
  have h2 : ∀ v, (pre ++ [b]).set pre.length v = pre ++ [v] := fun v => by
    rw [List.set_append_right _ _ (le_refl _)]; simp
  have h3 : ∀ v, (pre ++ [v]).getD pre.length 0 = v := fun v => by
    rw [List.getD_append_right _ _ _ _ (le_refl _)]; simp
  simp only [inc, List.length_append, List.length_singleton, incLoop, h1, h2, h3]
  split
  · rfl
  · rename_i h
    have h0 : (b + 1) % 256 = 0 := by omega
    rw [h0]
    exact incLoop_append pre [0] pre.length (le_refl _)

theorem inc_length (ip : IP) : (inc ip).length = ip.length :=
  incLoop_length ip ip.length

theorem inc_isBytes (ip : IP) (h : IsBytes ip) : IsBytes (inc ip) := by
  induction ip using List.reverseRecOn with
  | nil => simpa [inc_nil] using h
  | append_singleton pre b ih =>
    rw [isBytes_append] at h
    rw [inc_snoc]
    split
    · rw [isBytes_append]
      refine ⟨h.1, ?_⟩
      intro c hc
      simp only [List.mem_singleton] at hc
      omega
    · rw [isBytes_append]
      refine ⟨ih h.1, ?_⟩
      intro c hc
      simp only [List.mem_singleton] at hc
      omega

/-- Numerically, `inc` adds one modulo `256 ^ len`. -/
theorem beValue_inc (ip : IP) (h : IsBytes ip) :
    beValue (inc ip) = (beValue ip + 1) % 256 ^ ip.length := by
  induction ip using List.reverseRecOn with
  | nil => simp [inc_nil, beValue, Nat.mod_one]
  | append_singleton pre b ih =>
    rw [isBytes_append] at h
    have hb : b < 256 := h.2 b (by simp)
    have hpre := beValue_lt pre h.1
    rw [inc_snoc]
    simp only [List.length_append, List.length_singleton, pow_succ]
    split
    · rename_i hpos
      have hb1 : (b + 1) % 256 = b + 1 := by omega
      rw [hb1, beValue_snoc, beValue_snoc]
      rw [Nat.mod_eq_of_lt]
      · ring
      · have : b + 1 < 256 := by omega
        nlinarith
    · rename_i hpos
      have hb1 : b = 255 := by omega
      subst hb1
      rw [beValue_snoc, beValue_snoc, ih h.1]
      have : beValue pre * 256 + 255 + 1 = (beValue pre + 1) * 256 := by ring
      rw [this, Nat.mul_mod_mul_right]
      simp

/-- A byte sequence is determined by its length and value. -/
theorem eq_beBytes (l : List Nat) (h : IsBytes l) : l = beBytes l.length (beValue l) := by
  induction l using List.reverseRecOn with
  | nil => rfl
  | append_singleton pre b ih =>
    rw [isBytes_append] at h
    have hb : b < 256 := h.2 b (by simp)
    simp only [List.length_append, List.length_singleton, beBytes, beValue_snoc]
    have h1 : (beValue pre * 256 + b) / 256 = beValue pre := by omega
    have h2 : (beValue pre * 256 + b) % 256 = b := by omega
    rw [h1, h2, ← ih h.1]

theorem inc_beBytes (n v : Nat) :
    inc (beBytes n v) = beBytes n (v % 256 ^ n + 1) := by
  have hb := inc_isBytes _ (beBytes_isBytes n v)
  have h := eq_beBytes _ hb
  rw [inc_length, beBytes_length, beValue_inc _ (beBytes_isBytes n v), beBytes_length,
    beValue_beBytes] at h
  rw [h]
  have e1 := eq_beBytes _ (beBytes_isBytes n ((v % 256 ^ n + 1) % 256 ^ n))
  have e2 := eq_beBytes _ (beBytes_isBytes n (v % 256 ^ n + 1))
  rw [beBytes_length, beValue_beBytes] at e1 e2
  rw [e2, e1, Nat.mod_mod]

/-! ## Masks: lemmas -/

set_option maxRecDepth 100000 in
theorem land_maskByte : ∀ k < 8, ∀ x < 256,
    x &&& (255 - (255 >>> k)) = x / 2 ^ (8 - k) * 2 ^ (8 - k) := by
  decide

set_option maxRecDepth 100000 in
theorem land_ff : ∀ x < 256, x &&& 255 = x := by
  decide

theorem cidrMaskBytes_length (l n : Nat) : (cidrMaskBytes l n).length = l := by
  induction l generalizing n with
  | zero => rfl
  | succ l ih =>
    simp only [cidrMaskBytes]
    split <;> simp [ih]

theorem two_pow_eight_mul (n : Nat) : 2 ^ (8 * n) = 256 ^ n := by
  rw [pow_mul]; norm_num

/-- Masking with a CIDR mask clears the host bits of the value. -/
theorem beValue_masked (l : List Nat) (hl : IsBytes l) (n : Nat) (hn : n ≤ 8 * l.length) :
    beValue (List.zipWith (fun a b => a &&& b) l (cidrMaskBytes l.length n)) =
      beValue l / 2 ^ (8 * l.length - n) * 2 ^ (8 * l.length - n) := by
  induction l generalizing n with
  | nil => simp [beValue, cidrMaskBytes]
  | cons x xs ih =>
    rw [isBytes_cons] at hl
    obtain ⟨hx, hxs⟩ := hl
    have hT := beValue_lt xs hxs
    simp only [List.length_cons] at hn ⊢
    simp only [cidrMaskBytes]
    split
    · rename_i h8
      simp only [List.zipWith_cons_cons]
      rw [beValue_cons, beValue_cons, land_ff x hx, ih hxs (n - 8) (by omega)]
      simp only [List.length_zipWith, cidrMaskBytes_length, min_self]
      have hh : 8 * (xs.length + 1) - n = 8 * xs.length - (n - 8) := by omega
      rw [hh]
      generalize hH : 8 * xs.length - (n - 8) = h
      have hle : h ≤ 8 * xs.length := by omega
      have hp : 256 ^ xs.length = 2 ^ (8 * xs.length - h) * 2 ^ h := by
        rw [← pow_add, ← two_pow_eight_mul]
        congr 1
        omega
      rw [hp, ← Nat.mul_assoc]
      have hd : (x * 2 ^ (8 * xs.length - h) * 2 ^ h + beValue xs) / 2 ^ h =
          beValue xs / 2 ^ h + x * 2 ^ (8 * xs.length - h) := by
        rw [Nat.add_comm]
        exact Nat.add_mul_div_right _ _ (Nat.two_pow_pos h)
      rw [hd]
      ring
    · rename_i h8
      simp only [List.zipWith_cons_cons]
      rw [beValue_cons, beValue_cons, land_maskByte n (by omega) x hx, ih hxs 0 (by omega)]
      simp only [List.length_zipWith, cidrMaskBytes_length, min_self, Nat.sub_zero]
      rw [two_pow_eight_mul, Nat.div_eq_of_lt hT, Nat.zero_mul, Nat.add_zero]
      have hh : 8 * (xs.length + 1) - n = 8 * xs.length + (8 - n) := by omega
      rw [hh, pow_add, two_pow_eight_mul, ← Nat.div_div_eq_div_mul]
      have : (x * 256 ^ xs.length + beValue xs) / 256 ^ xs.length = x := by
        rw [Nat.add_comm, Nat.add_mul_div_right _ _ (by positivity), Nat.div_eq_of_lt hT]
        simp
      rw [this]
      ring

theorem to4_cond (l : List Nat) (hl : l.length = 12) :
    (isZeros (l.take 10) = true ∧ l.getD 10 0 = 255 ∧ l.getD 11 0 = 255) ↔ l = v4InV6Head := by
  match l, hl with
  | [a0, a1, a2, a3, a4, a5, a6, a7, a8, a9, a10, a11], _ =>
    simp [isZeros, v4InV6Head]
    tauto

theorem beBytes_add (a b v : Nat) :
    beBytes (a + b) v = beBytes a (v / 256 ^ b) ++ beBytes b v := by
  induction b generalizing v with
  | zero => simp [beBytes]
  | succ b ih =>
    rw [← Nat.add_assoc]
    simp only [beBytes]
    rw [ih, List.append_assoc, Nat.div_div_eq_div_mul, pow_succ, Nat.mul_comm 256]

theorem beBytes_inj (n v w : Nat) (h : beBytes n v = beBytes n w) :
    v % 256 ^ n = w % 256 ^ n := by
  have := congrArg beValue h
  simpa [beValue_beBytes] using this

theorem beBytes_mod (n v : Nat) : beBytes n (v % 256 ^ n) = beBytes n v := by
  have e1 := eq_beBytes _ (beBytes_isBytes n (v % 256 ^ n))
  have e2 := eq_beBytes _ (beBytes_isBytes n v)
  rw [beBytes_length, beValue_beBytes] at e1 e2
  rw [e1, e2, Nat.mod_mod]

theorem to4_of_len4 (l : IP) (h : l.length = 4) : To4 l = l := by
  simp [To4, IPv4len, h]

theorem v4InV6Head_eq : v4InV6Head = beBytes 12 65535 := by
  decide

/-- `To4` on a 16-byte address, numerically. -/
theorem to4_beBytes16 (v : Nat) (hv : v < 2 ^ 128) :
    To4 (beBytes 16 v) = if v / 2 ^ 32 = 65535 then beBytes 4 v else [] := by
  have hsplit : beBytes 16 v = beBytes 12 (v / 256 ^ 4) ++ beBytes 4 v := beBytes_add 12 4 v
  have hlen : (beBytes 16 v).length = 16 := beBytes_length _ _
  have h12 : (beBytes 12 (v / 256 ^ 4)).length = 12 := beBytes_length _ _
  have hc := to4_cond (beBytes 12 (v / 256 ^ 4)) h12
  have ht10 : (beBytes 16 v).take 10 = (beBytes 12 (v / 256 ^ 4)).take 10 := by
    rw [hsplit, List.take_append_of_le_length (by omega)]
  have hg10 : (beBytes 16 v).getD 10 0 = (beBytes 12 (v / 256 ^ 4)).getD 10 0 := by
    rw [hsplit]; exact List.getD_append _ _ _ _ (by omega)
  have hg11 : (beBytes 16 v).getD 11 0 = (beBytes 12 (v / 256 ^ 4)).getD 11 0 := by
    rw [hsplit]; exact List.getD_append _ _ _ _ (by omega)
  have hdrop : (beBytes 16 v).drop 12 = beBytes 4 v := by
    rw [hsplit, List.drop_append_of_le_length (by omega), List.drop_of_length_le (by omega)]
    rfl
  have hiff : beBytes 12 (v / 256 ^ 4) = v4InV6Head ↔ v / 2 ^ 32 = 65535 := by
    rw [v4InV6Head_eq]
    constructor
    · intro h
      have := beBytes_inj _ _ _ h
      have hlt : v / 256 ^ 4 < 256 ^ 12 := by
        rw [Nat.div_lt_iff_lt_mul (by norm_num)]
        calc v < 2 ^ 128 := hv
          _ = 256 ^ 12 * 256 ^ 4 := by norm_num
      rw [Nat.mod_eq_of_lt hlt] at this
      have e : (256 : Nat) ^ 4 = 2 ^ 32 := by norm_num
      rw [e] at this
      rw [this]
      norm_num
    · intro h
      have e : (256 : Nat) ^ 4 = 2 ^ 32 := by norm_num
      rw [e, h]
  unfold To4
  rw [hlen, ht10, hg10, hg11, hdrop]
  by_cases hm : v / 2 ^ 32 = 65535
  · have hc2 := hc.2 (hiff.2 hm)
    rw [if_neg (by decide), if_pos ⟨by decide, hc2⟩, if_pos hm]
  · have hc2 : ¬ (isZeros ((beBytes 12 (v / 256 ^ 4)).take 10) = true ∧
        (beBytes 12 (v / 256 ^ 4)).getD 10 0 = 255 ∧
        (beBytes 12 (v / 256 ^ 4)).getD 11 0 = 255) := fun h => hm (hiff.1 (hc.1 h))
    rw [if_neg (by decide), if_neg (fun h => hc2 h.2), if_neg hm]

theorem zipWith_land_isBytes (l m : List Nat) (hl : IsBytes l) :
    IsBytes (List.zipWith (fun a b => a &&& b) l m) := by
  induction l generalizing m with
  | nil => simpa using isBytes_nil
  | cons x xs ih =>
    rw [isBytes_cons] at hl
    cases m with
    | nil => simpa using isBytes_nil
    | cons y ys =>
      simp only [List.zipWith_cons_cons]
      rw [isBytes_cons]
      exact ⟨lt_of_le_of_lt Nat.and_le_left hl.1, ih ys hl.2⟩

/-- Masking an `n`-byte sequence with the CIDR mask of prefix length `p`. -/
theorem masked_eq_beBytes (l : List Nat) (n p : Nat) (hl : IsBytes l) (hn : l.length = n)
    (hp : p ≤ 8 * n) :
    List.zipWith (fun a b => a &&& b) l (cidrMaskBytes n p) =
      beBytes n (beValue l / 2 ^ (8 * n - p) * 2 ^ (8 * n - p)) := by
  subst hn
  have h1 := eq_beBytes _ (zipWith_land_isBytes l (cidrMaskBytes l.length p) hl)
  rw [beValue_masked l hl p hp] at h1
  simpa [cidrMaskBytes_length] using h1

theorem sameMasked_iff_zip (a b m : List Nat) (ha : a.length = m.length)
    (hb : b.length = m.length) :
    sameMasked a b m = true ↔
      List.zipWith (fun x y => x &&& y) a m = List.zipWith (fun x y => x &&& y) b m := by
  induction m generalizing a b with
  | nil =>
    cases a <;> cases b <;> simp_all [sameMasked]
  | cons y ys ih =>
    cases a with
    | nil => simp at ha
    | cons x xs =>
      cases b with
      | nil => simp at hb
      | cons z zs =>
        simp only [List.length_cons, Nat.add_right_cancel_iff] at ha hb
        simp only [sameMasked, List.zipWith_cons_cons, Bool.and_eq_true, beq_iff_eq,
          List.cons.injEq]
        rw [ih xs zs ha hb]

theorem div_mul_pow_inj (a b h : Nat) : a / 2 ^ h * 2 ^ h = b / 2 ^ h * 2 ^ h ↔
    a / 2 ^ h = b / 2 ^ h := by
  constructor
  · intro e
    exact Nat.eq_of_mul_eq_mul_right (Nat.two_pow_pos h) e
  · intro e
    rw [e]

/-- The comparison of `IPNet.Contains` on two `n`-byte sequences: equality of
the values above the host bits. -/
theorem sameMasked_beBytes (n p v w : Nat) (hp : p ≤ 8 * n) :
    sameMasked (beBytes n v) (beBytes n w) (cidrMaskBytes n p) = true ↔
      v % 256 ^ n / 2 ^ (8 * n - p) = w % 256 ^ n / 2 ^ (8 * n - p) := by
  rw [sameMasked_iff_zip _ _ _ (by simp [beBytes_length, cidrMaskBytes_length])
    (by simp [beBytes_length, cidrMaskBytes_length])]
  rw [masked_eq_beBytes _ n p (beBytes_isBytes n v) (beBytes_length n v) hp,
    masked_eq_beBytes _ n p (beBytes_isBytes n w) (beBytes_length n w) hp]
  rw [beValue_beBytes, beValue_beBytes]
  generalize hV : v % 256 ^ n = V
  generalize hW : w % 256 ^ n = W
  have hVlt : V < 256 ^ n := by rw [← hV]; exact Nat.mod_lt _ (by positivity)
  have hWlt : W < 256 ^ n := by rw [← hW]; exact Nat.mod_lt _ (by positivity)
  have hA : V / 2 ^ (8 * n - p) * 2 ^ (8 * n - p) < 256 ^ n :=
    lt_of_le_of_lt (Nat.div_mul_le_self _ _) hVlt
  have hB : W / 2 ^ (8 * n - p) * 2 ^ (8 * n - p) < 256 ^ n :=
    lt_of_le_of_lt (Nat.div_mul_le_self _ _) hWlt
  constructor
  · intro h
    have := beBytes_inj _ _ _ h
    rw [Nat.mod_eq_of_lt hA, Nat.mod_eq_of_lt hB] at this
    exact (div_mul_pow_inj _ _ _).1 this
  · intro h
    rw [h]

theorem cidrMaskBytes_drop (k l p : Nat) (hp : 8 * k ≤ p) :
    (cidrMaskBytes (k + l) p).drop k = cidrMaskBytes l (p - 8 * k) := by
  induction k generalizing p with
  | zero => simp
  | succ k ih =>
    have e : k + 1 + l = (k + l) + 1 := by omega
    rw [e]
    simp only [cidrMaskBytes]
    rw [if_pos (by omega), List.drop_succ_cons, ih (p - 8) (by omega)]
    congr 1
    omega

/-! ## The parsed network -/

theorem cidrMask_32 (p : Nat) (hp : p ≤ 32) : CIDRMask p 32 = cidrMaskBytes 4 p := by
  unfold CIDRMask
  rw [if_neg (by decide), if_neg (by omega)]

theorem cidrMask_128 (p : Nat) (hp : p ≤ 128) : CIDRMask p 128 = cidrMaskBytes 16 p := by
  unfold CIDRMask
  rw [if_neg (by decide), if_neg (by omega)]

theorem mask_len4_len16 (ip mask : List Nat) (hm : mask.length = 4) (hip : ip.length = 16)
    (ht : ip.take 12 = v4InV6Head) :
    Mask ip mask = List.zipWith (fun a b => a &&& b) (ip.drop 12) mask := by
  simp [Mask, IPv4len, IPv6len, hm, hip, ht]

theorem mask_len16_len16 (ip mask : List Nat) (hm : mask.length = 16) (hip : ip.length = 16) :
    Mask ip mask = List.zipWith (fun a b => a &&& b) ip mask := by
  simp [Mask, IPv4len, IPv6len, hm, hip]

/-- The network number stored by `ParseCIDR` for an IPv4 block is the 4-byte
form of the network address. -/
theorem mask_as16_v4 (w p : Nat) (hp : p ≤ 32) :
    Mask (NetipAddr.As16 (.v4 w)) (CIDRMask p 32) = beBytes 4 (networkValue (.v4 w) p) := by
  rw [cidrMask_32 p hp]
  have hm : (cidrMaskBytes 4 p).length = 4 := cidrMaskBytes_length 4 p
  have hip : (v4InV6Head ++ beBytes 4 w).length = 16 := by
    simp [v4InV6Head, beBytes_length]
  have htake : (v4InV6Head ++ beBytes 4 w).take 12 = v4InV6Head := by
    rw [List.take_append_of_le_length (by simp [v4InV6Head])]
    rfl
  have hdrop : (v4InV6Head ++ beBytes 4 w).drop 12 = beBytes 4 w := by
    rw [List.drop_append_of_le_length (by simp [v4InV6Head])]
    rfl
  simp only [NetipAddr.As16]
  rw [mask_len4_len16 _ _ hm hip htake, hdrop]
  rw [masked_eq_beBytes _ 4 p (beBytes_isBytes 4 w) (beBytes_length 4 w) (by omega),
    beValue_beBytes]
  rfl

/-- The network number stored by `ParseCIDR` for an IPv6 block is the 16-byte
form of the network address. -/
theorem mask_as16_v6 (w p : Nat) (z : GoString) (hp : p ≤ 128) :
    Mask (NetipAddr.As16 (.v6 w z)) (CIDRMask p 128) =
      beBytes 16 (networkValue (.v6 w z) p) := by
  rw [cidrMask_128 p hp]
  have hm : (cidrMaskBytes 16 p).length = 16 := cidrMaskBytes_length 16 p
  have hip : (beBytes 16 w).length = 16 := beBytes_length 16 w
  simp only [NetipAddr.As16]
  rw [mask_len16_len16 _ _ hm hip]
  rw [masked_eq_beBytes _ 16 p (beBytes_isBytes 16 w) (beBytes_length 16 w) (by omega),
    beValue_beBytes]
  rfl

theorem beBytes_ne_nil (n x : Nat) (hn : 0 < n) : beBytes n x ≠ [] := by
  intro h
  have := congrArg List.length h
  rw [beBytes_length] at this
  simp at this
  omega

theorem nnm_len4 (ip mask : List Nat) (hip : ip.length = 4) (hm : mask.length = 4) :
    networkNumberAndMask { IP := ip, Mask := mask } = (ip, mask) := by
  have hne : ip ≠ [] := fun h => by simp [h] at hip
  simp [networkNumberAndMask, to4_of_len4 _ hip, IPv4len, IPv6len, hip, hm, hne]

theorem contains_len4 (ip mask x : List Nat) (hip : ip.length = 4) (hm : mask.length = 4)
    (hx : x.length = 4) :
    Contains { IP := ip, Mask := mask } x = sameMasked ip x mask := by
  have hne : x ≠ [] := fun h => by simp [h] at hx
  simp [Contains, nnm_len4 _ _ hip hm, to4_of_len4 _ hx, hne, hip, hx]

/-- `Contains` for an IPv4 network, on 4-byte addresses. -/
theorem contains_v4 (N p v : Nat) (hp : p ≤ 32) (hN : N < 2 ^ 32) (hv : v < 2 ^ 32) :
    Contains { IP := beBytes 4 N, Mask := cidrMaskBytes 4 p } (beBytes 4 v) = true ↔
      v / 2 ^ (32 - p) = N / 2 ^ (32 - p) := by
  rw [contains_len4 _ _ _ (beBytes_length 4 N) (cidrMaskBytes_length 4 p) (beBytes_length 4 v)]
  have h := sameMasked_beBytes 4 p N v (by omega)
  rw [Nat.mod_eq_of_lt (by norm_num; omega), Nat.mod_eq_of_lt (by norm_num; omega)] at h
  rw [h]
  constructor <;> intro e <;> exact e.symm

theorem nnm_len16_plain (ip mask : List Nat) (hip : ip.length = 16) (hm : mask.length = 16)
    (h4 : To4 ip = []) :
    networkNumberAndMask { IP := ip, Mask := mask } = (ip, mask) := by
  simp [networkNumberAndMask, h4, IPv4len, IPv6len, hip, hm]

theorem nnm_len16_mapped (ip mask ip4 : List Nat) (hm : mask.length = 16)
    (h4 : To4 ip = ip4) (hlen : ip4.length = 4) :
    networkNumberAndMask { IP := ip, Mask := mask } = (ip4, mask.drop 12) := by
  have hne : ip4 ≠ [] := fun h => by simp [h] at hlen
  simp [networkNumberAndMask, h4, IPv4len, IPv6len, hm, hne, hlen]

theorem div_pow_of_div_pow (a b h k : Nat) (hk : h ≤ k) (e : a / 2 ^ h = b / 2 ^ h) :
    a / 2 ^ k = b / 2 ^ k := by
  have hpow : 2 ^ k = 2 ^ h * 2 ^ (k - h) := by
    rw [← pow_add]; congr 1; omega
  rw [hpow, ← Nat.div_div_eq_div_mul, ← Nat.div_div_eq_div_mul, e]

theorem aligned_mapped_le (N h : Nat) (hal : N = N / 2 ^ h * 2 ^ h) (hm : N / 2 ^ 32 = 65535) :
    h ≤ 32 := by
  by_contra hc
  have hpow : 2 ^ h = 2 ^ (h - 33) * 2 * 2 ^ 32 := by
    rw [Nat.mul_assoc, ← pow_succ', ← pow_add]; congr 1; omega
  rw [hpow] at hal
  have : N / 2 ^ 32 = N / (2 ^ (h - 33) * 2 * 2 ^ 32) * (2 ^ (h - 33) * 2) := by
    conv_lhs => rw [hal]
    rw [← Nat.mul_assoc, Nat.mul_div_cancel _ (Nat.two_pow_pos 32)]
  rw [← Nat.mul_assoc] at this
  omega

theorem low_div_iff (a b h : Nat) (hh : h ≤ 32) (e : a / 2 ^ 32 = b / 2 ^ 32) :
    a % 2 ^ 32 / 2 ^ h = b % 2 ^ 32 / 2 ^ h ↔ a / 2 ^ h = b / 2 ^ h := by
  have hpow : 2 ^ 32 = 2 ^ (32 - h) * 2 ^ h := by
    rw [← pow_add]; congr 1; omega
  have key : ∀ x : Nat, x / 2 ^ h = x / 2 ^ 32 * 2 ^ (32 - h) + x % 2 ^ 32 / 2 ^ h := by
    intro x
    conv_lhs => rw [← Nat.div_add_mod x (2 ^ 32)]
    conv_lhs => rw [hpow]
    rw [Nat.mul_comm (2 ^ (32 - h) * 2 ^ h), ← hpow, show x / 2 ^ 32 * 2 ^ 32 =
      x / 2 ^ 32 * 2 ^ (32 - h) * 2 ^ h by rw [Nat.mul_assoc, ← hpow]]
    rw [Nat.add_comm, Nat.add_mul_div_right _ _ (Nat.two_pow_pos h), Nat.add_comm]
  rw [key a, key b, e]
  omega

/-- `Contains` for an IPv6 network, on 16-byte addresses: the address lies in
the block, and it is IPv4-mapped only if the network number is. -/
theorem contains_v6 (N p v : Nat) (hp : p ≤ 128) (hN : N < 2 ^ 128) (hv : v < 2 ^ 128)
    (hal : N = N / 2 ^ (128 - p) * 2 ^ (128 - p)) :
    Contains { IP := beBytes 16 N, Mask := cidrMaskBytes 16 p } (beBytes 16 v) = true ↔
      (v / 2 ^ (128 - p) = N / 2 ^ (128 - p) ∧ (v / 2 ^ 32 = 65535 → N / 2 ^ 32 = 65535)) := by
  have hm : (cidrMaskBytes 16 p).length = 16 := cidrMaskBytes_length 16 p
  have hN16 : (beBytes 16 N).length = 16 := beBytes_length 16 N
  have hv16 : (beBytes 16 v).length = 16 := beBytes_length 16 v
  have h4N := to4_beBytes16 N hN
  have h4v := to4_beBytes16 v hv
  by_cases hmN : N / 2 ^ 32 = 65535
  · rw [if_pos hmN] at h4N
    have hh : 128 - p ≤ 32 := aligned_mapped_le N _ hal hmN
    have hp96 : 96 ≤ p := by omega
    have hdrop : (cidrMaskBytes 16 p).drop 12 = cidrMaskBytes 4 (p - 96) :=
      cidrMaskBytes_drop 12 4 p (by omega)
    have hnm := nnm_len16_mapped (beBytes 16 N) (cidrMaskBytes 16 p) _ hm h4N
      (beBytes_length 4 N)
    by_cases hmv : v / 2 ^ 32 = 65535
    · rw [if_pos hmv] at h4v
      have hc : Contains { IP := beBytes 16 N, Mask := cidrMaskBytes 16 p } (beBytes 16 v) =
          sameMasked (beBytes 4 N) (beBytes 4 v) (cidrMaskBytes 4 (p - 96)) := by
        simp [Contains, hnm, h4v, beBytes_ne_nil, beBytes_length, hdrop]
      rw [hc, sameMasked_beBytes 4 (p - 96) N v (by omega)]
      have e1 : 8 * 4 - (p - 96) = 128 - p := by omega
      have e2 : (256 : Nat) ^ 4 = 2 ^ 32 := by norm_num
      rw [e1, e2, low_div_iff N v _ hh (by rw [hmN, hmv])]
      constructor
      · intro e
        exact ⟨e.symm, fun _ => hmN⟩
      · intro e
        exact e.1.symm
    · rw [if_neg hmv] at h4v
      have hc : Contains { IP := beBytes 16 N, Mask := cidrMaskBytes 16 p } (beBytes 16 v) =
          false := by
        simp [Contains, hnm, h4v, beBytes_length]
      rw [hc]
      constructor
      · intro h
        cases h
      · intro h
        exfalso
        apply hmv
        rw [div_pow_of_div_pow v N _ 32 hh h.1, hmN]
  · rw [if_neg hmN] at h4N
    have hnm := nnm_len16_plain (beBytes 16 N) (cidrMaskBytes 16 p) hN16 hm h4N
    by_cases hmv : v / 2 ^ 32 = 65535
    · rw [if_pos hmv] at h4v
      have hc : Contains { IP := beBytes 16 N, Mask := cidrMaskBytes 16 p } (beBytes 16 v) =
          false := by
        simp [Contains, hnm, h4v, beBytes_ne_nil, beBytes_length]
      rw [hc]
      constructor
      · intro h
        cases h
      · intro h
        exact absurd (h.2 hmv) hmN
    · rw [if_neg hmv] at h4v
      have hc : Contains { IP := beBytes 16 N, Mask := cidrMaskBytes 16 p } (beBytes 16 v) =
          sameMasked (beBytes 16 N) (beBytes 16 v) (cidrMaskBytes 16 p) := by
        simp [Contains, hnm, h4v, beBytes_length]
      rw [hc, sameMasked_beBytes 16 p N v (by omega)]
      have e2 : (256 : Nat) ^ 16 = 2 ^ 128 := by norm_num
      rw [e2, Nat.mod_eq_of_lt hN, Nat.mod_eq_of_lt hv]
      constructor
      · intro e
        exact ⟨e.symm, fun h => absurd h hmv⟩
      · intro e
        exact e.1.symm

/-! ## The expansion loop -/

theorem renderRange_length (T : TextLayer) (n first count : Nat) :
    (renderRange T n first count).length = count := by
  simp [renderRange]

theorem renderRange_succ (T : TextLayer) (n first count : Nat) :
    renderRange T n first (count + 1) =
      T.ipString (beBytes n first) :: renderRange T n (first + 1) count := by
  simp [renderRange, List.range'_succ]

theorem inc_beBytes_of_lt (n v : Nat) (hv : v < 256 ^ n) :
    inc (beBytes n v) = beBytes n (v + 1) := by
  rw [inc_beBytes, Nat.mod_eq_of_lt hv]

/-- While the network contains the addresses, the loop appends them one by one. -/
theorem expandLoop_run (T : TextLayer) (net : IPNet) (n k : Nat) :
    ∀ (v : Nat) (acc : List GoString) (fuel : Nat),
      (∀ j < k, Contains net (beBytes n (v + j)) = true) → v + k ≤ 256 ^ n →
      expandLoop T net (fuel + k) (beBytes n v) acc =
        expandLoop T net fuel (beBytes n (v + k)) (acc ++ renderRange T n v k) := by
  induction k with
  | zero =>
    intro v acc fuel _ _
    simp [renderRange]
  | succ k ih =>
    intro v acc fuel hc hle
    have h0 : Contains net (beBytes n v) = true := by simpa using hc 0 (by omega)
    have hstep : expandLoop T net (fuel + (k + 1)) (beBytes n v) acc =
        expandLoop T net (fuel + k) (inc (beBytes n v)) (acc ++ [T.ipString (beBytes n v)]) := by
      rw [← Nat.add_assoc]
      simp only [expandLoop]
      rw [if_pos h0]
    rw [hstep, inc_beBytes_of_lt n v (by omega)]
    rw [ih (v + 1) _ fuel (fun j hj => by
      have := hc (j + 1) (by omega)
      rwa [show v + (j + 1) = v + 1 + j by omega] at this) (by omega)]
    rw [renderRange_succ, List.append_assoc, List.singleton_append,
      show v + 1 + k = v + (k + 1) by omega]

theorem expandLoop_stop (T : TextLayer) (net : IPNet) (ip : IP) (acc : List GoString)
    (fuel : Nat) (h : Contains net ip = false) :
    expandLoop T net (fuel + 1) ip acc = some acc := by
  simp only [expandLoop]
  rw [if_neg (by simp [h])]

/-- A loop that meets `k` contained addresses and then one that is not
contained returns exactly those `k` addresses. -/
theorem expandLoop_block (T : TextLayer) (net : IPNet) (n k v fuel : Nat)
    (hin : ∀ j < k, Contains net (beBytes n (v + j)) = true) (hle : v + k ≤ 256 ^ n)
    (hout : Contains net (beBytes n (v + k)) = false) (hfuel : k < fuel) :
    expandLoop T net fuel (beBytes n v) [] = some (renderRange T n v k) := by
  obtain ⟨f, rfl⟩ : ∃ f, fuel = (f + 1) + k := ⟨fuel - k - 1, by omega⟩
  rw [expandLoop_run T net n k v [] (f + 1) hin hle, expandLoop_stop T net _ _ f hout]
  simp

/-- A loop whose condition never fails does not return, whatever the fuel. -/
theorem expandLoop_diverges (T : TextLayer) (net : IPNet) (n : Nat)
    (hall : ∀ ip : IP, ip.length = n → Contains net ip = true) :
    ∀ (fuel : Nat) (ip : IP) (acc : List GoString), ip.length = n →
      expandLoop T net fuel ip acc = none := by
  intro fuel
  induction fuel with
  | zero =>
    intro ip acc _
    rfl
  | succ fuel ih =>
    intro ip acc hlen
    simp only [expandLoop]
    rw [if_pos (hall ip hlen)]
    exact ih _ _ (by rw [inc_length]; exact hlen)

theorem dropEnds_renderRange (T : TextLayer) (n first count : Nat) (hc : 2 ≤ count) :
    dropEnds (renderRange T n first count) = renderRange T n (first + 1) (count - 2) := by
  obtain ⟨c, rfl⟩ : ∃ c, count = c + 2 := ⟨count - 2, by omega⟩
  simp only [dropEnds, renderRange_length]
  simp only [renderRange, ← List.map_take, ← List.map_drop]
  congr 1
  have e : List.range' first (c + 2) =
      first :: (List.range' (first + 1) c ++ [first + 1 + c]) := by
    rw [List.range'_succ, List.range'_concat]
    simp
  rw [e]
  simp [List.take_append_of_le_length]

/-! ## Arithmetic of a block -/

theorem block_arith (B h x : Nat) (hh : h ≤ B) (hx : x < 2 ^ B) :
    x / 2 ^ h * 2 ^ h + 2 ^ h ≤ 2 ^ B ∧
    x / 2 ^ h * 2 ^ h / 2 ^ h = x / 2 ^ h ∧
    (∀ j < 2 ^ h, (x / 2 ^ h * 2 ^ h + j) / 2 ^ h = x / 2 ^ h) ∧
    (x / 2 ^ h * 2 ^ h + 2 ^ h) / 2 ^ h = x / 2 ^ h + 1 ∧
    (h < B → x / 2 ^ h * 2 ^ h + 2 ^ h = 2 ^ B → x / 2 ^ h ≠ 0) := by
  have hpos : 0 < 2 ^ h := Nat.two_pow_pos h
  have hpow : 2 ^ B = 2 ^ (B - h) * 2 ^ h := by
    rw [← pow_add]; congr 1; omega
  generalize hq : x / 2 ^ h = q
  have hqlt : q < 2 ^ (B - h) := by
    rw [← hq, Nat.div_lt_iff_lt_mul hpos, ← hpow]
    exact hx
  refine ⟨?_, ?_, ?_, ?_, ?_⟩
  · have : (q + 1) * 2 ^ h ≤ 2 ^ (B - h) * 2 ^ h := Nat.mul_le_mul_right _ hqlt
    rw [hpow]
    calc q * 2 ^ h + 2 ^ h = (q + 1) * 2 ^ h := by ring
      _ ≤ _ := this
  · exact Nat.mul_div_cancel _ hpos
  · intro j hj
    rw [Nat.add_comm, Nat.add_mul_div_right _ _ hpos, Nat.div_eq_of_lt hj]
    simp
  · have : q * 2 ^ h + 2 ^ h = (q + 1) * 2 ^ h := by ring
    rw [this, Nat.mul_div_cancel _ hpos]
  · intro hlt he hq0
    subst hq0
    rw [hpow] at he
    simp only [Nat.zero_mul, Nat.zero_add] at he
    have h1 : 2 ^ (B - h) = 1 := by
      have := Nat.eq_of_mul_eq_mul_right hpos (show 1 * 2 ^ h = 2 ^ (B - h) * 2 ^ h by
        rw [Nat.one_mul]; exact he)
      exact this.symm
    have h2 : 2 ^ 1 ≤ 2 ^ (B - h) := Nat.pow_le_pow_right (by norm_num) (by omega)
    omega

theorem parseCIDRParts_some (T : TextLayer) (s : GoString) (a : NetipAddr) (p : Nat)
    (h : parseCIDRParts T s = some (a, p)) : a.Zone = [] ∧ p ≤ a.BitLen := by
  unfold parseCIDRParts at h
  split at h
  · cases h
  · simp only at h
    split at h
    · cases h
    · rename_i ipAddr _
      split at h
      · cases h
      · rename_i hz
        split at h
        · cases h
        · rename_i hc
          simp only [Option.some.injEq, Prod.mk.injEq] at h
          obtain ⟨rfl, rfl⟩ := h
          refine ⟨by simpa using hz, ?_⟩
          simp only [not_or, not_lt] at hc
          omega

theorem validate_of_parts (T : TextLayer) (fuel : Nat) (input : GoString) (a : NetipAddr)
    (p : Nat) (h : parseCIDRParts T input = some (a, p)) :
    validateAndGetIPs T fuel input =
      match expandLoop T (parsedNet a p) fuel (Mask a.As16 (parsedNet a p).Mask) [] with
      | none => none
      | some ips => if ips.length > 2 then some (some (dropEnds ips)) else some (some ips) := by
  have hp : ParseCIDR T input = some (a.As16, parsedNet a p) := by
    simp [ParseCIDR, h]
  simp [validateAndGetIPs, isValidCIDR, hp]

theorem validate_of_loop (T : TextLayer) (fuel : Nat) (input : GoString) (a : NetipAddr)
    (p : Nat) (ips : List GoString) (h : parseCIDRParts T input = some (a, p))
    (hl : expandLoop T (parsedNet a p) fuel (Mask a.As16 (parsedNet a p).Mask) [] = some ips) :
    validateAndGetIPs T fuel input =
      if ips.length > 2 then some (some (dropEnds ips)) else some (some ips) := by
  rw [validate_of_parts T fuel input a p h, hl]

/-- The loop over a block of `2 ^ h` addresses, for a network whose `Contains`
is membership in the block and whose prefix is not empty. -/
theorem loop_of_contains (T : TextLayer) (net : IPNet) (n B h x fuel : Nat)
    (hn : 256 ^ n = 2 ^ B) (hh : h < B) (hx : x < 2 ^ B)
    (hC : ∀ v < 2 ^ B, (Contains net (beBytes n v) = true ↔
      v / 2 ^ h = x / 2 ^ h * 2 ^ h / 2 ^ h))
    (hf : 2 ^ h < fuel) :
    expandLoop T net fuel (beBytes n (x / 2 ^ h * 2 ^ h)) [] =
      some (renderRange T n (x / 2 ^ h * 2 ^ h) (2 ^ h)) := by
  obtain ⟨h1, h2, h3, h4, h5⟩ := block_arith B h x (le_of_lt hh) hx
  apply expandLoop_block T net n (2 ^ h) _ fuel
  · intro j hj
    rw [hC _ (by omega), h2]
    exact h3 j hj
  · rw [hn]; exact h1
  · rcases Nat.lt_or_ge (x / 2 ^ h * 2 ^ h + 2 ^ h) (2 ^ B) with hlt | hge
    · have := hC _ hlt
      rw [h2, h4] at this
      cases hc : Contains net (beBytes n (x / 2 ^ h * 2 ^ h + 2 ^ h)) with
      | false => rfl
      | true =>
        have := this.1 hc
        omega
    · have he : x / 2 ^ h * 2 ^ h + 2 ^ h = 2 ^ B := le_antisymm h1 hge
      have hq := h5 hh he
      have hz : beBytes n (x / 2 ^ h * 2 ^ h + 2 ^ h) = beBytes n 0 := by
        rw [he, ← beBytes_mod, hn, Nat.mod_self]
      rw [hz]
      have := hC 0 (Nat.two_pow_pos B)
      rw [h2] at this
      cases hc : Contains net (beBytes n 0) with
      | false => rfl
      | true =>
        have := this.1 hc
        simp at this
        omega
  · exact hf

theorem value_lt (a : NetipAddr) : a.value < 2 ^ a.BitLen := by
  cases a with
  | v4 w => exact Nat.mod_lt _ (by norm_num)
  | v6 w z => exact Nat.mod_lt _ (by norm_num)

/-- The expansion loop of a parsed block with a non-empty prefix that does not
straddle the IPv4-mapped range: it returns every address of the block, from
the network address upwards. -/
theorem loop_of_block (T : TextLayer) (a : NetipAddr) (p fuel : Nat) (hp : p ≤ a.BitLen)
    (hp1 : 1 ≤ p) (hgood : ¬ straddlesMapped a p) (hf : 2 ^ hostBits a p < fuel) :
    expandLoop T (parsedNet a p) fuel (Mask a.As16 (parsedNet a p).Mask) [] =
      some (renderRange T a.byteLen (networkValue a p) (2 ^ hostBits a p)) := by
  simp only [parsedNet]
  cases a with
  | v4 w =>
    simp only [NetipAddr.BitLen] at hp
    have hN : networkValue (.v4 w) p < 2 ^ 32 :=
      lt_of_le_of_lt (Nat.div_mul_le_self _ _) (Nat.mod_lt _ (by norm_num))
    simp only [NetipAddr.BitLen, NetipAddr.byteLen]
    rw [mask_as16_v4 w p hp, cidrMask_32 p hp]
    simp only [networkValue, hostBits, NetipAddr.BitLen, NetipAddr.value] at hf hN ⊢
    apply loop_of_contains T _ 4 32 (32 - p) (w % 2 ^ 32) fuel (by norm_num) (by omega)
      (Nat.mod_lt _ (by norm_num))
    · intro v hv
      have := contains_v4 _ p v hp hN hv
      exact this
    · exact hf
  | v6 w z =>
    simp only [NetipAddr.BitLen] at hp
    have hx : w % 2 ^ 128 < 2 ^ 128 := Nat.mod_lt _ (by norm_num)
    have hN : networkValue (.v6 w z) p < 2 ^ 128 :=
      lt_of_le_of_lt (Nat.div_mul_le_self _ _) hx
    obtain ⟨_, h2, _, _, _⟩ := block_arith 128 (128 - p) (w % 2 ^ 128) (by omega) hx
    have hal : networkValue (.v6 w z) p =
        networkValue (.v6 w z) p / 2 ^ (128 - p) * 2 ^ (128 - p) := by
      simp only [networkValue, hostBits, NetipAddr.BitLen, NetipAddr.value]
      rw [h2]
    simp only [NetipAddr.BitLen, NetipAddr.byteLen]
    rw [mask_as16_v6 w p z hp, cidrMask_128 p hp]
    simp only [straddlesMapped] at hgood
    simp only [networkValue, hostBits, NetipAddr.BitLen, NetipAddr.value] at hf hN hal hgood ⊢
    apply loop_of_contains T _ 16 128 (128 - p) (w % 2 ^ 128) fuel (by norm_num) (by omega) hx
    · intro v hv
      have hc := contains_v6 _ p v hp hN hv hal
      rw [hc]
      constructor
      · intro e
        exact e.1
      · intro e
        refine ⟨e, ?_⟩
        intro hmv
        by_cases h96 : 96 ≤ p
        · rw [← div_pow_of_div_pow v _ (128 - p) 32 (by omega) e]
          exact hmv
        · exfalso
          apply hgood
          refine ⟨by omega, ?_⟩
          rw [← e]
          apply div_pow_of_div_pow _ _ 32 (128 - p) (by omega)
          rw [hmv]
          simp [mappedBase]
    · exact hf

/-! ## `validateAndGetIPs` on CIDR input -/

theorem sameMasked_zero (n : Nat) : ∀ a b : IP, sameMasked a b (cidrMaskBytes n 0) = true := by
  induction n with
  | zero =>
    intro a b
    cases a <;> cases b <;> simp [sameMasked, cidrMaskBytes]
  | succ n ih =>
    intro a b
    cases a with
    | nil => simp [sameMasked]
    | cons x xs =>
      cases b with
      | nil => simp [sameMasked]
      | cons y ys =>
        simp only [cidrMaskBytes]
        rw [if_neg (by omega)]
        simp [sameMasked, ih]

/-- The IPv4 network with prefix length 0 contains every 4-byte address. -/
theorem contains_all_v4_zero (w : Nat) (ip : IP) (hlen : ip.length = 4) :
    Contains (parsedNet (.v4 w) 0) ip = true := by
  simp only [parsedNet, NetipAddr.BitLen]
  rw [mask_as16_v4 w 0 (by omega), cidrMask_32 0 (by omega)]
  rw [contains_len4 _ _ _ (beBytes_length 4 _) (cidrMaskBytes_length 4 0) hlen]
  exact sameMasked_zero 4 _ _

/-- For an IPv4 CIDR with prefix length 0 the loop of `validateAndGetIPs`
never exits, so the function does not return, whatever the fuel. -/
theorem v4_zero_never_returns (T : TextLayer) (input : GoString) (w : Nat)
    (h : parseCIDRParts T input = some (.v4 w, 0)) (fuel : Nat) :
    validateAndGetIPs T fuel input = none := by
  rw [validate_of_parts T fuel input _ _ h]
  have hstart : (Mask (NetipAddr.As16 (.v4 w)) (parsedNet (.v4 w) 0).Mask).length = 4 := by
    simp only [parsedNet, NetipAddr.BitLen]
    rw [mask_as16_v4 w 0 (by omega), beBytes_length]
  rw [expandLoop_diverges T (parsedNet (.v4 w) 0) 4 (contains_all_v4_zero w) fuel _ [] hstart]

/-- The result of `validateAndGetIPs` on a parsed block with a non-empty prefix
that does not straddle the IPv4-mapped range. -/
theorem validate_block (T : TextLayer) (input : GoString) (a : NetipAddr) (p fuel : Nat)
    (h : parseCIDRParts T input = some (a, p)) (hp1 : 1 ≤ p) (hgood : ¬ straddlesMapped a p)
    (hf : 2 ^ hostBits a p < fuel) :
    validateAndGetIPs T fuel input =
      if 2 < 2 ^ hostBits a p then
        some (some (renderRange T a.byteLen (networkValue a p + 1) (2 ^ hostBits a p - 2)))
      else some (some (renderRange T a.byteLen (networkValue a p) (2 ^ hostBits a p))) := by
  have hp := (parseCIDRParts_some T input a p h).2
  rw [validate_of_loop T fuel input a p _ h (loop_of_block T a p fuel hp hp1 hgood hf)]
  rw [renderRange_length]
  by_cases h2 : 2 < 2 ^ hostBits a p
  · rw [if_pos h2, if_pos h2, dropEnds_renderRange T _ _ _ (by omega)]
  · rw [if_neg h2, if_neg h2]

/-! ## Claims on the address expansion -/

/-- C1, at the failing input `0.0.0.0/0`: the text parses as a valid CIDR block
of 2^32 addresses, the loop condition `ipNet.Contains(ip)` holds for every
4-byte address, `inc` wraps `255.255.255.255` to `0.0.0.0`, and
`validateAndGetIPs` returns nothing for any amount of fuel. -/
theorem whole_v4_space_no_result (fuel : Nat) :
    parseCIDRParts dottedQuad "0.0.0.0/0".toList = some (.v4 0, 0) ∧
    inc [255, 255, 255, 255] = [0, 0, 0, 0] ∧
    validateAndGetIPs dottedQuad fuel "0.0.0.0/0".toList = none :=
  ⟨by decide, by decide, v4_zero_never_returns dottedQuad _ 0 (by decide) fuel⟩

/-- The IPv6 network `::/0` does not contain the first IPv4-mapped address
`::ffff:0.0.0.0`, although the address lies in the block: `Contains` compares
the 4-byte form of the address with the 16-byte network number.  The loop over
such a block stops there. -/
theorem v6_whole_space_excludes_mapped :
    Contains (parsedNet (.v6 0 []) 0) (beBytes 16 mappedBase) = false ∧
    mappedBase / 2 ^ hostBits (.v6 0 []) 0 = networkValue (.v6 0 []) 0 / 2 ^ hostBits (.v6 0 []) 0 ∧
    straddlesMapped (.v6 0 []) 0 := by
  refine ⟨by decide, by decide, ?_⟩
  simp only [straddlesMapped]
  exact ⟨by decide, by decide⟩

/-- C2: for a valid CIDR block with at most one host bit the list built by the
loop is returned as it is (no exclusion), and it holds every address of the
block in ascending order: the single address when the prefix covers the whole
width, the two endpoint addresses (lower first) when one host bit is left. -/
theorem small_block_keeps_endpoints (T : TextLayer) (input : GoString) (a : NetipAddr)
    (p fuel : Nat) (h : parseCIDRParts T input = some (a, p)) (hs : a.BitLen ≤ p + 1)
    (hf : 3 ≤ fuel) :
    ∃ ips : List GoString,
      expandLoop T (parsedNet a p) fuel (Mask a.As16 (parsedNet a p).Mask) [] = some ips ∧
      validateAndGetIPs T fuel input = some (some ips) ∧
      ips = if p = a.BitLen then [T.ipString (beBytes a.byteLen a.value)]
        else [T.ipString (beBytes a.byteLen (networkValue a p)),
          T.ipString (beBytes a.byteLen (networkValue a p + 1))] := by
  have hp := (parseCIDRParts_some T input a p h).2
  have hbits : a.BitLen = 32 ∨ a.BitLen = 128 := by
    cases a <;> simp [NetipAddr.BitLen]
  have hp1 : 1 ≤ p := by omega
  have hgood : ¬ straddlesMapped a p := by
    cases a with
    | v4 w => simp [straddlesMapped]
    | v6 w z =>
      simp only [NetipAddr.BitLen] at hs
      simp only [straddlesMapped, not_and]
      intro h96
      omega
  have hh : hostBits a p = 0 ∨ hostBits a p = 1 := by
    simp only [hostBits]; omega
  have hpow : 2 ^ hostBits a p ≤ 2 := by
    rcases hh with e | e <;> rw [e] <;> norm_num
  have hloop := loop_of_block T a p fuel hp hp1 hgood (by omega)
  refine ⟨_, hloop, ?_, ?_⟩
  · rw [validate_of_loop T fuel input a p _ h hloop, renderRange_length,
      if_neg (by omega)]
  · by_cases he : p = a.BitLen
    · rw [if_pos he]
      have h0 : hostBits a p = 0 := by simp only [hostBits]; omega
      simp [renderRange, networkValue, h0]
    · rw [if_neg he]
      have h1 : hostBits a p = 1 := by simp only [hostBits]; omega
      rw [h1]
      simp [renderRange, List.range'_succ]

/-- C2, witness: `192.168.1.77/31` expands to both addresses of the block. -/
theorem small_block_keeps_endpoints_witness :
    validateAndGetIPs dottedQuad 3 "192.168.1.77/31".toList =
      some (some ["192.168.1.76".toList, "192.168.1.77".toList]) := by
  obtain ⟨ips, _, h2, h3⟩ := small_block_keeps_endpoints dottedQuad "192.168.1.77/31".toList
    (.v4 3232235853) 31 3 (by decide) (by decide) (by decide)
  rw [h2, h3]
  decide

/-- The expansion of a valid CIDR block with more than 2 addresses, a
non-empty prefix and no straddling of the IPv4-mapped range: the addresses
strictly between the network address and the broadcast address, each once, in
strictly ascending order, `2 ^ h - 2` of them. -/
theorem expansion_excludes_endpoints (T : TextLayer) (input : GoString) (a : NetipAddr)
    (p fuel : Nat) (h : parseCIDRParts T input = some (a, p)) (hp1 : 1 ≤ p)
    (hgood : ¬ straddlesMapped a p) (hh : 2 ≤ hostBits a p) (hf : 2 ^ hostBits a p < fuel) :
    ∃ vs : List Nat,
      validateAndGetIPs T fuel input =
        some (some (vs.map (fun v => T.ipString (beBytes a.byteLen v)))) ∧
      vs.Pairwise (fun x y => x < y) ∧
      (∀ v, v ∈ vs ↔ networkValue a p < v ∧ v < networkValue a p + 2 ^ hostBits a p - 1) ∧
      vs.length = 2 ^ hostBits a p - 2 := by
  have h4 : 2 ^ 2 ≤ 2 ^ hostBits a p := Nat.pow_le_pow_right (by norm_num) hh
  refine ⟨List.range' (networkValue a p + 1) (2 ^ hostBits a p - 2), ?_, ?_, ?_, ?_⟩
  · rw [validate_block T input a p fuel h hp1 hgood hf, if_pos (by omega)]
    rfl
  · exact List.pairwise_lt_range' _ _
  · intro v
    rw [List.mem_range'_1]
    omega
  · simp

/-- Witness of the expansion: `192.168.1.77/29`, a block of eight addresses. -/
theorem expansion_excludes_endpoints_witness :
    ∃ vs : List Nat,
      validateAndGetIPs dottedQuad 9 "192.168.1.77/29".toList =
        some (some (vs.map (fun v => dottedQuad.ipString (beBytes 4 v)))) ∧
      vs.Pairwise (fun x y => x < y) ∧
      (∀ v, v ∈ vs ↔ networkValue (.v4 3232235853) 29 < v ∧
        v < networkValue (.v4 3232235853) 29 + 2 ^ hostBits (.v4 3232235853) 29 - 1) ∧
      vs.length = 2 ^ hostBits (.v4 3232235853) 29 - 2 :=
  expansion_excludes_endpoints dottedQuad "192.168.1.77/29".toList
    (.v4 3232235853) 29 9 (by decide) (by decide) (by simp [straddlesMapped]) (by decide)
    (by decide)

/-! ## `processResponse` -/

theorem contains_iff (arr : List Int) (val : Int) : contains arr val = true ↔ val ∈ arr := by
  induction arr with
  | nil => simp [contains]
  | cons item rest ih =>
    simp only [contains, List.mem_cons]
    by_cases h : item = val
    · simp [h]
    · rw [if_neg h, ih]
      constructor
      · intro hm
        exact Or.inr hm
      · rintro (e | hm)
        · exact absurd e.symm h
        · exact hm

/-- A loop that appends `f x` for the elements that pass the test builds the
filtered and mapped list. -/
theorem foldl_append_if {α β : Type} (c : α → Bool) (f : α → β) (l : List α) (acc : List β) :
    l.foldl (fun result x => if c x = true then result ++ [f x] else result) acc =
      acc ++ (l.filter c).map f := by
  induction l generalizing acc with
  | nil => simp
  | cons x xs ih =>
    simp only [List.foldl_cons]
    rw [ih]
    by_cases h : c x = true
    · simp [h, List.filter_cons]
    · simp [h, List.filter_cons]

theorem foldl_append_map {α β : Type} (f : α → β) (l : List α) (acc : List β) :
    l.foldl (fun result x => result ++ [f x]) acc = acc ++ l.map f := by
  induction l generalizing acc with
  | nil => simp
  | cons x xs ih =>
    simp only [List.foldl_cons]
    rw [ih]
    simp

/-- The filtering branch of `processResponse` as a filter and a map over the tokens. -/
theorem processResponse_filter (response : ShodanResponse) (searchPorts : GoString)
    (h : searchPorts ≠ []) :
    processResponse response searchPorts =
      (((Split searchPorts ',').map TrimSpace).filter
        (fun tok => contains response.Ports (parseInt tok))).map
        (fun tok => sprintfSS response.IP tok) := by
  unfold processResponse
  rw [if_pos h]
  have := foldl_append_if (fun portStr => contains response.Ports (parseInt (TrimSpace portStr)))
    (fun portStr => sprintfSS response.IP (TrimSpace portStr)) (Split searchPorts ',') []
  simp only [List.nil_append] at this
  rw [this, List.filter_map, List.map_map]
  rfl

/-- C3: with a non-empty filter `processResponse` returns, in the order of the
filter and without deduplication, one line `IP:token` for every trimmed token
of the comma-split filter whose `parseInt` value is among the ports; the token
text is kept as given. -/
theorem filter_lines_follow_tokens (response : ShodanResponse) (searchPorts : GoString)
    (h : searchPorts ≠ []) :
    processResponse response searchPorts =
      (((Split searchPorts ',').map TrimSpace).filter
        (fun tok => decide (parseInt tok ∈ response.Ports))).map
        (fun tok => response.IP ++ ":".toList ++ tok) := by
  rw [processResponse_filter response searchPorts h]
  have hf : (fun tok => contains response.Ports (parseInt tok)) =
      (fun tok => decide (parseInt tok ∈ response.Ports)) := by
    funext tok
    rw [Bool.eq_iff_iff]
    simp [contains_iff]
  rw [hf]
  apply List.map_congr_left
  intro tok _
  simp [sprintfSS]

/-- C3, witness: ports `[22, 80, 443]` with the filter `80, 8080` give exactly
the line for `80`; a token given three times gives three lines. -/
theorem filter_lines_follow_tokens_witness :
    processResponse { Hostnames := [], IP := "192.0.2.5".toList, Ports := [22, 80, 443] }
        "80, 8080".toList = ["192.0.2.5:80".toList] ∧
    processResponse { Hostnames := [], IP := "192.0.2.5".toList, Ports := [22, 80, 443] }
        "22,22, 22 ".toList =
      ["192.0.2.5:22".toList, "192.0.2.5:22".toList, "192.0.2.5:22".toList] := by
  constructor
  · rw [filter_lines_follow_tokens _ _ (by decide)]
    decide
  · rw [filter_lines_follow_tokens _ _ (by decide)]
    decide

/-- C4: with the empty filter `processResponse` returns one line per port, in
the order of `Ports` and with duplicates kept, each `IP:port` with the port in
decimal; ports `[22, 80, 443]` give the three lines in that order. -/
theorem empty_filter_lists_all_ports (response : ShodanResponse) :
    processResponse response [] =
      response.Ports.map (fun port => response.IP ++ ":".toList ++ fmtInt port) ∧
    (processResponse response []).length = response.Ports.length ∧
    (∀ (hs : List GoString) (ip : GoString),
      processResponse { Hostnames := hs, IP := ip, Ports := [22, 80, 443] } [] =
        [ip ++ ":22".toList, ip ++ ":80".toList, ip ++ ":443".toList]) := by
  have h : ∀ r : ShodanResponse, processResponse r [] =
      r.Ports.map (fun port => r.IP ++ ":".toList ++ fmtInt port) := by
    intro r
    unfold processResponse
    rw [if_neg (by simp), foldl_append_map]
    simp [sprintfSD]
  refine ⟨h response, ?_, ?_⟩
  · rw [h, List.length_map]
  · intro hs ip
    rw [h]
    have e22 : fmtInt 22 = "22".toList := by decide
    have e80 : fmtInt 80 = "80".toList := by decide
    have e443 : fmtInt 443 = "443".toList := by decide
    simp [e22, e80, e443]

/-! ## `strconv.Atoi` and `parseInt` -/

theorem digitVal_le (c : Char) (h : isDigit c = true) : digitVal c ≤ 9 := by
  simp only [isDigit, Bool.and_eq_true, decide_eq_true_eq] at h
  obtain ⟨h1, h2⟩ := h
  have h2' : c.toNat ≤ '9'.toNat := h2
  have h1' : '0'.toNat ≤ c.toNat := h1
  simp only [digitVal]
  have e0 : '0'.toNat = 48 := by decide
  have e9 : '9'.toNat = 57 := by decide
  omega

theorem dec_foldl (ds : GoString) (n : Nat) :
    ds.foldl (fun n c => n * 10 + digitVal c) n = n * 10 ^ ds.length + decValue ds := by
  induction ds generalizing n with
  | nil => simp [decValue]
  | cons c cs ih =>
    simp only [List.foldl_cons, List.length_cons, decValue]
    rw [ih (n * 10 + digitVal c), ih (0 * 10 + digitVal c)]
    ring

theorem decValue_cons (c : Char) (cs : GoString) :
    decValue (c :: cs) = digitVal c * 10 ^ cs.length + decValue cs := by
  simp only [decValue, List.foldl_cons]
  rw [dec_foldl]
  simp [decValue]

theorem decValue_lt (ds : GoString) (h : ∀ d ∈ ds, isDigit d = true) :
    decValue ds < 10 ^ ds.length := by
  induction ds with
  | nil => simp [decValue]
  | cons c cs ih =>
    rw [decValue_cons, List.length_cons, pow_succ]
    have h1 := digitVal_le c (h c (by simp))
    have h2 := ih (fun d hd => h d (by simp [hd]))
    have h3 : digitVal c * 10 ^ cs.length ≤ 9 * 10 ^ cs.length := Nat.mul_le_mul_right _ h1
    omega

/-- `ParseUint` on digits: the decimal value, or the range error once 64 bits overflow. -/
theorem parseUintLoop_digits (ds : GoString) (h : ∀ d ∈ ds, isDigit d = true) (n : Nat)
    (hn : n ≤ maxUint64) :
    parseUintLoop ds n =
      if n * 10 ^ ds.length + decValue ds ≤ maxUint64 then
        (n * 10 ^ ds.length + decValue ds, none)
      else (maxUint64, some .ErrRange) := by
  induction ds generalizing n with
  | nil => simp [parseUintLoop, decValue, hn]
  | cons c cs ih =>
    have hc : isDigit c = true := h c (by simp)
    have hcs : ∀ d ∈ cs, isDigit d = true := fun d hd => h d (by simp [hd])
    have hpos : 1 ≤ 10 ^ cs.length := Nat.one_le_pow _ _ (by norm_num)
    have hsum : n * 10 ^ (cs.length + 1) + decValue (c :: cs) =
        (n * 10 + digitVal c) * 10 ^ cs.length + decValue cs := by
      rw [decValue_cons, pow_succ]; ring
    simp only [parseUintLoop, List.length_cons]
    rw [if_neg (by simp [hc]), hsum]
    generalize hP : 10 ^ cs.length = P at hpos ⊢
    by_cases h1 : n ≥ maxUint64 / 10 + 1
    · rw [if_pos h1, if_neg]
      have : maxUint64 < n * 10 := by
        simp only [maxUint64] at h1 ⊢
        omega
      have h3 : (n * 10 + digitVal c) * 1 ≤ (n * 10 + digitVal c) * P :=
        Nat.mul_le_mul_left _ hpos
      omega
    · rw [if_neg h1]
      by_cases h2 : n * 10 + digitVal c > maxUint64
      · rw [if_pos h2, if_neg]
        have h3 : (n * 10 + digitVal c) * 1 ≤ (n * 10 + digitVal c) * P :=
          Nat.mul_le_mul_left _ hpos
        omega
      · rw [if_neg h2, ih hcs _ (by omega), hP]

/-- `ParseUint` on digits followed by a non-digit that is met before any
overflow: the syntax error, with value 0. -/
theorem parseUintLoop_nondigit (ds : GoString) (c : Char) (rest : GoString)
    (h : ∀ d ∈ ds, isDigit d = true) (hc : isDigit c = false) (n : Nat)
    (hv : n * 10 ^ ds.length + decValue ds ≤ maxUint64) :
    parseUintLoop (ds ++ c :: rest) n = (0, some .ErrSyntax) := by
  induction ds generalizing n with
  | nil => simp [parseUintLoop, hc]
  | cons d cs ih =>
    have hd : isDigit d = true := h d (by simp)
    have hcs : ∀ x ∈ cs, isDigit x = true := fun x hx => h x (by simp [hx])
    have hpos : 1 ≤ 10 ^ cs.length := Nat.one_le_pow _ _ (by norm_num)
    have hsum : n * 10 ^ (cs.length + 1) + decValue (d :: cs) =
        (n * 10 + digitVal d) * 10 ^ cs.length + decValue cs := by
      rw [decValue_cons, pow_succ]; ring
    simp only [List.length_cons] at hv
    rw [hsum] at hv
    have h3 : (n * 10 + digitVal d) * 1 ≤ (n * 10 + digitVal d) * 10 ^ cs.length :=
      Nat.mul_le_mul_left _ hpos
    rw [List.cons_append]
    simp only [parseUintLoop]
    rw [if_neg (by simp [hd]), if_neg, if_neg, ih hcs _ hv]
    · omega
    · simp only [maxUint64] at hv h3 ⊢
      omega

theorem atoiFastLoop_digits (ds : GoString) (h : ∀ d ∈ ds, isDigit d = true) (n : Nat) :
    atoiFastLoop ds n = some (n * 10 ^ ds.length + decValue ds) := by
  induction ds generalizing n with
  | nil => simp [atoiFastLoop, decValue]
  | cons c cs ih =>
    have hc : isDigit c = true := h c (by simp)
    simp only [atoiFastLoop, List.length_cons]
    rw [if_neg (by simp [hc]), ih (fun d hd => h d (by simp [hd])), decValue_cons, pow_succ]
    congr 1
    ring

theorem atoiFastLoop_nondigit (ds : GoString) (c : Char) (rest : GoString)
    (h : ∀ d ∈ ds, isDigit d = true) (hc : isDigit c = false) (n : Nat) :
    atoiFastLoop (ds ++ c :: rest) n = none := by
  induction ds generalizing n with
  | nil => simp [atoiFastLoop, hc]
  | cons d cs ih =>
    have hd : isDigit d = true := h d (by simp)
    rw [List.cons_append]
    simp only [atoiFastLoop]
    rw [if_neg (by simp [hd]), ih (fun x hx => h x (by simp [hx]))]

theorem unsignedPart_swap (s : GoString) :
    (if s.head? = some '-' ∨ s.head? = some '+' then s.drop 1 else s) = unsignedPart s := by
  unfold unsignedPart
  by_cases h : s.head? = some '+' ∨ s.head? = some '-'
  · rw [if_pos h, if_pos (Or.symm h)]
  · rw [if_neg h, if_neg (fun h2 => h (Or.symm h2))]

theorem unsignedPart_length_le (s : GoString) : (unsignedPart s).length ≤ s.length := by
  unfold unsignedPart
  split <;> simp

theorem atoi_fast (s : GoString) (h : 0 < s.length ∧ s.length < 19) :
    Atoi s =
      if (unsignedPart s).length < 1 then (0, some .ErrSyntax)
      else
        match atoiFastLoop (unsignedPart s) 0 with
        | none => (0, some .ErrSyntax)
        | some n => if s.head? = some '-' then (-Int.ofNat n, none) else (Int.ofNat n, none) := by
  unfold Atoi
  rw [if_pos h]
  simp only [unsignedPart_swap]

theorem parseInt_slow (s : GoString) (h : s ≠ []) :
    ParseInt s =
      if (ParseUint (unsignedPart s)).2 = some .ErrSyntax then (0, some .ErrSyntax)
      else if ¬ (s.head? = some '-') ∧ (ParseUint (unsignedPart s)).1 ≥ 2 ^ 63 then
        (Int.ofNat (2 ^ 63 - 1), some .ErrRange)
      else if s.head? = some '-' ∧ (ParseUint (unsignedPart s)).1 > 2 ^ 63 then
        (-Int.ofNat (2 ^ 63), some .ErrRange)
      else if s.head? = some '-' then (-Int.ofNat (ParseUint (unsignedPart s)).1, none)
      else (Int.ofNat (ParseUint (unsignedPart s)).1, none) := by
  unfold ParseInt
  rw [if_neg h]
  simp only [unsignedPart, intSize]

/-- `Atoi` on text that is empty behind the optional sign: the syntax error. -/
theorem atoi_body_empty (s : GoString) (h : unsignedPart s = []) :
    Atoi s = (0, some .ErrSyntax) := by
  by_cases hf : 0 < s.length ∧ s.length < 19
  · rw [atoi_fast s hf, h]
    simp
  · have hs : s = [] := by
      cases s with
      | nil => rfl
      | cons c cs =>
        exfalso
        unfold unsignedPart at h
        split at h
        · simp only [List.drop_succ_cons, List.drop_zero] at h
          subst h
          simp at hf
        · cases h
    subst hs
    rfl

/-- `Atoi` on text with a non-digit behind digits that do not overflow 64
bits: the syntax error, with value 0. -/
theorem atoi_nondigit (s ds rest : GoString) (c : Char) (h : unsignedPart s = ds ++ c :: rest)
    (hds : ∀ d ∈ ds, isDigit d = true) (hc : isDigit c = false)
    (hv : decValue ds ≤ maxUint64) :
    Atoi s = (0, some .ErrSyntax) := by
  have hs : s ≠ [] := by
    intro e
    subst e
    simp [unsignedPart] at h
  by_cases hf : 0 < s.length ∧ s.length < 19
  · rw [atoi_fast s hf, h, atoiFastLoop_nondigit ds c rest hds hc]
    simp
  · unfold Atoi
    rw [if_neg hf, parseInt_slow s hs, h]
    have hu : ParseUint (ds ++ c :: rest) = (0, some .ErrSyntax) := by
      unfold ParseUint
      rw [if_neg (by simp), parseUintLoop_nondigit ds c rest hds hc 0 (by simpa using hv)]
    rw [hu]
    simp

/-- `Atoi` on an optional sign followed by digits: the value when it fits in
64 signed bits, the nearest bound with the range error when it does not. -/
theorem atoi_digits (s : GoString) (hne : unsignedPart s ≠ [])
    (hds : ∀ d ∈ unsignedPart s, isDigit d = true) :
    Atoi s =
      if ¬ (s.head? = some '-') ∧ decValue (unsignedPart s) ≥ 2 ^ 63 then
        (Int.ofNat (2 ^ 63 - 1), some .ErrRange)
      else if s.head? = some '-' ∧ decValue (unsignedPart s) > 2 ^ 63 then
        (-Int.ofNat (2 ^ 63), some .ErrRange)
      else if s.head? = some '-' then (-Int.ofNat (decValue (unsignedPart s)), none)
      else (Int.ofNat (decValue (unsignedPart s)), none) := by
  have hs : s ≠ [] := by
    intro e
    subst e
    simp [unsignedPart] at hne
  have hlen : 0 < (unsignedPart s).length := List.length_pos.2 hne
  by_cases hf : 0 < s.length ∧ s.length < 19
  · have hlt := decValue_lt _ hds
    have hle := unsignedPart_length_le s
    have hpow : 10 ^ (unsignedPart s).length ≤ 10 ^ 18 :=
      Nat.pow_le_pow_right (by norm_num) (by omega)
    have hV : decValue (unsignedPart s) < 2 ^ 63 := by
      have : (10 : Nat) ^ 18 < 2 ^ 63 := by norm_num
      omega
    have h1 : ¬ (decValue (unsignedPart s) ≥ 2 ^ 63) := by omega
    have h2 : ¬ (decValue (unsignedPart s) > 2 ^ 63) := by omega
    rw [atoi_fast s hf, if_neg (by omega), atoiFastLoop_digits _ hds]
    simp only [Nat.zero_mul, Nat.zero_add]
    simp only [h1, h2, and_false, if_false]
  · unfold Atoi
    rw [if_neg hf, parseInt_slow s hs]
    have hu : ParseUint (unsignedPart s) =
        if decValue (unsignedPart s) ≤ maxUint64 then (decValue (unsignedPart s), none)
        else (maxUint64, some .ErrRange) := by
      unfold ParseUint
      rw [if_neg hne, parseUintLoop_digits _ hds 0 (by simp)]
      simp
    rw [hu]
    by_cases hm : decValue (unsignedPart s) ≤ maxUint64
    · simp only [if_pos hm]
      rw [if_neg (by simp)]
    · simp only [if_neg hm]
      rw [if_neg (by simp)]
      have hbig : decValue (unsignedPart s) > 2 ^ 64 - 1 := by
        simpa [maxUint64] using hm
      by_cases hn : s.head? = some '-'
      · rw [if_neg (by simp [hn]), if_pos ⟨hn, by simp [maxUint64]⟩, if_neg (by simp [hn]),
          if_pos ⟨hn, by omega⟩]
      · rw [if_pos ⟨hn, by simp [maxUint64]⟩, if_pos ⟨hn, by omega⟩]

theorem digitRun_split (l : GoString) :
    (∀ d ∈ l.takeWhile isDigit, isDigit d = true) ∧
    (l.takeWhile isDigit = l ∨
      ∃ c rest, l = l.takeWhile isDigit ++ c :: rest ∧ isDigit c = false) := by
  induction l with
  | nil => simp
  | cons x xs ih =>
    by_cases hx : isDigit x = true
    · rw [List.takeWhile_cons_of_pos hx]
      refine ⟨?_, ?_⟩
      · intro d hd
        rcases List.mem_cons.1 hd with e | hm
        · rw [e]; exact hx
        · exact ih.1 d hm
      · rcases ih.2 with e | ⟨c, rest, e, hc⟩
        · left
          rw [e]
        · right
          refine ⟨c, rest, ?_, hc⟩
          rw [List.cons_append, ← e]
    · rw [List.takeWhile_cons_of_neg hx]
      refine ⟨by simp, Or.inr ⟨x, xs, by simp, by simpa using hx⟩⟩

/-- `ParseUint` on digits that overflow 64 bits, whatever follows them: the
range error, reported before the rest of the text is read. -/
theorem parseUintLoop_overflow (ds tail : GoString) (h : ∀ d ∈ ds, isDigit d = true) (n : Nat)
    (hn : n ≤ maxUint64) (hv : maxUint64 < n * 10 ^ ds.length + decValue ds) :
    parseUintLoop (ds ++ tail) n = (maxUint64, some .ErrRange) := by
  induction ds generalizing n with
  | nil =>
    simp [decValue] at hv
    omega
  | cons d cs ih =>
    have hd : isDigit d = true := h d (by simp)
    have hcs : ∀ x ∈ cs, isDigit x = true := fun x hx => h x (by simp [hx])
    have hsum : n * 10 ^ (cs.length + 1) + decValue (d :: cs) =
        (n * 10 + digitVal d) * 10 ^ cs.length + decValue cs := by
      rw [decValue_cons, pow_succ]; ring
    simp only [List.length_cons] at hv
    rw [hsum] at hv
    rw [List.cons_append]
    simp only [parseUintLoop]
    rw [if_neg (by simp [hd])]
    by_cases h1 : n ≥ maxUint64 / 10 + 1
    · rw [if_pos h1]
    · rw [if_neg h1]
      by_cases h2 : n * 10 + digitVal d > maxUint64
      · rw [if_pos h2]
      · rw [if_neg h2, ih hcs _ (by omega) hv]

/-- `Atoi` on a run of digits that overflows 64 bits and is followed by more
text: the range error, with the bound on the side of the sign. -/
theorem atoi_overflow (s ds tail : GoString) (h : unsignedPart s = ds ++ tail)
    (hds : ∀ d ∈ ds, isDigit d = true) (hv : 2 ^ 64 ≤ decValue ds) :
    Atoi s = (saturated s, some .ErrRange) := by
  have hlt := decValue_lt ds hds
  have hne : ds ≠ [] := by
    intro e
    subst e
    simp [decValue] at hv
  have hs : s ≠ [] := by
    intro e
    subst e
    simp [unsignedPart] at h
    exact hne h.1
  have hslow : ¬ (0 < s.length ∧ s.length < 19) := by
    intro hf
    have hle := unsignedPart_length_le s
    rw [h, List.length_append] at hle
    have hpow : 10 ^ ds.length ≤ 10 ^ 18 := Nat.pow_le_pow_right (by norm_num) (by omega)
    have : (10 : Nat) ^ 18 < 2 ^ 64 := by norm_num
    omega
  unfold Atoi
  rw [if_neg hslow, parseInt_slow s hs, h]
  have hu : ParseUint (ds ++ tail) = (maxUint64, some .ErrRange) := by
    unfold ParseUint
    rw [if_neg (by simp [hne]), parseUintLoop_overflow ds tail hds 0 (by simp)
      (by simp only [maxUint64]; omega)]
  rw [hu]
  rw [if_neg (by simp)]
  by_cases hn : s.head? = some '-'
  · rw [if_neg (by simp [hn]), if_pos ⟨hn, by simp [maxUint64]⟩]
    simp [saturated, hn]
  · rw [if_pos ⟨hn, by simp [maxUint64]⟩]
    simp [saturated, hn]

/-- The value of `parseInt` on text with the syntax error is 0. -/
theorem parseInt_syntaxBad (tok : GoString) (h : SyntaxBad tok) :
    Atoi tok = (0, some .ErrSyntax) := by
  rcases h with h | ⟨hne, hv⟩
  · exact atoi_body_empty tok h
  · obtain ⟨hd, hsplit⟩ := digitRun_split (unsignedPart tok)
    rcases hsplit with e | ⟨c, rest, e, hc⟩
    · exact absurd e hne
    · exact atoi_nondigit tok _ rest c e hd hc (by
        have : decValue (digitRun tok) < 2 ^ 64 := hv
        simp only [maxUint64]
        exact Nat.le_sub_one_of_lt this)

/-- The value of `parseInt` on text with the range error is the bound on the
side of the sign. -/
theorem parseInt_tooLarge (tok : GoString) (h : TooLarge tok) :
    Atoi tok = (saturated tok, some .ErrRange) := by
  obtain ⟨hne, hcase⟩ := h
  obtain ⟨hd, hsplit⟩ := digitRun_split (unsignedPart tok)
  by_cases he : digitRun tok = unsignedPart tok
  · rw [if_pos he] at hcase
    have hall : ∀ d ∈ unsignedPart tok, isDigit d = true := by
      intro d hm
      have : d ∈ digitRun tok := by rw [he]; exact hm
      exact hd d this
    rw [atoi_digits tok hne hall]
    rw [he] at hcase
    by_cases hn : tok.head? = some '-'
    · rw [if_pos hn] at hcase
      rw [if_neg (by simp [hn]), if_pos ⟨hn, hcase⟩]
      simp [saturated, hn]
    · rw [if_neg hn] at hcase
      rw [if_pos ⟨hn, hcase⟩]
      simp [saturated, hn]
  · rw [if_neg he] at hcase
    rcases hsplit with e | ⟨c, rest, e, _⟩
    · exact absurd e he
    · exact atoi_overflow tok _ _ e hd hcase

/-- Every text that `Atoi` rejects has the syntax error or the range error. -/
theorem atoi_error_cases (tok : GoString) (h : (Atoi tok).2 ≠ none) :
    SyntaxBad tok ∨ TooLarge tok := by
  by_cases hb : unsignedPart tok = []
  · exact Or.inl (Or.inl hb)
  obtain ⟨hd, hsplit⟩ := digitRun_split (unsignedPart tok)
  by_cases he : digitRun tok = unsignedPart tok
  · right
    refine ⟨hb, ?_⟩
    rw [if_pos he]
    have hall : ∀ d ∈ unsignedPart tok, isDigit d = true := by
      intro d hm
      have : d ∈ digitRun tok := by rw [he]; exact hm
      exact hd d this
    rw [atoi_digits tok hb hall] at h
    rw [he]
    by_cases hn : tok.head? = some '-'
    · rw [if_pos hn]
      by_contra hc
      rw [if_neg (by simp [hn]), if_neg (fun x => hc x.2), if_pos hn] at h
      exact h rfl
    · rw [if_neg hn]
      by_contra hc
      rw [if_neg (fun x => hc x.2), if_neg (fun x => hn x.1), if_neg hn] at h
      exact h rfl
  · by_cases hv : decValue (digitRun tok) < 2 ^ 64
    · exact Or.inl (Or.inr ⟨he, hv⟩)
    · right
      refine ⟨hb, ?_⟩
      rw [if_neg he]
      omega

/-! ## Claims on `parseInt` -/

theorem line_mem_iff (response : ShodanResponse) (searchPorts tok : GoString)
    (h : searchPorts ≠ []) (hmem : tok ∈ (Split searchPorts ',').map TrimSpace) :
    response.IP ++ ":".toList ++ tok ∈ processResponse response searchPorts ↔
      parseInt tok ∈ response.Ports := by
  rw [processResponse_filter response searchPorts h, List.mem_map]
  constructor
  · rintro ⟨t, ht, e⟩
    have e2 : t = tok := by
      have e3 : response.IP ++ ':' :: t = response.IP ++ ':' :: tok := by
        simpa [sprintfSS] using e
      have := List.append_cancel_left e3
      simpa using this
    subst e2
    rw [List.mem_filter] at ht
    exact (contains_iff _ _).1 ht.2
  · intro hp
    refine ⟨tok, ?_, by simp [sprintfSS]⟩
    rw [List.mem_filter]
    exact ⟨hmem, (contains_iff _ _).2 hp⟩

/-- C9, counterexample: the token `9223372036854775808` is not a parsable
integer (range error), yet `parseInt` returns 9223372036854775807 and not 0,
and `processResponse` emits its line for a response whose ports do not include 0. -/
theorem oversized_token_is_not_zero :
    (Atoi "9223372036854775808".toList).2 = some .ErrRange ∧
    parseInt "9223372036854775808".toList = 9223372036854775807 ∧
    parseInt "9223372036854775808".toList ≠ 0 ∧
    contains [9223372036854775807] 0 = false ∧
    processResponse { Hostnames := [], IP := "192.0.2.5".toList, Ports := [9223372036854775807] }
        "9223372036854775808".toList = ["192.0.2.5:9223372036854775808".toList] := by
  decide

/-- C9, amended: a trimmed filter token that `Atoi` rejects is either text
with the syntax error (nothing behind the sign, or a non-digit before any
64-bit overflow), for which `parseInt` returns 0 and the line of the token is
emitted exactly when 0 is among the ports; or text with the range error
(digits too large), for which `parseInt` returns the bound on the side of the
sign and the line is emitted exactly when that bound is among the ports. -/
theorem unparsable_token_value (response : ShodanResponse) (searchPorts tok : GoString)
    (h : searchPorts ≠ []) (hmem : tok ∈ (Split searchPorts ',').map TrimSpace)
    (herr : (Atoi tok).2 ≠ none) :
    (SyntaxBad tok ∧ parseInt tok = 0 ∧
      (response.IP ++ ":".toList ++ tok ∈ processResponse response searchPorts ↔
        (0 : Int) ∈ response.Ports)) ∨
    (TooLarge tok ∧ parseInt tok = saturated tok ∧
      (response.IP ++ ":".toList ++ tok ∈ processResponse response searchPorts ↔
        saturated tok ∈ response.Ports)) := by
  have hl := line_mem_iff response searchPorts tok h hmem
  rcases atoi_error_cases tok herr with hs | ht
  · left
    have hv : parseInt tok = 0 := by
      simp [parseInt, parseInt_syntaxBad tok hs]
    refine ⟨hs, hv, ?_⟩
    rw [hl, hv]
  · right
    have hv : parseInt tok = saturated tok := by
      simp [parseInt, parseInt_tooLarge tok ht]
    refine ⟨ht, hv, ?_⟩
    rw [hl, hv]

/-- C9, witness: the token `x` of the filter `80, x`. -/
theorem unparsable_token_value_witness :
    (SyntaxBad "x".toList ∧ parseInt "x".toList = 0 ∧
      ("192.0.2.5".toList ++ ":".toList ++ "x".toList ∈
          processResponse { Hostnames := [], IP := "192.0.2.5".toList, Ports := [0, 80] }
            "80, x".toList ↔
        (0 : Int) ∈ [0, 80])) ∨
    (TooLarge "x".toList ∧ parseInt "x".toList = saturated "x".toList ∧
      ("192.0.2.5".toList ++ ":".toList ++ "x".toList ∈
          processResponse { Hostnames := [], IP := "192.0.2.5".toList, Ports := [0, 80] }
            "80, x".toList ↔
        saturated "x".toList ∈ [0, 80])) :=
  unparsable_token_value { Hostnames := [], IP := "192.0.2.5".toList, Ports := [0, 80] }
    "80, x".toList "x".toList (by decide) (by decide) (by decide)

/-! ## Claims on the three outcomes of `validateAndGetIPs` -/

theorem expandLoop_acc_le (T : TextLayer) (net : IPNet) (fuel : Nat) :
    ∀ (ip : IP) (acc ips : List GoString),
      expandLoop T net fuel ip acc = some ips → acc.length ≤ ips.length := by
  induction fuel with
  | zero =>
    intro ip acc ips h
    cases h
  | succ fuel ih =>
    intro ip acc ips h
    simp only [expandLoop] at h
    split at h
    · have := ih _ _ _ h
      simp only [List.length_append, List.length_singleton] at this
      omega
    · simp only [Option.some.injEq] at h
      rw [h]

/-- The network of a parsed block contains its own network number, so the
first test of the loop succeeds. -/
theorem contains_start (a : NetipAddr) (p : Nat) (hp : p ≤ a.BitLen) :
    Contains (parsedNet a p) (Mask a.As16 (parsedNet a p).Mask) = true := by
  simp only [parsedNet]
  cases a with
  | v4 w =>
    simp only [NetipAddr.BitLen] at hp ⊢
    have hN : networkValue (.v4 w) p < 2 ^ 32 :=
      lt_of_le_of_lt (Nat.div_mul_le_self _ _) (Nat.mod_lt _ (by norm_num))
    rw [mask_as16_v4 w p hp, cidrMask_32 p hp]
    exact (contains_v4 _ p _ hp hN hN).2 rfl
  | v6 w z =>
    simp only [NetipAddr.BitLen] at hp ⊢
    have hx : w % 2 ^ 128 < 2 ^ 128 := Nat.mod_lt _ (by norm_num)
    have hN : networkValue (.v6 w z) p < 2 ^ 128 :=
      lt_of_le_of_lt (Nat.div_mul_le_self _ _) hx
    obtain ⟨_, h2, _, _, _⟩ := block_arith 128 (128 - p) (w % 2 ^ 128) (by omega) hx
    have hal : networkValue (.v6 w z) p =
        networkValue (.v6 w z) p / 2 ^ (128 - p) * 2 ^ (128 - p) := by
      simp only [networkValue, hostBits, NetipAddr.BitLen, NetipAddr.value]
      rw [h2]
    rw [mask_as16_v6 w p z hp, cidrMask_128 p hp]
    exact (contains_v6 _ p _ hp hN hN hal).2 ⟨rfl, fun h => h⟩

theorem loop_result_nonempty (T : TextLayer) (a : NetipAddr) (p fuel : Nat)
    (ips : List GoString) (hp : p ≤ a.BitLen)
    (h : expandLoop T (parsedNet a p) fuel (Mask a.As16 (parsedNet a p).Mask) [] = some ips) :
    1 ≤ ips.length := by
  cases fuel with
  | zero => cases h
  | succ fuel =>
    simp only [expandLoop] at h
    rw [if_pos (contains_start a p hp)] at h
    have := expandLoop_acc_le T _ fuel _ _ _ h
    simpa using this

theorem dropEnds_length (ips : List GoString) : (dropEnds ips).length = ips.length - 2 := by
  simp only [dropEnds, List.length_drop, List.length_take]
  omega

theorem validate_not_cidr (T : TextLayer) (fuel : Nat) (input : GoString)
    (h : ParseCIDR T input = none) :
    validateAndGetIPs T fuel input =
      if ParseIP T input ≠ [] then some (some [input]) else some none := by
  simp [validateAndGetIPs, isValidCIDR, h]

theorem parseCIDR_some_parts (T : TextLayer) (input : GoString) (h : ParseCIDR T input ≠ none) :
    ∃ a p, parseCIDRParts T input = some (a, p) := by
  unfold ParseCIDR at h
  cases hp : parseCIDRParts T input with
  | none => simp [hp] at h
  | some r => exact ⟨r.1, r.2, rfl⟩

theorem validate_outcomes (T : TextLayer) (fuel : Nat) (input : GoString) :
    (validateAndGetIPs T fuel input = some none ↔
      (ParseCIDR T input = none ∧ ParseIP T input = [])) ∧
    (∀ l, validateAndGetIPs T fuel input = some (some l) → l ≠ []) ∧
    (ParseCIDR T input = none → validateAndGetIPs T fuel input ≠ none) := by
  by_cases hc : ParseCIDR T input = none
  · rw [validate_not_cidr T fuel input hc]
    by_cases hi : ParseIP T input = []
    · simp [hi, hc]
    · simp [hi, hc]
  · obtain ⟨a, p, hparts⟩ := parseCIDR_some_parts T input hc
    have hp := (parseCIDRParts_some T input a p hparts).2
    rw [validate_of_parts T fuel input a p hparts]
    cases hl : expandLoop T (parsedNet a p) fuel (Mask a.As16 (parsedNet a p).Mask) [] with
    | none => simp [hc]
    | some ips =>
      have hlen := loop_result_nonempty T a p fuel ips hp hl
      refine ⟨?_, ?_, fun h => absurd h hc⟩
      · simp only [hc, false_and, iff_false]
        split <;> simp
      · intro l hl2
        simp only at hl2
        split at hl2
        · rename_i h2
          simp only [Option.some.injEq] at hl2
          intro e
          have := dropEnds_length ips
          rw [hl2, e] at this
          simp at this
          omega
        · simp only [Option.some.injEq] at hl2
          intro e
          rw [← hl2] at e
          rw [e] at hlen
          simp at hlen

/-- What `validateAndGetIPs` returns, when it returns: nil exactly for input
that parses neither as a CIDR block nor as an IP literal, and a non-empty
sequence otherwise; input that is not a CIDR block always gets a result. -/
theorem invalid_only_when_unparsable (T : TextLayer) (fuel : Nat) (input : GoString) :
    (validateAndGetIPs T fuel input = some none ↔
      (ParseCIDR T input = none ∧ ParseIP T input = [])) ∧
    (∀ l, validateAndGetIPs T fuel input = some (some l) → l ≠ []) ∧
    (ParseCIDR T input = none → validateAndGetIPs T fuel input ≠ none) :=
  validate_outcomes T fuel input

/-- C5, at the failing input `0.0.0.0/0`: the input is a valid CIDR block, and
`validateAndGetIPs` produces no result at all, nil or not, for any fuel. -/
theorem valid_cidr_without_result (fuel : Nat) :
    isValidCIDR dottedQuad "0.0.0.0/0".toList = true ∧
    ¬ ∃ r, validateAndGetIPs dottedQuad fuel "0.0.0.0/0".toList = some r := by
  refine ⟨by decide, ?_⟩
  rintro ⟨r, hr⟩
  rw [v4_zero_never_returns dottedQuad _ 0 (by decide) fuel] at hr
  cases hr

/-- C6: input that is not a valid CIDR block and parses as an IP literal is
returned as the only element of the result, unchanged. -/
theorem bare_literal_returned_unchanged (T : TextLayer) (fuel : Nat) (input : GoString)
    (hc : isValidCIDR T input = false) (hi : ParseIP T input ≠ []) :
    validateAndGetIPs T fuel input = some (some [input]) := by
  have h : ParseCIDR T input = none := by
    simpa [isValidCIDR] using hc
  rw [validate_not_cidr T fuel input h, if_pos hi]

/-- C6, witness: `192.0.2.5` expands to itself. -/
theorem bare_literal_returned_unchanged_witness :
    validateAndGetIPs dottedQuad 0 "192.0.2.5".toList = some (some ["192.0.2.5".toList]) :=
  bare_literal_returned_unchanged dottedQuad 0 "192.0.2.5".toList (by decide) (by decide)

/-! ## The scan coordinator -/

theorem reachable_refl (sp : GoString) (s : RunState) : Reachable sp s s :=
  ⟨[], rfl⟩

theorem reachable_step (sp : GoString) (s0 s1 s : RunState) (a : Action)
    (h1 : step sp s0 a = some s1) (h : Reachable sp s1 s) : Reachable sp s0 s := by
  obtain ⟨acts, ha⟩ := h
  refine ⟨a :: acts, ?_⟩
  simp [runActions, h1, ha]

/-- An invariant of every step holds in every reachable state. -/
theorem reachable_induction (sp : GoString) (P : RunState → Prop)
    (hstep : ∀ s a s1, P s → step sp s a = some s1 → P s1) :
    ∀ (acts : List Action) (s0 s : RunState), P s0 → runActions sp s0 acts = some s → P s := by
  intro acts
  induction acts with
  | nil =>
    intro s0 s h0 h
    simp only [runActions, Option.some.injEq] at h
    rw [← h]; exact h0
  | cons a rest ih =>
    intro s0 s h0 h
    simp only [runActions] at h
    cases hs : step sp s0 a with
    | none => simp [hs] at h
    | some s1 =>
      rw [hs] at h
      exact ih s1 s (hstep s0 a s1 h0 hs) h

/-- After `main` has stopped, no step is enabled. -/
theorem no_step_when_stopped (sp : GoString) (s : RunState) (a : Action)
    (h : s.pc = .exited ∨ s.pc = .panicked) : step sp s a = none := by
  cases a with
  | main =>
    rcases h with h | h <;> simp [step, stepMain, h]
  | unit i outcome =>
    simp [step, stepUnit, h]
  | rendezvous i =>
    rcases h with h | h <;> simp [step, stepRendezvous, h]

theorem reachable_from_stopped (sp : GoString) (s0 s : RunState)
    (h : s0.pc = .exited ∨ s0.pc = .panicked) (hr : Reachable sp s0 s) : s = s0 := by
  obtain ⟨acts, ha⟩ := hr
  cases acts with
  | nil =>
    simp only [runActions, Option.some.injEq] at ha
    exact ha.symm
  | cons a rest =>
    simp [runActions, no_step_when_stopped sp s0 a h] at ha

/-! ### C8: the output for a range that cannot be parsed -/

/-- C8, counterexample: the empty range specification parses neither as a CIDR
block nor as an IP literal (`validateAndGetIPs` gives nil for it), and the run
writes nothing to standard output, not the line `Invalid input`; the same
happens for the range `not-an-ip` when the help flag is set. -/
theorem empty_range_prints_nothing :
    validateAndGetIPs dottedQuad 0 [] = some none ∧
    mainInit dottedQuad 0
        { help := false, ipRange := [], searchPorts := [], threads := 1 } =
      some (stopped .exited []) ∧
    validateAndGetIPs dottedQuad 0 "not-an-ip".toList = some none ∧
    mainInit dottedQuad 0
        { help := true, ipRange := "not-an-ip".toList, searchPorts := [], threads := 1 } =
      some (stopped .exited []) ∧
    (stopped .exited []).stdout ≠ [println "Invalid input".toList] := by
  decide

/-- C8, amended: in a run without the help flag, for every non-empty range
specification that parses neither as a CIDR block nor as an IP literal, `main`
stops with standard output holding exactly the line `Invalid input`; no state
other than this one is reachable, and it has no goroutine and no lookup.  In
every run with the help flag, whatever the range, and in every run with the
empty range specification, `main` stops with nothing on standard output, no
goroutine and no lookup. -/
theorem invalid_range_output (T : TextLayer) (fuel : Nat) (cfg : Config) :
    (cfg.help = false → cfg.ipRange ≠ [] →
      ParseCIDR T cfg.ipRange = none ∧ ParseIP T cfg.ipRange = [] →
      ∃ s0, mainInit T fuel cfg = some s0 ∧
        ∀ s, Reachable cfg.searchPorts s0 s →
          s.stdout = [println "Invalid input".toList] ∧ s.lookups = 0 ∧ s.units = [] ∧
            s.pc = .exited) ∧
    (cfg.help = true ∨ cfg.ipRange = [] →
      ∃ s0, mainInit T fuel cfg = some s0 ∧
        ∀ s, Reachable cfg.searchPorts s0 s →
          s.stdout = [] ∧ s.lookups = 0 ∧ s.units = [] ∧ s.pc = .exited) := by
  refine ⟨fun hh hne hinv => ?_, fun hq => ?_⟩
  · have hv : validateAndGetIPs T fuel cfg.ipRange = some none :=
      ((validate_outcomes T fuel cfg.ipRange).1).2 hinv
    refine ⟨stopped .exited [println "Invalid input".toList], ?_, ?_⟩
    · simp [mainInit, hh, hne, hv]
    · intro s hr
      have := reachable_from_stopped cfg.searchPorts _ s (Or.inl rfl) hr
      rw [this]
      simp [stopped]
  · refine ⟨stopped .exited [], ?_, ?_⟩
    · by_cases hh : cfg.help = true
      · simp [mainInit, hh]
      · rcases hq with hq | hq
        · exact absurd hq hh
        · simp [mainInit, hh, hq]
    · intro s hr
      have := reachable_from_stopped cfg.searchPorts _ s (Or.inl rfl) hr
      rw [this]
      simp [stopped]

/-- C8, witness: the range `not-an-ip` without the help flag gives the line
`Invalid input`; the empty range gives nothing; the help flag with the range
`192.0.2.5` gives nothing. -/
theorem invalid_range_output_witness :
    (∃ s0, mainInit dottedQuad 0
        { help := false, ipRange := "not-an-ip".toList, searchPorts := [], threads := 1 } =
          some s0 ∧
      ∀ s, Reachable [] s0 s →
        s.stdout = [println "Invalid input".toList] ∧ s.lookups = 0 ∧ s.units = [] ∧
          s.pc = .exited) ∧
    (∃ s0, mainInit dottedQuad 0
        { help := false, ipRange := [], searchPorts := [], threads := 1 } = some s0 ∧
      ∀ s, Reachable [] s0 s →
        s.stdout = [] ∧ s.lookups = 0 ∧ s.units = [] ∧ s.pc = .exited) ∧
    (∃ s0, mainInit dottedQuad 0
        { help := true, ipRange := "192.0.2.5".toList, searchPorts := [], threads := 1 } =
          some s0 ∧
      ∀ s, Reachable [] s0 s →
        s.stdout = [] ∧ s.lookups = 0 ∧ s.units = [] ∧ s.pc = .exited) :=
  ⟨(invalid_range_output dottedQuad 0
      { help := false, ipRange := "not-an-ip".toList, searchPorts := [], threads := 1 }).1
      rfl (by decide) (by decide),
   (invalid_range_output dottedQuad 0
      { help := false, ipRange := [], searchPorts := [], threads := 1 }).2 (Or.inr rfl),
   (invalid_range_output dottedQuad 0
      { help := true, ipRange := "192.0.2.5".toList, searchPorts := [], threads := 1 }).2
      (Or.inl rfl)⟩

/-! ### C10: the number of units in flight -/

theorem filter_set_length (l : List UnitState) (i : Nat) (u v : UnitState)
    (h : l[i]? = some u) :
    ((l.set i v).filter holdsSlot).length + (if holdsSlot u = true then 1 else 0) =
      (l.filter holdsSlot).length + (if holdsSlot v = true then 1 else 0) := by
  induction l generalizing i with
  | nil => simp at h
  | cons x xs ih =>
    cases i with
    | zero =>
      simp only [List.getElem?_cons_zero, Option.some.injEq] at h
      subst h
      simp only [List.set_cons_zero, List.filter_cons]
      by_cases hx : holdsSlot x = true <;> by_cases hv : holdsSlot v = true <;>
        simp [hx, hv]
    | succ i =>
      simp only [List.getElem?_cons_succ] at h
      have := ih i h
      simp only [List.set_cons_succ, List.filter_cons]
      by_cases hx : holdsSlot x = true
      · simp only [hx, if_true, List.length_cons]
        omega
      · simp only [hx, if_false]
        exact this

/-- Every step keeps the number of units in flight equal to the number of
elements in the semaphore channel, which is at most its capacity; the capacity
does not change. -/
theorem step_keeps_slots (sp : GoString) (s s1 : RunState) (a : Action)
    (hinv : inFlight s = s.sem ∧ s.sem ≤ s.cap) (hs : step sp s a = some s1) :
    (inFlight s1 = s1.sem ∧ s1.sem ≤ s1.cap) ∧ s1.cap = s.cap := by
  obtain ⟨h1, h2⟩ := hinv
  cases a with
  | main =>
    simp only [step, stepMain] at hs
    cases hpc : s.pc with
    | add =>
      rw [hpc] at hs
      cases hpend : s.pending with
      | nil =>
        simp only [hpend, Option.some.injEq] at hs
        subst hs
        simp_all [inFlight]
      | cons ip rest =>
        simp only [hpend, Option.some.injEq] at hs
        subst hs
        simp_all [inFlight]
    | acquire =>
      rw [hpc] at hs
      simp only at hs
      split at hs
      · simp only [Option.some.injEq] at hs
        subst hs
        simp_all [inFlight]
        omega
      · cases hs
    | spawn =>
      rw [hpc] at hs
      cases hpend : s.pending with
      | nil => simp [hpend] at hs
      | cons ip rest =>
        simp only [hpend, Option.some.injEq] at hs
        subst hs
        simp_all [inFlight, List.filter_append, holdsSlot]
    | wait =>
      rw [hpc] at hs
      simp only at hs
      split at hs
      · simp only [Option.some.injEq] at hs
        subst hs
        simp_all [inFlight]
      · cases hs
    | exited => simp [hpc] at hs
    | panicked => simp [hpc] at hs
  | unit i outcome =>
    simp only [step, stepUnit] at hs
    split at hs
    · cases hs
    · cases hu : s.units[i]? with
      | none => simp [hu] at hs
      | some u =>
        simp only [hu] at hs
        have hset := fun v => filter_set_length s.units i u v hu
        simp only [inFlight] at h1
        cases hupc : u.pc with
        | started =>
          simp only [hupc, Option.some.injEq] at hs
          subst hs
          refine ⟨⟨?_, h2⟩, rfl⟩
          have := hset { u with pc := .fetched outcome }
          simp [holdsSlot, hupc] at this
          simp only [inFlight]
          rw [this]
          exact h1
        | fetched r =>
          simp only [hupc, Option.some.injEq] at hs
          subst hs
          refine ⟨⟨?_, h2⟩, rfl⟩
          have := hset { u with pc := .reported }
          simp [holdsSlot, hupc] at this
          simp only [inFlight]
          rw [this]
          exact h1
        | reported =>
          simp only [hupc, Option.some.injEq] at hs
          subst hs
          refine ⟨⟨?_, h2⟩, rfl⟩
          have := hset { u with pc := .doneCalled }
          simp [holdsSlot, hupc] at this
          simp only [inFlight]
          rw [this]
          exact h1
        | doneCalled =>
          simp only [hupc] at hs
          split at hs
          · rename_i hpos
            simp only [Option.some.injEq] at hs
            subst hs
            have := hset { u with pc := .finished }
            simp [holdsSlot, hupc] at this
            refine ⟨⟨?_, ?_⟩, rfl⟩
            · simp only [inFlight]
              generalize (if s.pc = MainPc.spawn then 1 else 0) = k at h1 ⊢
              omega
            · show s.sem - 1 ≤ s.cap
              omega
          · cases hs
        | finished => simp [hupc] at hs
  | rendezvous i =>
    simp only [step, stepRendezvous] at hs
    split at hs
    · rename_i hc
      cases hu : s.units[i]? with
      | none => simp [hu] at hs
      | some u =>
        simp only [hu] at hs
        split at hs
        · rename_i hupc
          simp only [Option.some.injEq] at hs
          subst hs
          have := filter_set_length s.units i u { u with pc := .finished } hu
          simp [holdsSlot, hupc] at this
          simp only [inFlight, hc.2] at h1
          simp at h1
          refine ⟨⟨?_, h2⟩, rfl⟩
          simp only [inFlight]
          simp
          omega
        · cases hs
    · cases hs

theorem init_slots (T : TextLayer) (fuel : Nat) (cfg : Config) (s0 : RunState)
    (h0 : mainInit T fuel cfg = some s0) :
    (inFlight s0 = s0.sem ∧ s0.sem ≤ s0.cap) ∧ s0.cap ≤ cfg.threads.toNat := by
  unfold mainInit at h0
  split at h0
  · simp only [Option.some.injEq] at h0
    subst h0
    simp [inFlight, stopped]
  · split at h0
    · split at h0
      · cases h0
      · simp only [Option.some.injEq] at h0
        subst h0
        simp [inFlight, stopped]
      · split at h0
        · simp only [Option.some.injEq] at h0
          subst h0
          simp [inFlight, stopped]
        · simp only [Option.some.injEq] at h0
          subst h0
          simp [inFlight]
    · simp only [Option.some.injEq] at h0
      subst h0
      simp [inFlight, stopped]

/-- C10: in every state that a run of `main` with concurrency `C ≥ 1` can
reach, the number of units that have acquired a slot of the semaphore and not
yet released it is at most `C`; it equals the number of elements in the
channel. -/
theorem in_flight_bounded (T : TextLayer) (fuel : Nat) (cfg : Config) (s0 s : RunState)
    (h0 : mainInit T fuel cfg = some s0) (hC : 1 ≤ cfg.threads)
    (hr : Reachable cfg.searchPorts s0 s) :
    (inFlight s : Int) ≤ cfg.threads ∧ inFlight s = s.sem := by
  obtain ⟨acts, ha⟩ := hr
  have hP := reachable_induction cfg.searchPorts
    (fun x => (inFlight x = x.sem ∧ x.sem ≤ x.cap) ∧ x.cap ≤ cfg.threads.toNat)
    (fun x a x1 hx hstep => by
      obtain ⟨h1, h2⟩ := step_keeps_slots cfg.searchPorts x x1 a hx.1 hstep
      exact ⟨h1, by rw [h2]; exact hx.2⟩)
    acts s0 s (init_slots T fuel cfg s0 h0) ha
  obtain ⟨⟨h1, h2⟩, h3⟩ := hP
  refine ⟨?_, h1⟩
  have : inFlight s ≤ cfg.threads.toNat := by omega
  omega

/-- C10, witness: two addresses with concurrency 2; after both dispatches two
units are in flight. -/
theorem in_flight_bounded_witness :
    ∃ s0 s : RunState,
      mainInit dottedQuad 5
        { help := false, ipRange := "192.168.1.0/30".toList, searchPorts := [],
          threads := 2 } = some s0 ∧
      Reachable [] s0 s ∧ inFlight s = 2 ∧ ((inFlight s : Int) ≤ 2 ∧ inFlight s = s.sem) := by
  refine ⟨_, _, rfl, ⟨[.main, .main, .main, .main, .main, .main], rfl⟩, by decide, ?_⟩
  exact in_flight_bounded dottedQuad 5
    { help := false, ipRange := "192.168.1.0/30".toList, searchPorts := [], threads := 2 }
    _ _ rfl (by decide) ⟨[.main, .main, .main, .main, .main, .main], rfl⟩

/-! ### C7: the capacity of the semaphore -/

/-- With capacity 0 and no goroutine, `main` gets to its first send and stays
there: no goroutine is ever started. -/
theorem blocked_without_capacity (sp : GoString) (s0 s : RunState) (hcap : s0.cap = 0)
    (hunits : s0.units = []) (hlook : s0.lookups = 0) (hpend : s0.pending ≠ [])
    (hpc : s0.pc = .add) (hr : Reachable sp s0 s) :
    s.units = [] ∧ s.lookups = 0 ∧ (s.pc = .add ∨ s.pc = .acquire) := by
  obtain ⟨acts, ha⟩ := hr
  have hP := reachable_induction sp
    (fun x => x.cap = 0 ∧ x.units = [] ∧ x.lookups = 0 ∧ x.pending ≠ [] ∧
      (x.pc = .add ∨ x.pc = .acquire))
    (fun x a x1 hx hstep => by
      obtain ⟨c1, c2, c3, c4, c5⟩ := hx
      cases a with
      | main =>
        simp only [step, stepMain] at hstep
        rcases c5 with c5 | c5
        · rw [c5] at hstep
          cases hp : x.pending with
          | nil => exact absurd hp c4
          | cons ip rest =>
            simp only [hp, Option.some.injEq] at hstep
            subst hstep
            simp_all
        · rw [c5] at hstep
          simp [c1] at hstep
      | unit i outcome =>
        simp [step, stepUnit, c2] at hstep
      | rendezvous i =>
        simp [step, stepRendezvous, c2] at hstep)
    acts s0 s ⟨hcap, hunits, hlook, hpend, Or.inl hpc⟩ ha
  exact ⟨hP.2.1, hP.2.2.1, hP.2.2.2.2⟩

theorem init_scan (T : TextLayer) (fuel : Nat) (cfg : Config) (result : List GoString)
    (hh : cfg.help = false) (hne : cfg.ipRange ≠ [])
    (hv : validateAndGetIPs T fuel cfg.ipRange = some (some result)) :
    mainInit T fuel cfg =
      if cfg.threads < 0 then some (stopped .panicked [])
      else some { pc := .add, pending := result, units := [], sem := 0,
                  cap := cfg.threads.toNat, wg := 0, stdout := [], lookups := 0 } := by
  simp [mainInit, hh, hne, hv]

/-- C7, counterexample: with `-t 0` the semaphore gets capacity 0, not
`max(1, 0) = 1`, and the run over the one address `192.0.2.5` never starts a
goroutine or a lookup. -/
theorem zero_threads_not_normalized :
    ∃ s0 : RunState,
      mainInit dottedQuad 0
        { help := false, ipRange := "192.0.2.5".toList, searchPorts := [], threads := 0 } =
          some s0 ∧
      s0.pending = ["192.0.2.5".toList] ∧ s0.cap = 0 ∧ (s0.cap : Int) ≠ max 1 0 ∧
      ∀ s, Reachable [] s0 s → s.units = [] ∧ s.lookups = 0 := by
  refine ⟨_, rfl, by decide, by decide, by decide, ?_⟩
  intro s hr
  have := blocked_without_capacity [] _ s (by decide) (by decide) (by decide) (by decide)
    (by decide) hr
  exact ⟨this.1, this.2.1⟩

/-- C7, amended: the concurrency value is not normalised.  For a value of at
least 1 the semaphore has that capacity, which is `max(1, threads)`, and a run
over a non-empty address sequence can start its first goroutine; for 0 the
capacity is 0 and no goroutine is ever started; for a negative value the
creation of the channel panics. -/
theorem pool_capacity_is_threads (T : TextLayer) (fuel : Nat) (cfg : Config)
    (result : List GoString) (hh : cfg.help = false) (hne : cfg.ipRange ≠ [])
    (hv : validateAndGetIPs T fuel cfg.ipRange = some (some result)) (hres : result ≠ []) :
    (1 ≤ cfg.threads → ∃ s0, mainInit T fuel cfg = some s0 ∧
      (s0.cap : Int) = cfg.threads ∧ (s0.cap : Int) = max 1 cfg.threads ∧
      ∃ s, Reachable cfg.searchPorts s0 s ∧ s.units.length = 1) ∧
    (cfg.threads = 0 → ∃ s0, mainInit T fuel cfg = some s0 ∧ s0.cap = 0 ∧
      ∀ s, Reachable cfg.searchPorts s0 s → s.units = [] ∧ s.lookups = 0) ∧
    (cfg.threads < 0 → mainInit T fuel cfg = some (stopped .panicked [])) := by
  have hinit := init_scan T fuel cfg result hh hne hv
  refine ⟨?_, ?_, ?_⟩
  · intro h1
    rw [if_neg (by omega)] at hinit
    refine ⟨_, hinit, ?_, ?_, ?_⟩
    · simp only
      omega
    · simp only
      omega
    · cases result with
      | nil => exact absurd rfl hres
      | cons ip rest =>
        have hcap : 0 < cfg.threads.toNat := by omega
        refine ⟨(⟨.add, rest, [⟨ip, .started⟩], 1, cfg.threads.toNat, 1, [], 0⟩ : RunState),
          ⟨[.main, .main, .main], ?_⟩, rfl⟩
        simp [runActions, step, stepMain, hcap]
  · intro h0
    rw [if_neg (by omega)] at hinit
    refine ⟨_, hinit, by simp [h0], ?_⟩
    intro s hr
    have := blocked_without_capacity cfg.searchPorts _ s (by simp [h0]) rfl rfl hres rfl hr
    exact ⟨this.1, this.2.1⟩
  · intro hneg
    rw [if_pos hneg] at hinit
    exact hinit

/-- C7, witness: `-t 2` on the address `192.0.2.5`. -/
theorem pool_capacity_is_threads_witness :
    ∃ s0, mainInit dottedQuad 0
        { help := false, ipRange := "192.0.2.5".toList, searchPorts := [], threads := 2 } =
          some s0 ∧
      (s0.cap : Int) = 2 ∧ (s0.cap : Int) = max 1 2 ∧
      ∃ s, Reachable [] s0 s ∧ s.units.length = 1 :=
  (pool_capacity_is_threads dottedQuad 0
    { help := false, ipRange := "192.0.2.5".toList, searchPorts := [], threads := 2 }
    ["192.0.2.5".toList] rfl (by decide) (by decide) (by decide)).1 (by decide)

/-! ## Claims on `inc` -/

/-- The carry of `inc`: the bytes 255 at the end become 0, the byte before
them grows by one, the bytes above are kept. -/
theorem inc_carry (pre : IP) (b k : Nat) (hb : b < 255) :
    inc (pre ++ b :: List.replicate k 255) = pre ++ (b + 1) :: List.replicate k 0 := by
  induction k with
  | zero =>
    simp only [List.replicate_zero]
    rw [inc_snoc, if_pos (by omega), Nat.mod_eq_of_lt (by omega)]
  | succ k ih =>
    rw [List.replicate_succ' k 255, List.replicate_succ' k 0, ← List.cons_append,
      ← List.append_assoc, inc_snoc, if_neg (by decide), ih]
    simp

theorem inc_all_ff (n : Nat) : inc (List.replicate n 255) = List.replicate n 0 := by
  induction n with
  | zero => rfl
  | succ n ih =>
    rw [List.replicate_succ' n 255, List.replicate_succ' n 0, inc_snoc, if_neg (by decide), ih]

/-- C13: on a byte sequence of any length `n`, `inc` keeps the length, yields
bytes, and turns the big-endian value `v` into `(v + 1) mod 256 ^ n`; the
least-significant byte is incremented, every byte that overflows to 0 carries
into the next more significant byte, and the bytes above the first byte that
does not overflow are unchanged. -/
theorem inc_adds_one (ip : IP) (h : IsBytes ip) :
    (inc ip).length = ip.length ∧ IsBytes (inc ip) ∧
    beValue (inc ip) = (beValue ip + 1) % 256 ^ ip.length ∧
    (∀ (pre : IP) (b k : Nat), ip = pre ++ b :: List.replicate k 255 → b < 255 →
      inc ip = pre ++ (b + 1) :: List.replicate k 0) ∧
    (ip = List.replicate ip.length 255 → inc ip = List.replicate ip.length 0) := by
  refine ⟨inc_length ip, inc_isBytes ip h, beValue_inc ip h, ?_, ?_⟩
  · intro pre b k e hb
    rw [e]
    exact inc_carry pre b k hb
  · intro e
    rw [e, inc_all_ff]
    simp

/-- C13, witness: `192.168.1.255` becomes `192.168.2.0`, and the sixteen
bytes 255 become sixteen bytes 0. -/
theorem inc_adds_one_witness :
    inc [192, 168, 1, 255] = [192, 168, 2, 0] ∧
    beValue (inc [192, 168, 1, 255]) = (beValue [192, 168, 1, 255] + 1) % 256 ^ 4 ∧
    inc (List.replicate 16 255) = List.replicate 16 0 := by
  have h4 := inc_adds_one [192, 168, 1, 255] (by simp [IsBytes])
  have h16 := inc_adds_one (List.replicate 16 255) (by simp [IsBytes])
  exact ⟨h4.2.2.2.1 [192, 168] 1 1 rfl (by decide), h4.2.2.1, h16.2.2.2.2 rfl⟩

/-! ## Claims on the dependence of the expansion on the written address -/

theorem networkValue_lt (a : NetipAddr) (p : Nat) : networkValue a p < 2 ^ a.BitLen :=
  lt_of_le_of_lt (Nat.div_mul_le_self _ _) (value_lt a)

/-- The network built by `ParseCIDR` and the start of the loop depend on the
address only through the address family and the network address. -/
theorem parsedNet_of_network (a1 a2 : NetipAddr) (p : Nat) (hk : a1.BitLen = a2.BitLen)
    (hp : p ≤ a1.BitLen) (hv : networkValue a1 p = networkValue a2 p) :
    parsedNet a1 p = parsedNet a2 p ∧
    Mask a1.As16 (parsedNet a1 p).Mask = Mask a2.As16 (parsedNet a2 p).Mask := by
  simp only [parsedNet]
  cases a1 with
  | v4 w1 =>
    cases a2 with
    | v4 w2 =>
      simp only [NetipAddr.BitLen] at hp ⊢
      rw [mask_as16_v4 w1 p hp, mask_as16_v4 w2 p hp, hv]
      exact ⟨rfl, rfl⟩
    | v6 w2 z2 => simp [NetipAddr.BitLen] at hk
  | v6 w1 z1 =>
    cases a2 with
    | v4 w2 => simp [NetipAddr.BitLen] at hk
    | v6 w2 z2 =>
      simp only [NetipAddr.BitLen] at hp ⊢
      rw [mask_as16_v6 w1 p z1 hp, mask_as16_v6 w2 p z2 hp, hv]
      exact ⟨rfl, rfl⟩

theorem networkValue_of_aligned (a1 a2 : NetipAddr) (p : Nat) (hk : a1.BitLen = a2.BitLen)
    (hp : p ≤ a1.BitLen) (hv : a2.value = networkValue a1 p) :
    networkValue a1 p = networkValue a2 p := by
  obtain ⟨_, h2, _, _, _⟩ := block_arith a1.BitLen (hostBits a1 p) a1.value
    (by simp only [hostBits]; omega) (value_lt a1)
  have hh : hostBits a2 p = hostBits a1 p := by simp only [hostBits, hk]
  simp only [networkValue, hh, hv]
  rw [h2]

/-- Two valid CIDR inputs of the same family and prefix length whose addresses
have the same network value give the same outcome, for every fuel. -/
theorem outcome_of_network_only (T : TextLayer) (input aligned : GoString)
    (a1 a2 : NetipAddr) (p fuel : Nat) (h1 : parseCIDRParts T input = some (a1, p))
    (h2 : parseCIDRParts T aligned = some (a2, p)) (hk : a1.BitLen = a2.BitLen)
    (hv : a2.value = networkValue a1 p) :
    validateAndGetIPs T fuel input = validateAndGetIPs T fuel aligned := by
  have hp := (parseCIDRParts_some T input a1 p h1).2
  have hn := networkValue_of_aligned a1 a2 p hk hp hv
  obtain ⟨e1, e2⟩ := parsedNet_of_network a1 a2 p hk hp hn
  rw [validate_of_parts T fuel input a1 p h1, validate_of_parts T fuel aligned a2 p h2, e2, e1]

/-! ## Claims on the termination of the expansion loop -/

theorem iterate_inc_length (k : Nat) (ip : IP) : (Nat.iterate inc k ip).length = ip.length := by
  induction k generalizing ip with
  | zero => rfl
  | succ k ih =>
    rw [Function.iterate_succ_apply, ih, inc_length]

/-- C14, at the failing input `0.0.0.0/0`: the loop starts at `0.0.0.0`, every
address that any number of increments reaches is inside the network, and the
loop does not end for any fuel, so `validateAndGetIPs` does not terminate. -/
theorem v4_zero_loop_never_leaves :
    parseCIDRParts dottedQuad "0.0.0.0/0".toList = some (.v4 0, 0) ∧
    Mask (NetipAddr.As16 (.v4 0)) (parsedNet (.v4 0) 0).Mask = [0, 0, 0, 0] ∧
    (∀ k : Nat, Contains (parsedNet (.v4 0) 0) (Nat.iterate inc k [0, 0, 0, 0]) = true) ∧
    (∀ fuel : Nat, expandLoop dottedQuad (parsedNet (.v4 0) 0) fuel [0, 0, 0, 0] [] = none) := by
  refine ⟨by decide, by decide, ?_, ?_⟩
  · intro k
    exact contains_all_v4_zero 0 _ (by rw [iterate_inc_length]; rfl)
  · intro fuel
    exact expandLoop_diverges dottedQuad (parsedNet (.v4 0) 0) 4 (contains_all_v4_zero 0) fuel
      _ [] rfl

/-- The loop over an IPv6 block that straddles the IPv4-mapped range ends at
the first IPv4-mapped address. -/
theorem loop_of_straddle (T : TextLayer) (a : NetipAddr) (p fuel : Nat) (hp : p ≤ a.BitLen)
    (hs : straddlesMapped a p) (hf : mappedBase - networkValue a p < fuel) :
    expandLoop T (parsedNet a p) fuel (Mask a.As16 (parsedNet a p).Mask) [] =
      some (renderRange T 16 (networkValue a p) (mappedBase - networkValue a p)) := by
  cases a with
  | v4 w => simp [straddlesMapped] at hs
  | v6 w z =>
    simp only [NetipAddr.BitLen] at hp
    simp only [straddlesMapped, hostBits, NetipAddr.BitLen] at hs
    obtain ⟨hp96, hq⟩ := hs
    have hx : w % 2 ^ 128 < 2 ^ 128 := Nat.mod_lt _ (by norm_num)
    have hN : networkValue (.v6 w z) p < 2 ^ 128 := networkValue_lt (.v6 w z) p
    obtain ⟨_, h2, _, _, _⟩ := block_arith 128 (128 - p) (w % 2 ^ 128) (by omega) hx
    have hal : networkValue (.v6 w z) p =
        networkValue (.v6 w z) p / 2 ^ (128 - p) * 2 ^ (128 - p) := by
      simp only [networkValue, hostBits, NetipAddr.BitLen, NetipAddr.value]
      rw [h2]
    simp only [parsedNet, NetipAddr.BitLen]
    rw [mask_as16_v6 w p z hp, cidrMask_128 p hp]
    generalize hNdef : networkValue (.v6 w z) p = N at hN hal hq hf ⊢
    have hNM : N ≤ mappedBase := by
      rw [hal, ← hq]
      exact Nat.div_mul_le_self _ _
    have hNnm : ¬ N / 2 ^ 32 = 65535 := by
      intro hm
      have := aligned_mapped_le N (128 - p) hal hm
      omega
    have hM : mappedBase < 2 ^ 128 := by decide
    apply expandLoop_block T _ 16 (mappedBase - N) N fuel
    · intro j hj
      have hv : N + j < 2 ^ 128 := by omega
      rw [contains_v6 N p (N + j) hp hN hv hal]
      refine ⟨?_, ?_⟩
      · apply le_antisymm
        · rw [← hq]
          exact Nat.div_le_div_right (by omega)
        · exact Nat.div_le_div_right (by omega)
      · intro hm
        exfalso
        have : N + j < 65535 * 2 ^ 32 := by
          simp only [mappedBase] at hj hNM
          omega
        have := Nat.div_lt_of_lt_mul (by rw [Nat.mul_comm]; exact this : N + j < 2 ^ 32 * 65535)
        omega
    · have : N + (mappedBase - N) = mappedBase := by omega
      rw [this]
      have h256 : (256 : Nat) ^ 16 = 2 ^ 128 := by norm_num
      omega
    · have e : N + (mappedBase - N) = mappedBase := by omega
      rw [e]
      cases hc : Contains { IP := beBytes 16 N, Mask := cidrMaskBytes 16 p }
          (beBytes 16 mappedBase) with
      | false => rfl
      | true =>
        have := (contains_v6 N p mappedBase hp hN hM hal).1 hc
        exact absurd (this.2 (by decide)) hNnm
    · exact hf

/-- With enough fuel the expansion loop of a valid CIDR input that is not an
IPv4 block with prefix length 0 comes to its end. -/
theorem loop_returns (T : TextLayer) (input : GoString) (a : NetipAddr) (p : Nat)
    (h : parseCIDRParts T input = some (a, p)) (hnot : ¬ (a.BitLen = 32 ∧ p = 0)) :
    ∃ fuel0 : Nat, ∀ fuel, fuel0 ≤ fuel →
      ∃ l : List GoString, validateAndGetIPs T fuel input = some (some l) := by
  have hp := (parseCIDRParts_some T input a p h).2
  by_cases hs : straddlesMapped a p
  · refine ⟨mappedBase - networkValue a p + 1, fun fuel hf => ?_⟩
    have hl := loop_of_straddle T a p fuel hp hs (by omega)
    rw [validate_of_loop T fuel input a p _ h hl]
    split
    · exact ⟨_, rfl⟩
    · exact ⟨_, rfl⟩
  · have hp1 : 1 ≤ p := by
      by_contra hc
      have hp0 : p = 0 := by omega
      subst hp0
      cases a with
      | v4 w => exact hnot ⟨rfl, rfl⟩
      | v6 w z =>
        apply hs
        simp only [straddlesMapped, hostBits, NetipAddr.BitLen, networkValue, NetipAddr.value]
        refine ⟨by omega, ?_⟩
        have hx : w % 2 ^ 128 < 2 ^ 128 := Nat.mod_lt _ (by norm_num)
        rw [Nat.div_eq_of_lt hx]
        decide
    refine ⟨2 ^ hostBits a p + 1, fun fuel hf => ?_⟩
    rw [validate_block T input a p fuel h hp1 hs (by omega)]
    split
    · exact ⟨_, rfl⟩
    · exact ⟨_, rfl⟩

/-- Every valid CIDR input other than an IPv4 block with prefix length 0 makes
the expansion loop end: with enough fuel `validateAndGetIPs` returns a
sequence. -/
theorem expansion_terminates (T : TextLayer) (input : GoString) (a : NetipAddr) (p : Nat)
    (h : parseCIDRParts T input = some (a, p)) (hnot : ¬ (a.BitLen = 32 ∧ p = 0)) :
    ∃ fuel0 : Nat, ∀ fuel, fuel0 ≤ fuel →
      ∃ l : List GoString, validateAndGetIPs T fuel input = some (some l) :=
  loop_returns T input a p h hnot

/-- Witness of the termination: `192.168.1.77/29`. -/
theorem expansion_terminates_witness :
    ∃ fuel0 : Nat, ∀ fuel, fuel0 ≤ fuel →
      ∃ l : List GoString,
        validateAndGetIPs dottedQuad fuel "192.168.1.77/29".toList = some (some l) :=
  expansion_terminates dottedQuad "192.168.1.77/29".toList (.v4 3232235853) 29 (by decide)
    (by decide)

/-! ## Claims on the host bits of the written address -/

/-- C16, at the failing input `1.2.3.4/0`: the text is a valid CIDR block whose
address part has host bits set (the address is not the network address
`0.0.0.0`), the aligned block of the same prefix length is `0.0.0.0/0`, and
`validateAndGetIPs` returns no sequence for either, whatever the fuel: the
expansion loop does not end. -/
theorem host_bits_v4_zero_no_sequence :
    isValidCIDR dottedQuad "1.2.3.4/0".toList = true ∧
    parseCIDRParts dottedQuad "1.2.3.4/0".toList = some (.v4 16909060, 0) ∧
    NetipAddr.value (.v4 16909060) ≠ networkValue (.v4 16909060) 0 ∧
    parseCIDRParts dottedQuad "0.0.0.0/0".toList = some (.v4 0, 0) ∧
    NetipAddr.value (.v4 0) = networkValue (.v4 16909060) 0 ∧
    (∀ fuel, validateAndGetIPs dottedQuad fuel "1.2.3.4/0".toList = none) ∧
    (∀ fuel, validateAndGetIPs dottedQuad fuel "0.0.0.0/0".toList = none) ∧
    ¬ ∃ fuel l, validateAndGetIPs dottedQuad fuel "1.2.3.4/0".toList = some (some l) := by
  have h1 : parseCIDRParts dottedQuad "1.2.3.4/0".toList = some (.v4 16909060, 0) := by decide
  have h0 : parseCIDRParts dottedQuad "0.0.0.0/0".toList = some (.v4 0, 0) := by decide
  refine ⟨by decide, h1, by decide, h0, by decide,
    fun fuel => v4_zero_never_returns dottedQuad _ 16909060 h1 fuel,
    fun fuel => v4_zero_never_returns dottedQuad _ 0 h0 fuel, ?_⟩
  rintro ⟨fuel, l, hl⟩
  rw [v4_zero_never_returns dottedQuad _ 16909060 h1 fuel] at hl
  cases hl

/-- Every valid CIDR input other than an IPv4 block with prefix length 0
returns, with enough fuel, a sequence, and the aligned block of the same family
and prefix length returns the same sequence; for every fuel the two outcomes
are equal.  The expansion depends only on the masked network address and the
prefix length. -/
theorem host_bits_ignored (T : TextLayer) (input aligned : GoString) (a1 a2 : NetipAddr)
    (p : Nat) (h1 : parseCIDRParts T input = some (a1, p))
    (h2 : parseCIDRParts T aligned = some (a2, p)) (hk : a1.BitLen = a2.BitLen)
    (hv : a2.value = networkValue a1 p) (hnot : ¬ (a1.BitLen = 32 ∧ p = 0)) :
    (∃ fuel0 : Nat, ∀ fuel, fuel0 ≤ fuel →
      ∃ l : List GoString, validateAndGetIPs T fuel input = some (some l) ∧
        validateAndGetIPs T fuel aligned = some (some l)) ∧
    ∀ fuel, validateAndGetIPs T fuel input = validateAndGetIPs T fuel aligned := by
  have heq := fun fuel => outcome_of_network_only T input aligned a1 a2 p fuel h1 h2 hk hv
  refine ⟨?_, heq⟩
  obtain ⟨fuel0, hf⟩ := loop_returns T input a1 p h1 hnot
  refine ⟨fuel0, fun fuel hge => ?_⟩
  obtain ⟨l, hl⟩ := hf fuel hge
  exact ⟨l, hl, by rw [← heq fuel]; exact hl⟩

/-- Witness: `192.168.1.77/29` and `192.168.1.72/29` return the same sequence,
the six addresses from `192.168.1.73` to `192.168.1.78`. -/
theorem host_bits_ignored_witness :
    (∃ fuel0 : Nat, ∀ fuel, fuel0 ≤ fuel →
      ∃ l : List GoString,
        validateAndGetIPs dottedQuad fuel "192.168.1.77/29".toList = some (some l) ∧
        validateAndGetIPs dottedQuad fuel "192.168.1.72/29".toList = some (some l)) ∧
    validateAndGetIPs dottedQuad 10 "192.168.1.77/29".toList =
      some (some ["192.168.1.73".toList, "192.168.1.74".toList, "192.168.1.75".toList,
        "192.168.1.76".toList, "192.168.1.77".toList, "192.168.1.78".toList]) ∧
    validateAndGetIPs dottedQuad 10 "192.168.1.72/29".toList =
      validateAndGetIPs dottedQuad 10 "192.168.1.77/29".toList :=
  ⟨(host_bits_ignored dottedQuad "192.168.1.77/29".toList "192.168.1.72/29".toList
      (.v4 3232235853) (.v4 3232235848) 29 (by decide) (by decide) rfl (by decide)
      (by decide)).1, by decide, by decide⟩

/-! ## Claims on filtering by a response's own ports -/

theorem digitChar_spec : ∀ k < 10, isDigit (digitChar k) = true ∧ digitVal (digitChar k) = k := by
  decide

theorem decValue_snoc (ds : GoString) (d : Char) :
    decValue (ds ++ [d]) = decValue ds * 10 + digitVal d := by
  simp [decValue, List.foldl_append]

/-- The digits produced for `n` are digits, there is at least one, and their
decimal value is `n`. -/
theorem natDigits_spec (f : Nat) : ∀ (n : Nat) (acc : List Char), n < f →
    ∃ ds : List Char, natDigits f n acc = ds ++ acc ∧ ds ≠ [] ∧
      (∀ d ∈ ds, isDigit d = true) ∧ decValue ds = n := by
  induction f with
  | zero =>
    intro n acc h
    omega
  | succ f ih =>
    intro n acc h
    have hd := digitChar_spec (n % 10) (Nat.mod_lt _ (by norm_num))
    simp only [natDigits]
    split
    · rename_i h0
      refine ⟨[digitChar (n % 10)], rfl, by simp, ?_, ?_⟩
      · intro d hm
        simp only [List.mem_singleton] at hm
        rw [hm]; exact hd.1
      · have : decValue [digitChar (n % 10)] = digitVal (digitChar (n % 10)) := by
          simp [decValue]
        rw [this, hd.2]
        omega
    · rename_i h0
      obtain ⟨ds, e, _, hall, hval⟩ := ih (n / 10) (digitChar (n % 10) :: acc) (by omega)
      refine ⟨ds ++ [digitChar (n % 10)], by rw [e]; simp, by simp, ?_, ?_⟩
      · intro d hm
        rcases List.mem_append.1 hm with hm | hm
        · exact hall d hm
        · simp only [List.mem_singleton] at hm
          rw [hm]; exact hd.1
      · rw [decValue_snoc, hval, hd.2]
        omega

theorem fmtNat_spec (n : Nat) :
    fmtNat n ≠ [] ∧ (∀ d ∈ fmtNat n, isDigit d = true) ∧ decValue (fmtNat n) = n := by
  obtain ⟨ds, e, hne, hall, hval⟩ := natDigits_spec (n + 1) n [] (by omega)
  simp only [List.append_nil] at e
  simp only [fmtNat]
  rw [e]
  exact ⟨hne, hall, hval⟩

theorem digit_not_sign (c : Char) (h : isDigit c = true) : c ≠ '+' ∧ c ≠ '-' ∧ c ≠ ',' := by
  refine ⟨?_, ?_, ?_⟩ <;>
  · intro e
    subst e
    revert h
    decide

theorem unsignedPart_of_digits (s : GoString) (hne : s ≠ []) (h : ∀ d ∈ s, isDigit d = true) :
    unsignedPart s = s ∧ s.head? ≠ some '-' := by
  cases s with
  | nil => exact absurd rfl hne
  | cons c cs =>
    have hc := digit_not_sign c (h c (by simp))
    simp only [unsignedPart, List.head?_cons, Option.some.injEq]
    refine ⟨?_, ?_⟩
    · rw [if_neg]
      rintro (e | e)
      · exact hc.1 e
      · exact hc.2.1 e
    · exact fun e => hc.2.1 (Option.some.inj e)

/-- `Atoi` reads back the decimal rendering of every 64-bit integer. -/
theorem atoi_fmtInt (p : Int) (hlo : -(2 ^ 63) ≤ p) (hhi : p < 2 ^ 63) :
    Atoi (fmtInt p) = (p, none) := by
  cases p with
  | ofNat n =>
    obtain ⟨hne, hall, hval⟩ := fmtNat_spec n
    obtain ⟨hu, hh⟩ := unsignedPart_of_digits (fmtNat n) hne hall
    have hn : n < 2 ^ 63 := by
      have : (n : Int) < 2 ^ 63 := hhi
      omega
    simp only [fmtInt]
    rw [atoi_digits (fmtNat n) (by rw [hu]; exact hne) (by rw [hu]; exact hall), hu, hval]
    rw [if_neg (by omega), if_neg (fun x => hh x.1), if_neg hh]
  | negSucc n =>
    obtain ⟨hne, hall, hval⟩ := fmtNat_spec (n + 1)
    have hu : unsignedPart ('-' :: fmtNat (n + 1)) = fmtNat (n + 1) := by
      simp [unsignedPart]
    have hh : ('-' :: fmtNat (n + 1)).head? = some '-' := rfl
    have hn : n + 1 ≤ 2 ^ 63 := by
      have : -(2 ^ 63 : Int) ≤ -((n : Int) + 1) := by
        rw [← Int.negSucc_eq]; exact hlo
      omega
    simp only [fmtInt]
    rw [atoi_digits _ (by rw [hu]; exact hne) (by rw [hu]; exact hall), hu, hval]
    rw [if_neg (fun x => x.1 hh), if_neg (by omega), if_pos hh]
    rfl


/-- A character of a decimal rendering: a digit or the minus sign. -/
theorem fmtInt_chars (p : Int) :
    fmtInt p ≠ [] ∧ ∀ c ∈ fmtInt p, isDigit c = true ∨ c = '-' := by
  cases p with
  | ofNat n =>
    obtain ⟨hne, hall, _⟩ := fmtNat_spec n
    exact ⟨hne, fun c hc => Or.inl (hall c hc)⟩
  | negSucc n =>
    obtain ⟨_, hall, _⟩ := fmtNat_spec (n + 1)
    refine ⟨by simp [fmtInt], ?_⟩
    intro c hc
    simp only [fmtInt, List.mem_cons] at hc
    rcases hc with e | hm
    · exact Or.inr e
    · exact Or.inl (hall c hm)

theorem digit_not_space (c : Char) (h : isDigit c = true) : isSpace c = false := by
  simp only [isDigit, Bool.and_eq_true, decide_eq_true_eq] at h
  obtain ⟨h1, h2⟩ := h
  have h2' : c.toNat ≤ '9'.toNat := h2
  have h1' : '0'.toNat ≤ c.toNat := h1
  have e0 : '0'.toNat = 48 := by decide
  have e9 : '9'.toNat = 57 := by decide
  simp only [isSpace, Bool.or_eq_false_iff, Bool.and_eq_false_iff, beq_eq_false_iff_ne,
    decide_eq_false_iff_not]
  omega

theorem trimSpace_of_no_space (s : GoString) (h : ∀ c ∈ s, isSpace c = false) :
    TrimSpace s = s := by
  have hd : ∀ l : GoString, (∀ c ∈ l, isSpace c = false) → l.dropWhile isSpace = l := by
    intro l hl
    cases l with
    | nil => rfl
    | cons x xs =>
      have := hl x (by simp)
      simp [List.dropWhile, this]
  simp only [TrimSpace]
  rw [hd s h, hd s.reverse (fun c hc => h c (List.mem_reverse.1 hc)), List.reverse_reverse]

theorem splitLoop_append (sep : Char) (l rest cur : GoString) (h : ∀ c ∈ l, c ≠ sep) :
    splitLoop sep (l ++ rest) cur = splitLoop sep rest (cur ++ l) := by
  induction l generalizing cur with
  | nil => simp
  | cons x xs ih =>
    have hx : x ≠ sep := h x (by simp)
    rw [List.cons_append]
    simp only [splitLoop]
    rw [if_neg hx, ih _ (fun c hc => h c (by simp [hc]))]
    simp

/-- Splitting the join of pieces that do not hold the separator gives the pieces back. -/
theorem split_join (sep : Char) (l : List GoString) (hne : l ≠ [])
    (h : ∀ x ∈ l, ∀ c ∈ x, c ≠ sep) : Split (Join l [sep]) sep = l := by
  induction l with
  | nil => exact absurd rfl hne
  | cons a rest ih =>
    cases rest with
    | nil =>
      simp only [Join, Split]
      have := splitLoop_append sep a [] [] (h a (by simp))
      simp only [List.append_nil, List.nil_append] at this
      rw [this]
      rfl
    | cons b rest2 =>
      have iht := ih (by simp) (fun x hx => h x (by simp [hx]))
      simp only [Join, Split, List.append_assoc, List.singleton_append]
      rw [splitLoop_append sep a _ [] (h a (by simp))]
      simp only [List.nil_append, splitLoop, if_true]
      rw [show splitLoop sep (Join (b :: rest2) [sep]) [] = Split (Join (b :: rest2) [sep]) sep
        from rfl, iht]

theorem processResponse_empty (response : ShodanResponse) :
    processResponse response [] =
      response.Ports.map (fun port => sprintfSD response.IP port) := by
  unfold processResponse
  rw [if_neg (by simp), foldl_append_map]
  simp

theorem join_ne_nil (l : List GoString) (sep : GoString) (a : GoString) (rest : List GoString)
    (e : l = a :: rest) (ha : a ≠ []) : Join l sep ≠ [] := by
  subst e
  cases rest with
  | nil => simpa [Join] using ha
  | cons b r => simp [Join, ha]

/-- C17: for a response whose ports are 64-bit integers, the filter made of
the decimal renderings of its own ports, comma-separated and in order, gives
the same lines as no filter; `parseInt` reads every rendering back, and for an
empty port list the filter is the empty string. -/
theorem own_ports_filter_agrees (response : ShodanResponse)
    (hrange : ∀ p ∈ response.Ports, -(2 ^ 63) ≤ p ∧ p < 2 ^ 63) :
    processResponse response (ownFilter response.Ports) = processResponse response [] ∧
    (∀ p ∈ response.Ports, parseInt (fmtInt p) = p) ∧
    (response.Ports = [] → ownFilter response.Ports = []) := by
  have hparse : ∀ p ∈ response.Ports, parseInt (fmtInt p) = p := by
    intro p hp
    simp only [parseInt]
    rw [atoi_fmtInt p (hrange p hp).1 (hrange p hp).2]
  refine ⟨?_, hparse, fun e => by rw [e]; rfl⟩
  cases hports : response.Ports with
  | nil => rfl
  | cons q qs =>
    have hne : ownFilter (q :: qs) ≠ [] :=
      join_ne_nil _ _ (fmtInt q) (qs.map fmtInt) (by simp) (fmtInt_chars q).1
    have hsplit : Split (ownFilter (q :: qs)) ',' = (q :: qs).map fmtInt := by
      apply split_join ',' _ (by simp)
      intro x hx c hc
      obtain ⟨p, _, rfl⟩ := List.mem_map.1 hx
      rcases (fmtInt_chars p).2 c hc with hd | hm
      · exact (digit_not_sign c hd).2.2
      · rw [hm]; decide
    have htrim : ((q :: qs).map fmtInt).map TrimSpace = (q :: qs).map fmtInt := by
      rw [List.map_map]
      apply List.map_congr_left
      intro p _
      apply trimSpace_of_no_space
      intro c hc
      rcases (fmtInt_chars p).2 c hc with hd | hm
      · exact digit_not_space c hd
      · rw [hm]; decide
    rw [processResponse_filter response _ hne, hsplit, htrim, processResponse_empty, hports]
    have hkeep : ((q :: qs).map fmtInt).filter
        (fun tok => contains response.Ports (parseInt tok)) = (q :: qs).map fmtInt := by
      rw [List.filter_eq_self]
      intro tok ht
      obtain ⟨p, hp, rfl⟩ := List.mem_map.1 ht
      have hp' : p ∈ response.Ports := by rw [hports]; exact hp
      rw [hparse p hp']
      exact (contains_iff _ _).2 hp'
    rw [hports] at hkeep
    rw [hkeep, List.map_map]
    rfl

/-- C17, witness: the ports `[22, 80, 443]` and the filter `22,80,443`. -/
theorem own_ports_filter_agrees_witness :
    ownFilter [22, 80, 443] = "22,80,443".toList ∧
    processResponse { Hostnames := [], IP := "192.0.2.5".toList, Ports := [22, 80, 443] }
        "22,80,443".toList =
      processResponse { Hostnames := [], IP := "192.0.2.5".toList, Ports := [22, 80, 443] } [] :=
  ⟨by decide,
   (own_ports_filter_agrees
      { Hostnames := [], IP := "192.0.2.5".toList, Ports := [22, 80, 443] }
      (by decide)).1⟩

/-! ## Claims on the output of a unit -/

theorem println_join (result : List GoString) (hne : result ≠ []) :
    println (Join result [newline]) = Join (result ++ [[]]) [newline] := by
  induction result with
  | nil => exact absurd rfl hne
  | cons a rest ih =>
    cases rest with
    | nil => simp [Join, println]
    | cons b rest2 =>
      have := ih (by simp)
      simp only [println] at this
      simp only [Join, println, List.cons_append, List.append_assoc]
      rw [this]
      simp

theorem lineFeeds_join (l : List GoString) (hne : l ≠ []) (h : ∀ x ∈ l, newline ∉ x) :
    lineFeeds (Join l [newline]) + 1 = l.length := by
  induction l with
  | nil => exact absurd rfl hne
  | cons a rest ih =>
    have ha : List.count newline a = 0 := List.count_eq_zero.2 (h a (by simp))
    cases rest with
    | nil => simp [Join, lineFeeds, ha]
    | cons b rest2 =>
      have := ih (by simp) (fun x hx => h x (by simp [hx]))
      simp only [lineFeeds] at this
      simp only [Join, lineFeeds, List.count_append, List.length_cons, ha]
      simp only [List.length_cons] at this
      simp
      omega

/-- The text written for a non-empty list of match lines without line feeds
splits into exactly these lines, and has as many line feeds as there are lines. -/
theorem written_lines (result : List GoString) (hne : result ≠ [])
    (h : ∀ l ∈ result, newline ∉ l) :
    Split (println (Join result [newline])) newline = result ++ [[]] ∧
    lineFeeds (println (Join result [newline])) = result.length := by
  have hall : ∀ x ∈ result ++ [[]], newline ∉ x := by
    intro x hx
    rcases List.mem_append.1 hx with hm | hm
    · exact h x hm
    · simp only [List.mem_singleton] at hm
      rw [hm]; simp
  rw [println_join result hne]
  refine ⟨?_, ?_⟩
  · apply split_join newline _ (by simp)
    intro x hx c hc e
    exact hall x hx (e ▸ hc)
  · have := lineFeeds_join (result ++ [[]]) (by simp) hall
    simp only [List.length_append, List.length_singleton] at this
    omega

theorem step_unit_fetched (sp : GoString) (s : RunState) (i : Nat) (u : UnitState)
    (r outcome : Lookup) (hpc : s.pc ≠ .exited ∧ s.pc ≠ .panicked) (hu : s.units[i]? = some u)
    (hf : u.pc = .fetched r) :
    step sp s (.unit i outcome) =
      some { s with units := s.units.set i { u with pc := .reported },
                    stdout := report sp s.stdout r } := by
  simp [step, stepUnit, hpc.1, hpc.2, hu, hf]

/-- The steps of a unit other than the report leave standard output as it is. -/
theorem step_unit_silent (sp : GoString) (s s1 : RunState) (i : Nat) (u : UnitState)
    (outcome : Lookup) (hu : s.units[i]? = some u) (hf : ∀ r, u.pc ≠ .fetched r)
    (hs : step sp s (.unit i outcome) = some s1) : s1.stdout = s.stdout := by
  simp only [step, stepUnit] at hs
  split at hs
  · cases hs
  · simp only [hu] at hs
    cases hupc : u.pc with
    | started =>
      simp only [hupc, Option.some.injEq] at hs
      rw [← hs]
    | fetched r => exact absurd hupc (hf r)
    | reported =>
      simp only [hupc, Option.some.injEq] at hs
      rw [← hs]
    | doneCalled =>
      simp only [hupc] at hs
      split at hs
      · simp only [Option.some.injEq] at hs
        rw [← hs]
      · cases hs
    | finished => simp [hupc] at hs

/-- C15, counterexample: a response whose `ip` holds a line feed has one match
with the empty filter, and the unit writes a text of two lines for it. -/
theorem match_with_line_feed_takes_two_lines :
    processResponse { Hostnames := [], IP := ['a', newline, 'b'], Ports := [80] } [] =
      [['a', newline, 'b', ':', '8', '0']] ∧
    report [] [] (.ok { Hostnames := [], IP := ['a', newline, 'b'], Ports := [80] }) =
      [['a', newline, 'b', ':', '8', '0', newline]] ∧
    lineFeeds ['a', newline, 'b', ':', '8', '0', newline] = 2 ∧
    lineFeeds ['a', newline, 'b', ':', '8', '0', newline] ≠
      (processResponse { Hostnames := [], IP := ['a', newline, 'b'], Ports := [80] } []).length := by
  decide

/-- C15, amended: the report of a unit whose lookup succeeded appends to
standard output one text, the match lines of `processResponse` joined by line
feeds and ended by one, and nothing at all when there is no match; when no
match line holds a line feed, the text splits into exactly the match lines, in
order, and its number of lines is the number of matches.  The other steps of
a unit write nothing. -/
theorem unit_writes_matches (sp : GoString) (s : RunState) (i : Nat) (u : UnitState)
    (r : ShodanResponse) (outcome : Lookup) (hpc : s.pc ≠ .exited ∧ s.pc ≠ .panicked)
    (hu : s.units[i]? = some u) (hf : u.pc = .fetched (.ok r)) :
    ∃ s1, step sp s (.unit i outcome) = some s1 ∧
      (processResponse r sp = [] → s1.stdout = s.stdout) ∧
      (processResponse r sp ≠ [] →
        s1.stdout = s.stdout ++ [println (Join (processResponse r sp) [newline])] ∧
        ((∀ l ∈ processResponse r sp, newline ∉ l) →
          Split (println (Join (processResponse r sp) [newline])) newline =
            processResponse r sp ++ [[]] ∧
          lineFeeds (println (Join (processResponse r sp) [newline])) =
            (processResponse r sp).length)) ∧
      (∀ (t t1 : RunState) (j : Nat) (v : UnitState) (o : Lookup),
        t.units[j]? = some v → (∀ x, v.pc ≠ .fetched x) →
        step sp t (.unit j o) = some t1 → t1.stdout = t.stdout) := by
  refine ⟨_, step_unit_fetched sp s i u (.ok r) outcome hpc hu hf, ?_, ?_, ?_⟩
  · intro he
    simp [report, he]
  · intro hne
    have hlen : (processResponse r sp).length > 0 := List.length_pos.2 hne
    refine ⟨by simp [report, hlen], fun hnl => written_lines _ hne hnl⟩
  · intro t t1 j v o hv hx hs
    exact step_unit_silent sp t t1 j v o hv hx hs

/-- C15, witness: a unit that has fetched ports `[22, 80]` for `192.0.2.5`
under the filter `80`. -/
theorem unit_writes_matches_witness :
    ∃ s1, step "80".toList
        { pc := .wait, pending := [],
          units := [⟨"192.0.2.5".toList,
            .fetched (.ok { Hostnames := [], IP := "192.0.2.5".toList, Ports := [22, 80] })⟩],
          sem := 1, cap := 1, wg := 1, stdout := [], lookups := 1 }
        (.unit 0 (.error [])) = some s1 ∧
      s1.stdout = [println "192.0.2.5:80".toList] := by
  obtain ⟨s1, h1, _, h3, _⟩ := unit_writes_matches "80".toList
    { pc := .wait, pending := [],
      units := [⟨"192.0.2.5".toList,
        .fetched (.ok { Hostnames := [], IP := "192.0.2.5".toList, Ports := [22, 80] })⟩],
      sem := 1, cap := 1, wg := 1, stdout := [], lookups := 1 }
    0 _ { Hostnames := [], IP := "192.0.2.5".toList, Ports := [22, 80] } (.error [])
    (by decide) rfl rfl
  refine ⟨s1, h1, ?_⟩
  have := (h3 (by decide)).1
  rw [this]
  decide

/-! ## Claims on the join barrier -/

/-- C11, at the failing run: one address, concurrency 1.  The goroutine is
dispatched, makes its lookup, reports, calls `wg.Done()` and is then
suspended before its receive on the semaphore; `main` leaves the loop,
`wg.Wait()` returns and `main` returns.  In that state the lookup is complete,
but the unit has not released its slot: the channel still holds one element,
and no further step is possible because the program is over. -/
theorem wait_returns_before_release :
    ∃ s0 s : RunState,
      mainInit dottedQuad 0
        { help := false, ipRange := "192.0.2.5".toList, searchPorts := [], threads := 1 } =
          some s0 ∧
      runActions [] s0
        [.main, .main, .main,
         .unit 0 (.ok { Hostnames := [], IP := "192.0.2.5".toList, Ports := [80] }),
         .unit 0 (.error []), .unit 0 (.error []), .main, .main] = some s ∧
      s.pc = .exited ∧ s.wg = 0 ∧ s.lookups = 1 ∧
      s.units = [⟨"192.0.2.5".toList, .doneCalled⟩] ∧ s.sem = 1 ∧ inFlight s = 1 ∧
      ∀ a : Action, step [] s a = none := by
  refine ⟨_, _, rfl, rfl, rfl, rfl, rfl, rfl, rfl, rfl, ?_⟩
  intro a
  exact no_step_when_stopped [] _ a (Or.inl rfl)

/-! ## The steps of a run, case by case -/

theorem step_main_some (s s1 : RunState) (h : stepMain s = some s1) :
    (s.pc = .add ∧ s.pending = [] ∧ s1 = { s with pc := .wait }) ∨
    (s.pc = .add ∧ s.pending ≠ [] ∧ s1 = { s with pc := .acquire, wg := s.wg + 1 }) ∨
    (s.pc = .acquire ∧ s.sem < s.cap ∧ s1 = { s with pc := .spawn, sem := s.sem + 1 }) ∨
    (∃ ip rest, s.pc = .spawn ∧ s.pending = ip :: rest ∧
      s1 = { s with pc := .add, pending := rest,
                    units := s.units ++ [{ ip := ip, pc := .started }] }) ∨
    (s.pc = .wait ∧ s.wg = 0 ∧ s1 = { s with pc := .exited }) := by
  simp only [stepMain] at h
  cases hpc : s.pc with
  | add =>
    rw [hpc] at h
    cases hpend : s.pending with
    | nil =>
      simp only [hpend, Option.some.injEq] at h
      exact Or.inl ⟨rfl, rfl, h.symm⟩
    | cons ip rest =>
      simp only [hpend, Option.some.injEq] at h
      exact Or.inr (Or.inl ⟨rfl, by simp, h.symm⟩)
  | acquire =>
    rw [hpc] at h
    simp only at h
    split at h
    · rename_i hlt
      simp only [Option.some.injEq] at h
      exact Or.inr (Or.inr (Or.inl ⟨rfl, hlt, h.symm⟩))
    · cases h
  | spawn =>
    rw [hpc] at h
    cases hpend : s.pending with
    | nil => simp [hpend] at h
    | cons ip rest =>
      simp only [hpend, Option.some.injEq] at h
      exact Or.inr (Or.inr (Or.inr (Or.inl ⟨ip, rest, rfl, rfl, h.symm⟩)))
  | wait =>
    rw [hpc] at h
    simp only at h
    split at h
    · rename_i h0
      simp only [Option.some.injEq] at h
      exact Or.inr (Or.inr (Or.inr (Or.inr ⟨rfl, h0, h.symm⟩)))
    · cases h
  | exited => simp [hpc] at h
  | panicked => simp [hpc] at h

theorem step_unit_some (sp : GoString) (s s1 : RunState) (i : Nat) (x : Lookup)
    (h : stepUnit sp s i x = some s1) :
    (s.pc ≠ .exited ∧ s.pc ≠ .panicked) ∧ ∃ u, s.units[i]? = some u ∧
      ((u.pc = .started ∧
          s1 = { s with units := s.units.set i { u with pc := .fetched x },
                        lookups := s.lookups + 1 }) ∨
       (∃ r, u.pc = .fetched r ∧
          s1 = { s with units := s.units.set i { u with pc := .reported },
                        stdout := report sp s.stdout r }) ∨
       (u.pc = .reported ∧
          s1 = { s with units := s.units.set i { u with pc := .doneCalled },
                        wg := s.wg - 1 }) ∨
       (u.pc = .doneCalled ∧ 0 < s.sem ∧
          s1 = { s with units := s.units.set i { u with pc := .finished },
                        sem := s.sem - 1 })) := by
  simp only [stepUnit] at h
  split at h
  · cases h
  · rename_i hpc
    simp only [not_or] at hpc
    refine ⟨hpc, ?_⟩
    cases hu : s.units[i]? with
    | none => simp [hu] at h
    | some u =>
      simp only [hu] at h
      refine ⟨u, rfl, ?_⟩
      cases hupc : u.pc with
      | started =>
        simp only [hupc, Option.some.injEq] at h
        exact Or.inl ⟨rfl, h.symm⟩
      | fetched r =>
        simp only [hupc, Option.some.injEq] at h
        exact Or.inr (Or.inl ⟨r, rfl, h.symm⟩)
      | reported =>
        simp only [hupc, Option.some.injEq] at h
        exact Or.inr (Or.inr (Or.inl ⟨rfl, h.symm⟩))
      | doneCalled =>
        simp only [hupc] at h
        split at h
        · rename_i hpos
          simp only [Option.some.injEq] at h
          exact Or.inr (Or.inr (Or.inr ⟨rfl, hpos, h.symm⟩))
        · cases h
      | finished => simp [hupc] at h

theorem step_rendezvous_some (s s1 : RunState) (i : Nat) (h : stepRendezvous s i = some s1) :
    s.cap = 0 ∧ s.pc = .acquire ∧ ∃ u, s.units[i]? = some u ∧ u.pc = .doneCalled ∧
      s1 = { s with pc := .spawn, units := s.units.set i { u with pc := .finished } } := by
  simp only [stepRendezvous] at h
  split at h
  · rename_i hc
    cases hu : s.units[i]? with
    | none => simp [hu] at h
    | some u =>
      simp only [hu] at h
      split at h
      · rename_i hupc
        simp only [Option.some.injEq] at h
        exact ⟨hc.1, hc.2, u, rfl, hupc, h.symm⟩
      · cases h
  · cases h

/-! ## Standard output as the text of the events -/

theorem report_eq (sp : GoString) (out : List GoString) (i : Nat) (r : Lookup) :
    report sp out r = out ++ (eventOf sp i r).toList.map renderEvent := by
  cases r with
  | ok response =>
    simp only [report, eventOf]
    split <;> simp [renderEvent]
  | error msg => simp [report, eventOf, renderEvent]

theorem step_stdout (sp : GoString) (s s1 : RunState) (a : Action)
    (h : step sp s a = some s1) :
    s1.stdout = s.stdout ++ (stepEvent sp s a).toList.map renderEvent := by
  cases a with
  | main =>
    rcases step_main_some s s1 h with ⟨_, _, e⟩ | ⟨_, _, e⟩ | ⟨_, _, e⟩ | ⟨ip, rest, _, _, e⟩ |
      ⟨_, _, e⟩ <;> subst e <;> simp [stepEvent]
  | unit i x =>
    obtain ⟨_, u, hu, hcase⟩ := step_unit_some sp s s1 i x h
    rcases hcase with ⟨hp, e⟩ | ⟨r, hp, e⟩ | ⟨hp, e⟩ | ⟨hp, _, e⟩
    · subst e; simp [stepEvent, hu, hp]
    · subst e
      simp only [stepEvent, hu, hp]
      exact report_eq sp s.stdout i r
    · subst e; simp [stepEvent, hu, hp]
    · subst e; simp [stepEvent, hu, hp]
  | rendezvous i =>
    obtain ⟨_, _, u, _, _, e⟩ := step_rendezvous_some s s1 i h
    subst e
    simp [stepEvent]

/-- Standard output grows by the texts of the events of the run, in their order. -/
theorem stdout_events (sp : GoString) (acts : List Action) :
    ∀ (s s1 : RunState), runActions sp s acts = some s1 →
      s1.stdout = s.stdout ++ (runEvents sp s acts).map renderEvent := by
  induction acts with
  | nil =>
    intro s s1 h
    simp only [runActions, Option.some.injEq] at h
    simp [runEvents, h]
  | cons a rest ih =>
    intro s s1 h
    simp only [runActions] at h
    cases hs : step sp s a with
    | none => simp [hs] at h
    | some s2 =>
      rw [hs] at h
      simp only [runEvents, hs]
      rw [ih s2 s1 h, step_stdout sp s s2 a hs]
      simp

/-! ## Two runs of one schedule -/

theorem control_eq_iff (s1 s2 : RunState) :
    control s1 = control s2 ↔
      s1.pc = s2.pc ∧ s1.pending = s2.pending ∧
      s1.units.map eraseUnit = s2.units.map eraseUnit ∧ s1.sem = s2.sem ∧ s1.cap = s2.cap ∧
      s1.wg = s2.wg ∧ s1.lookups = s2.lookups := by
  cases s1
  cases s2
  simp [control]

theorem erase_lookup (us1 us2 : List UnitState) (k : Nat)
    (h : us1.map eraseUnit = us2.map eraseUnit) :
    (us1[k]? = none ∧ us2[k]? = none) ∨
    ∃ u1 u2, us1[k]? = some u1 ∧ us2[k]? = some u2 ∧ u1.ip = u2.ip ∧
      erasePc u1.pc = erasePc u2.pc := by
  have hk := congrArg (fun l => l[k]?) h
  simp only [List.getElem?_map] at hk
  cases h1 : us1[k]? with
  | none =>
    cases h2 : us2[k]? with
    | none => exact Or.inl ⟨rfl, rfl⟩
    | some u2 => simp [h1, h2] at hk
  | some u1 =>
    cases h2 : us2[k]? with
    | none => simp [h1, h2] at hk
    | some u2 =>
      simp only [h1, h2, Option.map_some', Option.some.injEq, eraseUnit,
        UnitState.mk.injEq] at hk
      exact Or.inr ⟨u1, u2, rfl, rfl, hk.1, hk.2⟩

theorem erasePc_eq (p q : UnitPc) (h : erasePc p = erasePc q) :
    (p = q ∧ ∀ r, p ≠ .fetched r) ∨ ∃ r1 r2, p = .fetched r1 ∧ q = .fetched r2 := by
  cases p <;> cases q <;> simp_all [erasePc]

theorem map_erase_set (us : List UnitState) (k : Nat) (v : UnitState) :
    (us.set k v).map eraseUnit = (us.map eraseUnit).set k (eraseUnit v) := by
  simp

theorem lookup_set_other (i k j : Nat) (us1 us2 : List UnitState) (v1 v2 : UnitState)
    (hoth : ∀ j, j ≠ i → us1[j]? = us2[j]?) (hj : j ≠ i)
    (hv : k ≠ i → v1 = v2) :
    (us1.set k v1)[j]? = (us2.set k v2)[j]? := by
  by_cases hkj : k = j
  · subst hkj
    rw [hv hj, List.getElem?_set_self', List.getElem?_set_self', hoth k hj]
  · rw [List.getElem?_set_ne hkj, List.getElem?_set_ne hkj]
    exact hoth j hj

theorem unitLines_nil (j : Nat) : unitLines [] j = [] := rfl

theorem unitLines_append (e1 e2 : List Event) (j : Nat) :
    unitLines (e1 ++ e2) j = unitLines e1 j ++ unitLines e2 j := by
  simp [unitLines]

theorem eventOf_lines_ne (sp : GoString) (k j : Nat) (r : Lookup) (h : k ≠ j) :
    unitLines (eventOf sp k r).toList j = [] := by
  cases r with
  | ok response =>
    simp only [eventOf]
    split <;> simp [unitLines, eventLines, h]
  | error msg => simp [eventOf, unitLines, eventLines]

theorem eventOf_lines_self (sp : GoString) (k : Nat) (r : Lookup) :
    unitLines (eventOf sp k r).toList k = matchLines sp r := by
  cases r with
  | ok response =>
    simp only [eventOf, matchLines]
    split
    · simp [unitLines, eventLines]
    · rename_i h
      have : processResponse response sp = [] := by
        cases hp : processResponse response sp with
        | nil => rfl
        | cons a l => simp [hp] at h
      simp [unitLines, this]
  | error msg => simp [eventOf, unitLines, eventLines, matchLines]

theorem sim_main (i : Nat) (s1 s2 : RunState) (hR : SameButUnit i s1 s2) :
    (stepMain s1 = none ∧ stepMain s2 = none) ∨
    ∃ t1 t2, stepMain s1 = some t1 ∧ stepMain s2 = some t2 ∧ SameButUnit i t1 t2 := by
  obtain ⟨hc, hoth⟩ := hR
  obtain ⟨hpc, hpend, hmap, hsem, hcap, hwg, hlook⟩ := (control_eq_iff s1 s2).1 hc
  have hlen : s1.units.length = s2.units.length := by
    have := congrArg List.length hmap
    simpa using this
  cases h1 : stepMain s1 with
  | none =>
    left
    refine ⟨rfl, ?_⟩
    simp only [stepMain] at h1 ⊢
    rw [← hpc, ← hpend, ← hsem, ← hcap, ← hwg]
    cases hp : s1.pc with
    | add => rw [hp] at h1; cases hq : s1.pending <;> simp [hq] at h1
    | acquire => rw [hp] at h1; simpa using h1
    | spawn => rw [hp] at h1; cases hq : s1.pending <;> simp [hq] at h1 ⊢
    | wait => rw [hp] at h1; simpa using h1
    | exited => rfl
    | panicked => rfl
  | some t1 =>
    right
    rcases step_main_some s1 t1 h1 with ⟨hp, hq, e⟩ | ⟨hp, hq, e⟩ | ⟨hp, hq, e⟩ |
      ⟨ip, rest, hp, hq, e⟩ | ⟨hp, hq, e⟩
    · refine ⟨t1, { s2 with pc := .wait }, rfl, ?_, ?_⟩
      · simp [stepMain, ← hpc, hp, ← hpend, hq]
      · subst e
        exact ⟨(control_eq_iff _ _).2 ⟨rfl, hpend, hmap, hsem, hcap, hwg, hlook⟩, hoth⟩
    · refine ⟨t1, { s2 with pc := .acquire, wg := s2.wg + 1 }, rfl, ?_, ?_⟩
      · cases hq2 : s1.pending with
        | nil => exact absurd hq2 hq
        | cons a b => simp [stepMain, ← hpc, hp, ← hpend, hq2]
      · subst e
        exact ⟨(control_eq_iff _ _).2 ⟨rfl, hpend, hmap, hsem, hcap, by simp [hwg], hlook⟩,
          hoth⟩
    · refine ⟨t1, { s2 with pc := .spawn, sem := s2.sem + 1 }, rfl, ?_, ?_⟩
      · simp [stepMain, ← hpc, hp, ← hsem, ← hcap, hq]
      · subst e
        exact ⟨(control_eq_iff _ _).2 ⟨rfl, hpend, hmap, by simp [hsem], hcap, hwg, hlook⟩,
          hoth⟩
    · refine ⟨t1, { s2 with pc := .add, pending := rest,
                             units := s2.units ++ [⟨ip, .started⟩] }, rfl, ?_, ?_⟩
      · simp [stepMain, ← hpc, hp, ← hpend, hq]
      · subst e
        refine ⟨(control_eq_iff _ _).2 ⟨rfl, rfl, by simp [hmap], hsem, hcap, hwg, hlook⟩, ?_⟩
        intro j hj
        simp only
        by_cases hlt : j < s1.units.length
        · rw [List.getElem?_append_left hlt, List.getElem?_append_left (by omega)]
          exact hoth j hj
        · rw [List.getElem?_append_right (by omega), List.getElem?_append_right (by omega),
            hlen]
    · refine ⟨t1, { s2 with pc := .exited }, rfl, ?_, ?_⟩
      · simp [stepMain, ← hpc, hp, ← hwg, hq]
      · subst e
        exact ⟨(control_eq_iff _ _).2 ⟨rfl, hpend, hmap, hsem, hcap, hwg, hlook⟩, hoth⟩

theorem stepUnit_started (sp : GoString) (s : RunState) (k : Nat) (x : Lookup) (u : UnitState)
    (hstop : ¬ (s.pc = .exited ∨ s.pc = .panicked)) (hu : s.units[k]? = some u)
    (hp : u.pc = .started) :
    stepUnit sp s k x =
      some { s with units := s.units.set k { u with pc := .fetched x },
                    lookups := s.lookups + 1 } := by
  simp [stepUnit, hstop, hu, hp]

theorem stepUnit_fetched (sp : GoString) (s : RunState) (k : Nat) (x r : Lookup) (u : UnitState)
    (hstop : ¬ (s.pc = .exited ∨ s.pc = .panicked)) (hu : s.units[k]? = some u)
    (hp : u.pc = .fetched r) :
    stepUnit sp s k x =
      some { s with units := s.units.set k { u with pc := .reported },
                    stdout := report sp s.stdout r } := by
  simp [stepUnit, hstop, hu, hp]

theorem stepUnit_reported (sp : GoString) (s : RunState) (k : Nat) (x : Lookup) (u : UnitState)
    (hstop : ¬ (s.pc = .exited ∨ s.pc = .panicked)) (hu : s.units[k]? = some u)
    (hp : u.pc = .reported) :
    stepUnit sp s k x =
      some { s with units := s.units.set k { u with pc := .doneCalled }, wg := s.wg - 1 } := by
  simp [stepUnit, hstop, hu, hp]

theorem stepUnit_doneCalled (sp : GoString) (s : RunState) (k : Nat) (x : Lookup)
    (u : UnitState) (hstop : ¬ (s.pc = .exited ∨ s.pc = .panicked))
    (hu : s.units[k]? = some u) (hp : u.pc = .doneCalled) (hpos : s.sem > 0) :
    stepUnit sp s k x =
      some { s with units := s.units.set k { u with pc := .finished }, sem := s.sem - 1 } := by
  simp [stepUnit, hstop, hu, hp, hpos]

theorem stepRendezvous_ok (s : RunState) (k : Nat) (u : UnitState)
    (hg : s.cap = 0 ∧ s.pc = .acquire) (hu : s.units[k]? = some u) (hp : u.pc = .doneCalled) :
    stepRendezvous s k =
      some { s with pc := .spawn, units := s.units.set k { u with pc := .finished } } := by
  simp [stepRendezvous, hg, hu, hp]

theorem sim_unit (sp : GoString) (i k : Nat) (x1 x2 : Lookup) (s1 s2 : RunState)
    (hR : SameButUnit i s1 s2) (hx : k ≠ i → x1 = x2) :
    (stepUnit sp s1 k x1 = none ∧ stepUnit sp s2 k x2 = none) ∨
    ∃ t1 t2, stepUnit sp s1 k x1 = some t1 ∧ stepUnit sp s2 k x2 = some t2 ∧
      SameButUnit i t1 t2 ∧
      ∀ j, j ≠ i → unitLines (stepEvent sp s1 (.unit k x1)).toList j =
        unitLines (stepEvent sp s2 (.unit k x2)).toList j := by
  obtain ⟨hc, hoth⟩ := hR
  obtain ⟨hpc, hpend, hmap, hsem, hcap, hwg, hlook⟩ := (control_eq_iff s1 s2).1 hc
  by_cases hstop : s1.pc = .exited ∨ s1.pc = .panicked
  · left
    have hstop2 : s2.pc = .exited ∨ s2.pc = .panicked := by rw [← hpc]; exact hstop
    exact ⟨by simp [stepUnit, hstop], by simp [stepUnit, hstop2]⟩
  have hstop2 : ¬ (s2.pc = .exited ∨ s2.pc = .panicked) := by rw [← hpc]; exact hstop
  rcases erase_lookup s1.units s2.units k hmap with ⟨h1, h2⟩ | ⟨u1, u2, h1, h2, hip, hpcs⟩
  · left
    exact ⟨by simp [stepUnit, hstop, h1], by simp [stepUnit, hstop2, h2]⟩
  have hsame : k ≠ i → u1 = u2 := by
    intro hk
    have := hoth k hk
    rw [h1, h2] at this
    exact Option.some.inj this
  have hctl : ∀ (p : UnitPc) (t1 t2 : RunState),
      t1.pc = s1.pc → t2.pc = s2.pc → t1.pending = s1.pending → t2.pending = s2.pending →
      t1.units = s1.units.set k { u1 with pc := p } →
      t2.units = s2.units.set k { u2 with pc := p } →
      t1.sem = t2.sem → t1.cap = s1.cap → t2.cap = s2.cap → t1.wg = t2.wg →
      t1.lookups = t2.lookups → (∀ r, p ≠ .fetched r) → SameButUnit i t1 t2 := by
    intro p t1 t2 a1 a2 a3 a4 a5 a6 a7 a8 a9 a10 a11 hp
    refine ⟨(control_eq_iff t1 t2).2 ⟨by rw [a1, a2, hpc], by rw [a3, a4, hpend], ?_, a7,
      by rw [a8, a9, hcap], a10, a11⟩, ?_⟩
    · rw [a5, a6, map_erase_set, map_erase_set, hmap]
      simp [eraseUnit, hip]
    · intro j hj
      rw [a5, a6]
      exact lookup_set_other i k j _ _ _ _ hoth hj (fun hk => by rw [hsame hk])
  rcases erasePc_eq u1.pc u2.pc hpcs with ⟨hpq, hnf⟩ | ⟨r1, r2, hp1, hp2⟩
  · cases hp : u1.pc with
    | started =>
      have hp2 : u2.pc = .started := by rw [← hpq, hp]
      right
      refine ⟨_, _, stepUnit_started sp s1 k x1 u1 hstop h1 hp,
        stepUnit_started sp s2 k x2 u2 hstop2 h2 hp2, ?_, ?_⟩
      · refine ⟨(control_eq_iff _ _).2 ⟨hpc, hpend, ?_, hsem, hcap, hwg, by simp [hlook]⟩, ?_⟩
        · simp only
          rw [map_erase_set, map_erase_set, hmap]
          simp [eraseUnit, erasePc, hip]
        · intro j hj
          exact lookup_set_other i k j _ _ _ _ hoth hj
            (fun hk => by rw [hsame hk, hx hk])
      · intro j _
        simp [stepEvent, h1, h2, hp, hp2]
    | fetched r => exact absurd hp (hnf r)
    | reported =>
      have hp2 : u2.pc = .reported := by rw [← hpq, hp]
      right
      refine ⟨_, _, stepUnit_reported sp s1 k x1 u1 hstop h1 hp,
        stepUnit_reported sp s2 k x2 u2 hstop2 h2 hp2, ?_, ?_⟩
      · exact hctl .doneCalled _ _ rfl rfl rfl rfl rfl rfl hsem rfl rfl
          (by simp [hwg]) hlook (by simp)
      · intro j _
        simp [stepEvent, h1, h2, hp, hp2]
    | doneCalled =>
      have hp2 : u2.pc = .doneCalled := by rw [← hpq, hp]
      by_cases hpos : s1.sem > 0
      · right
        have hpos2 : s2.sem > 0 := by rw [← hsem]; exact hpos
        refine ⟨_, _, stepUnit_doneCalled sp s1 k x1 u1 hstop h1 hp hpos,
          stepUnit_doneCalled sp s2 k x2 u2 hstop2 h2 hp2 hpos2, ?_, ?_⟩
        · exact hctl .finished _ _ rfl rfl rfl rfl rfl rfl (by simp [hsem]) rfl rfl
            hwg hlook (by simp)
        · intro j _
          simp [stepEvent, h1, h2, hp, hp2]
      · left
        have hpos2 : ¬ s2.sem > 0 := by rw [← hsem]; exact hpos
        exact ⟨by simp [stepUnit, hstop, h1, hp, hpos],
          by simp [stepUnit, hstop2, h2, hp2, hpos2]⟩
    | finished =>
      have hp2 : u2.pc = .finished := by rw [← hpq, hp]
      left
      exact ⟨by simp [stepUnit, hstop, h1, hp], by simp [stepUnit, hstop2, h2, hp2]⟩
  · right
    refine ⟨_, _, stepUnit_fetched sp s1 k x1 r1 u1 hstop h1 hp1,
      stepUnit_fetched sp s2 k x2 r2 u2 hstop2 h2 hp2, ?_, ?_⟩
    · exact hctl .reported _ _ rfl rfl rfl rfl rfl rfl hsem rfl rfl hwg hlook (by simp)
    · intro j hj
      simp only [stepEvent, h1, h2, hp1, hp2]
      by_cases hk : k = i
      · rw [eventOf_lines_ne sp k j r1 (by omega), eventOf_lines_ne sp k j r2 (by omega)]
      · have := hsame hk
        rw [this, hp2] at hp1
        simp only [UnitPc.fetched.injEq] at hp1
        rw [hp1]

theorem sim_rendezvous (i k : Nat) (s1 s2 : RunState) (hR : SameButUnit i s1 s2) :
    (stepRendezvous s1 k = none ∧ stepRendezvous s2 k = none) ∨
    ∃ t1 t2, stepRendezvous s1 k = some t1 ∧ stepRendezvous s2 k = some t2 ∧
      SameButUnit i t1 t2 := by
  obtain ⟨hc, hoth⟩ := hR
  obtain ⟨hpc, hpend, hmap, hsem, hcap, hwg, hlook⟩ := (control_eq_iff s1 s2).1 hc
  by_cases hg : s1.cap = 0 ∧ s1.pc = .acquire
  · have hg2 : s2.cap = 0 ∧ s2.pc = .acquire := by rw [← hcap, ← hpc]; exact hg
    rcases erase_lookup s1.units s2.units k hmap with ⟨h1, h2⟩ | ⟨u1, u2, h1, h2, hip, hpcs⟩
    · left
      exact ⟨by simp [stepRendezvous, hg, h1], by simp [stepRendezvous, hg2, h2]⟩
    have hsame : k ≠ i → u1 = u2 := by
      intro hk
      have := hoth k hk
      rw [h1, h2] at this
      exact Option.some.inj this
    by_cases hd : u1.pc = .doneCalled
    · have hd2 : u2.pc = .doneCalled := by
        rcases erasePc_eq u1.pc u2.pc hpcs with ⟨hpq, _⟩ | ⟨r1, r2, hp1, _⟩
        · rw [← hpq, hd]
        · rw [hd] at hp1; cases hp1
      right
      refine ⟨_, _, stepRendezvous_ok s1 k u1 hg h1 hd, stepRendezvous_ok s2 k u2 hg2 h2 hd2,
        ?_, ?_⟩
      · refine (control_eq_iff _ _).2 ⟨rfl, hpend, ?_, hsem, hcap, hwg, hlook⟩
        simp only
        rw [map_erase_set, map_erase_set, hmap]
        simp [eraseUnit, hip]
      · intro j hj
        exact lookup_set_other i k j _ _ _ _ hoth hj (fun hk => by rw [hsame hk])
    · have hd2 : ¬ u2.pc = .doneCalled := by
        intro hd2
        apply hd
        rcases erasePc_eq u1.pc u2.pc hpcs with ⟨hpq, _⟩ | ⟨r1, r2, _, hp2⟩
        · rw [hpq, hd2]
        · rw [hd2] at hp2; cases hp2
      left
      exact ⟨by simp [stepRendezvous, hg, h1, hd], by simp [stepRendezvous, hg2, h2, hd2]⟩
  · have hg2 : ¬ (s2.cap = 0 ∧ s2.pc = .acquire) := by rw [← hcap, ← hpc]; exact hg
    left
    exact ⟨by simp only [stepRendezvous, if_neg hg], by simp only [stepRendezvous, if_neg hg2]⟩

/-- Two runs of one schedule under assignments that differ at most at unit
`i`: the same steps are possible, the control states stay equal, and every
other unit gets the same match lines. -/
theorem sim_run (sp : GoString) (i : Nat) (o1 o2 : Nat → Lookup)
    (hagree : ∀ j, j ≠ i → o1 j = o2 j) (sched : List Action) :
    ∀ s1 s2, SameButUnit i s1 s2 →
      (runActions sp s1 (schedule o1 sched)).map control =
        (runActions sp s2 (schedule o2 sched)).map control ∧
      ∀ j, j ≠ i → unitLines (runEvents sp s1 (schedule o1 sched)) j =
        unitLines (runEvents sp s2 (schedule o2 sched)) j := by
  induction sched with
  | nil =>
    intro s1 s2 hR
    exact ⟨by simp [schedule, runActions, hR.1], fun j _ => rfl⟩
  | cons c rest ih =>
    intro s1 s2 hR
    have key : ∀ a1 a2 : Action,
        ((step sp s1 a1 = none ∧ step sp s2 a2 = none) ∨
          ∃ t1 t2, step sp s1 a1 = some t1 ∧ step sp s2 a2 = some t2 ∧ SameButUnit i t1 t2 ∧
            ∀ j, j ≠ i → unitLines (stepEvent sp s1 a1).toList j =
              unitLines (stepEvent sp s2 a2).toList j) →
        (runActions sp s1 (a1 :: schedule o1 rest)).map control =
          (runActions sp s2 (a2 :: schedule o2 rest)).map control ∧
        ∀ j, j ≠ i → unitLines (runEvents sp s1 (a1 :: schedule o1 rest)) j =
          unitLines (runEvents sp s2 (a2 :: schedule o2 rest)) j := by
      intro a1 a2 hcase
      rcases hcase with ⟨e1, e2⟩ | ⟨t1, t2, e1, e2, hR2, hev⟩
      · simp [runActions, runEvents, e1, e2]
      · obtain ⟨ih1, ih2⟩ := ih t1 t2 hR2
        refine ⟨by simpa [runActions, e1, e2] using ih1, ?_⟩
        intro j hj
        simp only [runEvents, e1, e2]
        rw [unitLines_append, unitLines_append, hev j hj, ih2 j hj]
    cases c with
    | main =>
      apply key .main .main
      rcases sim_main i s1 s2 hR with h | ⟨t1, t2, e1, e2, hR2⟩
      · exact Or.inl h
      · exact Or.inr ⟨t1, t2, e1, e2, hR2, fun j _ => rfl⟩
    | unit k x =>
      apply key (.unit k (o1 k)) (.unit k (o2 k))
      exact sim_unit sp i k (o1 k) (o2 k) s1 s2 hR (fun hk => hagree k hk)
    | rendezvous k =>
      apply key (.rendezvous k) (.rendezvous k)
      rcases sim_rendezvous i k s1 s2 hR with h | ⟨t1, t2, e1, e2, hR2⟩
      · exact Or.inl h
      · exact Or.inr ⟨t1, t2, e1, e2, hR2, fun j _ => rfl⟩

theorem lookup_set_self (us : List UnitState) (k : Nat) (u v : UnitState)
    (hu : us[k]? = some u) : (us.set k v)[k]? = some v := by
  have hlt : k < us.length := by
    by_contra hc
    rw [List.getElem?_eq_none (by omega)] at hu
    cases hu
  exact List.getElem?_set_self hlt

/-- A step of a unit that changes the position of goroutine `k` to `p` and
adds the events `ev` of that goroutine keeps `OwnLines`. -/
theorem ownLines_update (sp : GoString) (o : Nat → Lookup) (s t : RunState)
    (evs ev : List Event) (k : Nat) (u : UnitState) (p : UnitPc)
    (h : OwnLines sp o s evs) (hu : s.units[k]? = some u)
    (ht : t.units = s.units.set k { u with pc := p })
    (hev : ∀ j, j ≠ k → unitLines ev j = [])
    (hf : ∀ r, p = .fetched r → r = o k)
    (hl : unitLines evs k ++ unitLines ev k =
      if pastReport p = true then matchLines sp (o k) else []) :
    OwnLines sp o t (evs ++ ev) := by
  intro j
  rw [ht, unitLines_append]
  by_cases hj : j = k
  · subst hj
    rw [lookup_set_self _ _ _ _ hu]
    refine ⟨?_, fun hn => by cases hn⟩
    intro v hv
    simp only [Option.some.injEq] at hv
    subst hv
    exact ⟨hf, hl⟩
  · rw [List.getElem?_set_ne (fun e => hj e.symm), hev j hj, List.append_nil]
    exact h j

theorem ownLines_step (sp : GoString) (o : Nat → Lookup) (s s1 : RunState) (evs : List Event)
    (c : Action) (h : OwnLines sp o s evs) (hs : step sp s (withOutcome o c) = some s1) :
    OwnLines sp o s1 (evs ++ (stepEvent sp s (withOutcome o c)).toList) := by
  cases c with
  | main =>
    have hev : (stepEvent sp s (withOutcome o .main)).toList = [] := rfl
    rw [hev, List.append_nil]
    rcases step_main_some s s1 hs with ⟨_, _, e⟩ | ⟨_, _, e⟩ | ⟨_, _, e⟩ | ⟨ip, rest, _, _, e⟩ |
      ⟨_, _, e⟩
    · subst e; exact h
    · subst e; exact h
    · subst e; exact h
    · subst e
      intro j
      simp only
      by_cases hlt : j < s.units.length
      · rw [List.getElem?_append_left hlt]
        exact h j
      · have hnone : s.units[j]? = none := List.getElem?_eq_none (by omega)
        have hl := (h j).2 hnone
        rw [List.getElem?_append_right (by omega)]
        refine ⟨?_, fun _ => hl⟩
        intro v hv
        have hj0 : j - s.units.length = 0 := by
          by_contra hc
          rw [List.getElem?_eq_none (by simp; omega)] at hv
          cases hv
        rw [hj0] at hv
        simp only [List.getElem?_cons_zero, Option.some.injEq] at hv
        subst hv
        exact ⟨fun r hr => (by cases hr), by simp [pastReport, hl]⟩
    · subst e; exact h
  | unit k x =>
    have hs2 : stepUnit sp s k (o k) = some s1 := hs
    obtain ⟨_, u, hu, hcase⟩ := step_unit_some sp s s1 k (o k) hs2
    have hk := (h k).1 u hu
    rcases hcase with ⟨hp, e⟩ | ⟨r, hp, e⟩ | ⟨hp, e⟩ | ⟨hp, _, e⟩
    · have hev : (stepEvent sp s (withOutcome o (.unit k x))).toList = [] := by
        simp [withOutcome, stepEvent, hu, hp]
      rw [hev]
      apply ownLines_update sp o s s1 evs [] k u (.fetched (o k)) h hu (by rw [e])
        (fun _ _ => rfl)
      · intro r hr
        simp only [UnitPc.fetched.injEq] at hr
        exact hr.symm
      · rw [hk.2, hp]
        simp [pastReport, unitLines_nil]
    · have hr : r = o k := hk.1 r hp
      have hev : (stepEvent sp s (withOutcome o (.unit k x))).toList =
          (eventOf sp k r).toList := by
        simp [withOutcome, stepEvent, hu, hp]
      rw [hev]
      apply ownLines_update sp o s s1 evs _ k u .reported h hu (by rw [e])
        (fun j hj => eventOf_lines_ne sp k j r (fun e2 => hj e2.symm))
      · intro r2 hr2
        cases hr2
      · rw [hk.2, hp, eventOf_lines_self, hr]
        simp [pastReport]
    · have hev : (stepEvent sp s (withOutcome o (.unit k x))).toList = [] := by
        simp [withOutcome, stepEvent, hu, hp]
      rw [hev]
      apply ownLines_update sp o s s1 evs [] k u .doneCalled h hu (by rw [e])
        (fun _ _ => rfl)
      · intro r2 hr2
        cases hr2
      · rw [hk.2, hp]
        simp [pastReport, unitLines_nil]
    · have hev : (stepEvent sp s (withOutcome o (.unit k x))).toList = [] := by
        simp [withOutcome, stepEvent, hu, hp]
      rw [hev]
      apply ownLines_update sp o s s1 evs [] k u .finished h hu (by rw [e])
        (fun _ _ => rfl)
      · intro r2 hr2
        cases hr2
      · rw [hk.2, hp]
        simp [pastReport, unitLines_nil]
  | rendezvous k =>
    have hev : (stepEvent sp s (withOutcome o (.rendezvous k))).toList = [] := rfl
    rw [hev]
    have hs2 : stepRendezvous s k = some s1 := hs
    obtain ⟨_, _, u, hu, hp, e⟩ := step_rendezvous_some s s1 k hs2
    have hk := (h k).1 u hu
    apply ownLines_update sp o s s1 evs [] k u .finished h hu (by rw [e]) (fun _ _ => rfl)
    · intro r2 hr2
      cases hr2
    · rw [hk.2, hp]
      simp [pastReport, unitLines_nil]

/-- In a run under the assignment `o`, every goroutine is given the match
lines of its own outcome, once it has made its report. -/
theorem ownLines_run (sp : GoString) (o : Nat → Lookup) (sched : List Action) :
    ∀ (s s1 : RunState) (evs : List Event), OwnLines sp o s evs →
      runActions sp s (schedule o sched) = some s1 →
      OwnLines sp o s1 (evs ++ runEvents sp s (schedule o sched)) := by
  induction sched with
  | nil =>
    intro s s1 evs h hr
    simp only [schedule, List.map_nil, runActions, Option.some.injEq] at hr
    subst hr
    simpa [schedule, runEvents] using h
  | cons c rest ih =>
    intro s s1 evs h hr
    simp only [schedule, List.map_cons, runActions] at hr
    cases hs : step sp s (withOutcome o c) with
    | none => simp [hs] at hr
    | some s2 =>
      rw [hs] at hr
      have h2 := ownLines_step sp o s s2 evs c h hs
      have := ih s2 s1 _ h2 hr
      simpa [schedule, runEvents, hs, List.append_assoc] using this

theorem ownLines_init (sp : GoString) (o : Nat → Lookup) (s : RunState) (h : s.units = []) :
    OwnLines sp o s [] := by
  intro j
  rw [h]
  simp [unitLines_nil]

/-! ## Claim on failure isolation -/

/-- C12: failure isolation.  Take any run of the coordinator from a state in
which no goroutine has been started, under a schedule `sched`, and two
assignments `o1`, `o2` of lookup outcomes to units that agree on every unit
but `i` (so the outcome of unit `i` may change from a response to an error or
back).  Then the same steps are possible in both runs and lead to the same
control state (positions of `main` and of every goroutine, counters, number of
lookups made): no other unit is kept from its lookup; the match lines written
for every other unit are the same in both runs; standard output is the texts
of the reports in order; a unit whose lookup failed has no match line, a unit
whose lookup succeeded has exactly the lines of `processResponse` of its own
response once it has made its report, and none before. -/
theorem failure_isolation (sp : GoString) (s0 : RunState) (sched : List Action)
    (o1 o2 : Nat → Lookup) (i : Nat) (h0 : s0.units = [])
    (hagree : ∀ j, j ≠ i → o1 j = o2 j) :
    (runActions sp s0 (schedule o1 sched)).map control =
      (runActions sp s0 (schedule o2 sched)).map control ∧
    (∀ j, j ≠ i → unitLines (runEvents sp s0 (schedule o1 sched)) j =
      unitLines (runEvents sp s0 (schedule o2 sched)) j) ∧
    (∀ s, runActions sp s0 (schedule o1 sched) = some s →
      s.stdout = s0.stdout ++ (runEvents sp s0 (schedule o1 sched)).map renderEvent ∧
      ∀ j u, s.units[j]? = some u →
        (∀ msg, o1 j = .error msg →
          unitLines (runEvents sp s0 (schedule o1 sched)) j = []) ∧
        (∀ r, o1 j = .ok r → pastReport u.pc = true →
          unitLines (runEvents sp s0 (schedule o1 sched)) j = processResponse r sp) ∧
        (pastReport u.pc = false →
          unitLines (runEvents sp s0 (schedule o1 sched)) j = [])) := by
  obtain ⟨hc, hl⟩ := sim_run sp i o1 o2 hagree sched s0 s0 ⟨rfl, fun _ _ => rfl⟩
  refine ⟨hc, hl, ?_⟩
  intro s hs
  have hown := ownLines_run sp o1 sched s0 s [] (ownLines_init sp o1 s0 h0) hs
  rw [List.nil_append] at hown
  refine ⟨stdout_events sp _ s0 s hs, ?_⟩
  intro j u hu
  have hj := ((hown j).1 u hu).2
  refine ⟨?_, ?_, ?_⟩
  · intro msg hm
    rw [hj, hm]
    simp [matchLines]
  · intro r hr hp
    rw [hj, hr, hp]
    simp [matchLines]
  · intro hp
    rw [hj, hp]
    simp

/-- C12, witness: two addresses, concurrency 2, no filter; the lookup of the
first unit fails in one run and succeeds in the other, the second unit writes
its line `192.0.2.5:80` in both. -/
theorem failure_isolation_witness :
    unitLines (runEvents []
        { pc := .add, pending := ["192.0.2.4".toList, "192.0.2.5".toList], units := [],
          sem := 0, cap := 2, wg := 0, stdout := [], lookups := 0 }
        (schedule (fun j => if j = 0 then Lookup.error "timeout".toList
            else .ok { Hostnames := [], IP := "192.0.2.5".toList, Ports := [80] })
          [.main, .main, .main, .main, .main, .main, .unit 0 (.error []), .unit 1 (.error []),
            .unit 0 (.error []), .unit 1 (.error [])])) 1 =
      unitLines (runEvents []
        { pc := .add, pending := ["192.0.2.4".toList, "192.0.2.5".toList], units := [],
          sem := 0, cap := 2, wg := 0, stdout := [], lookups := 0 }
        (schedule (fun j => if j = 0 then
              Lookup.ok { Hostnames := [], IP := "192.0.2.4".toList, Ports := [22] }
            else .ok { Hostnames := [], IP := "192.0.2.5".toList, Ports := [80] })
          [.main, .main, .main, .main, .main, .main, .unit 0 (.error []), .unit 1 (.error []),
            .unit 0 (.error []), .unit 1 (.error [])])) 1 ∧
    unitLines (runEvents []
        { pc := .add, pending := ["192.0.2.4".toList, "192.0.2.5".toList], units := [],
          sem := 0, cap := 2, wg := 0, stdout := [], lookups := 0 }
        (schedule (fun j => if j = 0 then Lookup.error "timeout".toList
            else .ok { Hostnames := [], IP := "192.0.2.5".toList, Ports := [80] })
          [.main, .main, .main, .main, .main, .main, .unit 0 (.error []), .unit 1 (.error []),
            .unit 0 (.error []), .unit 1 (.error [])])) 1 = ["192.0.2.5:80".toList] :=
  ⟨(failure_isolation []
      { pc := .add, pending := ["192.0.2.4".toList, "192.0.2.5".toList], units := [],
        sem := 0, cap := 2, wg := 0, stdout := [], lookups := 0 }
      [.main, .main, .main, .main, .main, .main, .unit 0 (.error []), .unit 1 (.error []),
        .unit 0 (.error []), .unit 1 (.error [])]
      (fun j => if j = 0 then Lookup.error "timeout".toList
        else .ok { Hostnames := [], IP := "192.0.2.5".toList, Ports := [80] })
      (fun j => if j = 0 then
          Lookup.ok { Hostnames := [], IP := "192.0.2.4".toList, Ports := [22] }
        else .ok { Hostnames := [], IP := "192.0.2.5".toList, Ports := [80] })
      0 rfl (fun j hj => by simp [hj])).2.1 1 (by decide), by decide⟩

/-! ## The join barrier -/

theorem filter_set_count (f : UnitState → Bool) (l : List UnitState) (i : Nat)
    (u v : UnitState) (h : l[i]? = some u) :
    ((l.set i v).filter f).length + (if f u = true then 1 else 0) =
      (l.filter f).length + (if f v = true then 1 else 0) := by
  induction l generalizing i with
  | nil => simp at h
  | cons x xs ih =>
    cases i with
    | zero =>
      simp only [List.getElem?_cons_zero, Option.some.injEq] at h
      subst h
      simp only [List.set_cons_zero, List.filter_cons]
      by_cases hx : f x = true <;> by_cases hv : f v = true <;> simp [hx, hv]
    | succ i =>
      simp only [List.getElem?_cons_succ] at h
      have := ih i h
      simp only [List.set_cons_succ, List.filter_cons]
      by_cases hx : f x = true
      · simp only [hx, if_true, List.length_cons]
        omega
      · simp only [hx, if_false]
        exact this

theorem map_ip_set (l : List UnitState) (i : Nat) (u : UnitState) (p : UnitPc)
    (h : l[i]? = some u) :
    (l.set i { u with pc := p }).map UnitState.ip = l.map UnitState.ip := by
  induction l generalizing i with
  | nil => simp
  | cons x xs ih =>
    cases i with
    | zero =>
      simp only [List.getElem?_cons_zero, Option.some.injEq] at h
      subst h
      simp
    | succ i =>
      simp only [List.getElem?_cons_succ] at h
      simp [ih i h]

/-- A change of the position of goroutine `k` keeps the barrier state when
the counters follow it. -/
theorem barrier_update (addrs : List GoString) (s t : RunState) (k : Nat) (u : UnitState)
    (p : UnitPc) (h : Barrier addrs s) (hu : s.units[k]? = some u)
    (hunits : t.units = s.units.set k { u with pc := p })
    (hpend : t.pending = s.pending) (hne : s.pc ≠ .exited)
    (hpc : t.pc = s.pc ∨ (s.pc = .acquire ∧ t.pc = .spawn))
    (hwg : t.wg + (if beforeDone u = true then 1 else 0) =
      s.wg + (if beforeDone { u with pc := p } = true then 1 else 0))
    (hlook : t.lookups + (if lookedUp u = true then 1 else 0) =
      s.lookups + (if lookedUp { u with pc := p } = true then 1 else 0)) :
    Barrier addrs t := by
  obtain ⟨h1, h2, h3, h4, _⟩ := h
  have hc1 := filter_set_count beforeDone s.units k u { u with pc := p } hu
  have hc2 := filter_set_count lookedUp s.units k u { u with pc := p } hu
  have hite : (if t.pc = .acquire ∨ t.pc = .spawn then (1 : Int) else 0) =
      (if s.pc = .acquire ∨ s.pc = .spawn then (1 : Int) else 0) := by
    rcases hpc with e | ⟨e1, e2⟩
    · rw [e]
    · simp [e1, e2]
  have hex : t.pc = .exited → s.pc = .exited := by
    rcases hpc with e | ⟨e1, e2⟩
    · rw [e]; exact id
    · rw [e2]; intro hx; cases hx
  have hwt : t.pc = .wait → s.pc = .wait := by
    rcases hpc with e | ⟨e1, e2⟩
    · rw [e]; exact id
    · rw [e2]; intro hx; cases hx
  refine ⟨?_, ?_, ?_, ?_, ?_⟩
  · rw [hunits, hpend, map_ip_set _ _ _ _ hu]
    exact h1
  · rw [hite, hunits]
    generalize (if s.pc = .acquire ∨ s.pc = .spawn then (1 : Int) else 0) = c at h2
    by_cases hb1 : beforeDone u = true <;>
      by_cases hb2 : beforeDone { u with pc := p } = true <;>
      simp only [hb1, hb2, if_true, if_false, Bool.false_eq_true] at hwg hc1 <;> omega
  · rw [hunits]
    by_cases hb1 : lookedUp u = true <;>
      by_cases hb2 : lookedUp { u with pc := p } = true <;>
      simp only [hb1, hb2, if_true, if_false, Bool.false_eq_true] at hlook hc2 <;> omega
  · intro hp
    rw [hpend]
    rcases hp with hp | hp
    · exact h4 (Or.inl (hwt hp))
    · exact h4 (Or.inr (hex hp))
  · intro hp
    exact absurd (hex hp) hne

/-- Every step keeps the barrier state. -/
theorem barrier_step (sp : GoString) (addrs : List GoString) (s s1 : RunState) (a : Action)
    (h : Barrier addrs s) (hs : step sp s a = some s1) : Barrier addrs s1 := by
  cases a with
  | main =>
    obtain ⟨h1, h2, h3, h4, h5⟩ := h
    rcases step_main_some s s1 hs with ⟨hp, hq, e⟩ | ⟨hp, hq, e⟩ | ⟨hp, hq, e⟩ |
      ⟨ip, rest, hp, hq, e⟩ | ⟨hp, hq, e⟩
    · subst e
      rw [hp] at h2
      refine ⟨h1, ?_, h3, fun _ => hq, fun hx => by cases hx⟩
      simpa using h2
    · subst e
      rw [hp] at h2
      refine ⟨h1, ?_, h3, fun hx => ?_, fun hx => by cases hx⟩
      · simp only [reduceCtorEq, or_self, if_false, add_zero] at h2
        simp [h2]
      · rcases hx with hx | hx <;> cases hx
    · subst e
      rw [hp] at h2
      refine ⟨h1, ?_, h3, fun hx => ?_, fun hx => by cases hx⟩
      · simpa using h2
      · rcases hx with hx | hx <;> cases hx
    · subst e
      rw [hp] at h2
      rw [hq] at h1
      refine ⟨?_, ?_, ?_, fun hx => ?_, fun hx => by cases hx⟩
      · simpa using h1
      · simp only [reduceCtorEq, or_true, if_true] at h2
        simp [h2, beforeDone]
      · simp [h3, lookedUp]
      · rcases hx with hx | hx <;> cases hx
    · subst e
      rw [hp] at h2
      refine ⟨h1, ?_, h3, fun _ => h4 (Or.inl hp), fun _ => hq⟩
      simpa using h2
  | unit k x =>
    have hs2 : stepUnit sp s k x = some s1 := hs
    obtain ⟨hne, u, hu, hcase⟩ := step_unit_some sp s s1 k x hs2
    rcases hcase with ⟨hp, e⟩ | ⟨r, hp, e⟩ | ⟨hp, e⟩ | ⟨hp, _, e⟩
    · apply barrier_update addrs s s1 k u (.fetched x) h hu (by rw [e]) (by rw [e]) hne.1
        (Or.inl (by rw [e]))
      · simp [e, beforeDone, hp]
      · simp [e, lookedUp, hp]
    · apply barrier_update addrs s s1 k u .reported h hu (by rw [e]) (by rw [e]) hne.1
        (Or.inl (by rw [e]))
      · simp [e, beforeDone, hp]
      · simp [e, lookedUp, hp]
    · apply barrier_update addrs s s1 k u .doneCalled h hu (by rw [e]) (by rw [e]) hne.1
        (Or.inl (by rw [e]))
      · simp [e, beforeDone, hp]
      · simp [e, lookedUp, hp]
    · apply barrier_update addrs s s1 k u .finished h hu (by rw [e]) (by rw [e]) hne.1
        (Or.inl (by rw [e]))
      · simp [e, beforeDone, hp]
      · simp [e, lookedUp, hp]
  | rendezvous k =>
    have hs2 : stepRendezvous s k = some s1 := hs
    obtain ⟨_, hpc, u, hu, hp, e⟩ := step_rendezvous_some s s1 k hs2
    apply barrier_update addrs s s1 k u .finished h hu (by rw [e]) (by rw [e])
      (by rw [hpc]; intro hx; cases hx) (Or.inr ⟨hpc, by rw [e]⟩)
    · simp [e, beforeDone, hp]
    · simp [e, lookedUp, hp]

/-- In a run that starts at the head of the dispatch loop with no goroutine
and a wait group at 0, once `wg.Wait()` has returned every address has been
dispatched, in order, one goroutine each; every goroutine has made its lookup
and its report and has called `wg.Done()`; the number of lookups made is the
number of addresses. -/
theorem lookups_complete_at_exit (sp : GoString) (s0 s : RunState) (acts : List Action)
    (h0 : s0.pc = .add ∧ s0.units = [] ∧ s0.wg = 0 ∧ s0.lookups = 0)
    (hrun : runActions sp s0 acts = some s) (hexit : s.pc = .exited) :
    s.pending = [] ∧ s.units.map UnitState.ip = s0.pending ∧
    s.lookups = s0.pending.length ∧
    ∀ u ∈ s.units, u.pc = .doneCalled ∨ u.pc = .finished := by
  obtain ⟨hpc, hunits, hwg, hlook⟩ := h0
  have hinit : Barrier s0.pending s0 := by
    refine ⟨by simp [hunits], ?_, by simp [hunits, hlook], fun hx => ?_, fun hx => ?_⟩
    · simp [hunits, hwg, hpc]
    · rw [hpc] at hx
      rcases hx with hx | hx <;> cases hx
    · rw [hpc] at hx
      cases hx
  obtain ⟨h1, h2, h3, h4, h5⟩ :=
    reachable_induction sp (Barrier s0.pending)
      (fun t a t1 ht hst => barrier_step sp s0.pending t t1 a ht hst) acts s0 s hinit hrun
  have hpend := h4 (Or.inr hexit)
  rw [hpend, List.append_nil] at h1
  rw [h5 hexit, hexit] at h2
  simp only [reduceCtorEq, or_self, if_false, add_zero] at h2
  have hz : (s.units.filter beforeDone).length = 0 := by omega
  have hall : ∀ u ∈ s.units, u.pc = .doneCalled ∨ u.pc = .finished := by
    intro u hu
    have hb : beforeDone u = false := by
      by_contra hc
      have hm : u ∈ s.units.filter beforeDone := List.mem_filter.2 ⟨hu, by simpa using hc⟩
      rw [List.length_eq_zero.1 hz] at hm
      cases hm
    cases hq : u.pc <;> simp [beforeDone, hq] at hb ⊢
  refine ⟨hpend, h1, ?_, hall⟩
  have hlk : s.units.filter lookedUp = s.units := by
    apply List.filter_eq_self.2
    intro u hu
    rcases hall u hu with e | e <;> simp [lookedUp, e]
  rw [h3, hlk, ← h1, List.length_map]

/-- Witness of the barrier: one address, concurrency 1, the run in which
`main` returns while the goroutine is before its receive on the semaphore. -/
theorem lookups_complete_at_exit_witness :
    ∀ u ∈ ([⟨"192.0.2.5".toList, .doneCalled⟩] : List UnitState),
      u.pc = .doneCalled ∨ u.pc = .finished :=
  (lookups_complete_at_exit []
    { pc := .add, pending := ["192.0.2.5".toList], units := [], sem := 0, cap := 1, wg := 0,
      stdout := [], lookups := 0 }
    { pc := .exited, pending := [], units := [⟨"192.0.2.5".toList, .doneCalled⟩], sem := 1,
      cap := 1, wg := 0, stdout := [println "192.0.2.5:80".toList], lookups := 1 }
    [.main, .main, .main,
      .unit 0 (.ok { Hostnames := [], IP := "192.0.2.5".toList, Ports := [80] }),
      .unit 0 (.error []), .unit 0 (.error []), .main, .main]
    (by decide) (by decide) rfl).2.2.2

end InternetDB
